import Mathlib

/-!
# A shallow embedding of the `pq-trees` library

This file embeds, in Lean, the PQ-tree implementation of the repository
(`pqtree.cc` together with the `PQNode` implementation file), and proves or
refutes the specification claims about it.

Modelling conventions, fixed once for the whole file:

* C++ heap pointers (`PQNode*`) become natural-number node ids.  The heap is
  an association list from ids to node records; `new` allocates the next
  fresh id (ids increase in allocation order, and freed ids are never
  reused, modelling a monotone allocator).  `delete` removes the binding, so
  any later access through a dangling id is a detectable error.
* `std::set<PQNode*>` (iterated in pointer order) becomes a strictly sorted
  `List Nat` of ids; `std::set<int>` becomes a sorted `List Int`;
  `std::list<PQNode*>` becomes a plain `List Nat` in list order;
  `std::map<int, PQNode*>` becomes an association list sorted by key.
* Machine integers (`int`) become `Int`.  The one place where C++ unsigned
  arithmetic could differ (the loop guard of `Bubble`, which adds an `int`
  to `size_t`) is modelled explicitly where it is defined.
* Undefined behaviour (dereferencing a null or dangling pointer, reading
  past the two-element sibling/endmost arrays) and `assert` failures are
  modelled as explicit error outcomes of an `Except` computation; loops get
  an explicit fuel argument whose exhaustion is a third, separate error.
-/

namespace PQ

/-- `PQNode::PQNode_types` from `pqnode.h`. -/
inductive NType where
  | leaf
  | pnode
  | qnode
deriving DecidableEq, Repr

/-- `PQNode::PQNode_marks` from `pqnode.h`. -/
inductive NMark where
  | unmarked
  | queued
  | blocked
  | unblocked
deriving DecidableEq, Repr

/-- `PQNode::PQNode_labels` from `pqnode.h`.  The C++ enumerator `partial`
is called `part` here because `partial` is a Lean keyword. -/
inductive NLabel where
  | empty
  | full
  | part
deriving DecidableEq, Repr

/-- Error outcomes of embedded computations: `assertFail` models a failing
C++ `assert`, `ubAccess` models undefined behaviour (null/dangling pointer
dereference, out-of-bounds array write), and `outOfFuel` is the artefact of
bounding loops and recursion by fuel. -/
inductive Err where
  | assertFail
  | ubAccess
  | outOfFuel
deriving DecidableEq, Repr

/-- The fields of `class PQNode` (`pqnode.h`).  Fields that the C++
constructors leave uninitialised (`type_` and `pseudochild_` in `PQNode()`,
`pseudonode_`/`pseudochild_` in `PQNode(int)`, `leaf_value` for internal
nodes) are given fixed default values here; no claim depends on them
because the code assigns them before any observable read. -/
structure Node where
  type_ : NType := .leaf
  label_ : NLabel := .empty
  mark_ : NMark := .unmarked
  parent_ : Option Nat := none
  pertinent_child_count : Int := 0
  pertinent_leaf_count : Int := 0
  leaf_value : Int := 0
  pseudonode_ : Bool := false
  pseudochild_ : Bool := false
  circular_link_ : List Nat := []
  endmost_children_0 : Option Nat := none
  endmost_children_1 : Option Nat := none
  pseudo_neighbors_0 : Option Nat := none
  pseudo_neighbors_1 : Option Nat := none
  immediate_siblings_ : List Nat := []
  full_children_ : List Nat := []
  partial_children_ : List Nat := []
deriving DecidableEq, Repr

/-- The node heap of one `PQTree` object: an association list from node ids
to nodes plus the next fresh id. -/
structure Hp where
  nodes : List (Nat × Node) := []
  next : Nat := 0
deriving DecidableEq, Repr

/-- Strictly-sorted insertion into a sorted id list
(models `std::set<PQNode*>::insert`). -/
def insSet (x : Nat) : List Nat → List Nat
  | [] => [x]
  | y :: ys =>
    if x < y then x :: y :: ys
    else if x = y then y :: ys
    else y :: insSet x ys

/-- Removal from an id list (models `std::set<PQNode*>::erase`). -/
def eraseSet (x : Nat) : List Nat → List Nat
  | [] => []
  | y :: ys => if x = y then ys else y :: eraseSet x ys

/-- `std::list<PQNode*>::remove` removes *every* element equal to the
argument. -/
def listRemove (x : Nat) : List Nat → List Nat
  | [] => []
  | y :: ys => if x = y then listRemove x ys else y :: listRemove x ys

/-- Heap lookup (pointer dereference, total variant). -/
def Hp.get (hp : Hp) (i : Nat) : Option Node :=
  go hp.nodes
where
  go : List (Nat × Node) → Option Node
    | [] => none
    | (k, nd) :: rest => if k = i then some nd else go rest

/-- Heap update: replaces the binding of an existing id (all heap writes in
the embedding go through ids previously obtained from a successful `get`). -/
def Hp.set (hp : Hp) (i : Nat) (nd : Node) : Hp :=
  { hp with nodes := go hp.nodes }
where
  go : List (Nat × Node) → List (Nat × Node)
    | [] => []
    | (k, old) :: rest => if k = i then (k, nd) :: rest else (k, old) :: go rest

/-- `new PQNode(...)`: allocates the next fresh id. -/
def Hp.alloc (hp : Hp) (nd : Node) : Nat × Hp :=
  (hp.next, { nodes := hp.nodes ++ [(hp.next, nd)], next := hp.next + 1 })

/-- `delete`: removes the binding; later accesses are dangling. -/
def Hp.del (hp : Hp) (i : Nat) : Hp :=
  { hp with nodes := go hp.nodes }
where
  go : List (Nat × Node) → List (Nat × Node)
    | [] => []
    | (k, nd) :: rest => if k = i then rest else (k, nd) :: go rest

/-- Pointer dereference: dangling/unknown ids are undefined behaviour. -/
def getE (hp : Hp) (i : Nat) : Except Err Node :=
  match hp.get i with
  | some nd => .ok nd
  | none => .error .ubAccess

/-- Dereference of a possibly-null pointer. -/
def getOptE (hp : Hp) (oi : Option Nat) : Except Err Node :=
  match oi with
  | some i => getE hp i
  | none => .error .ubAccess

end PQ

namespace PQ

/-! ## `PQNode` member functions

Transcribed from the `PQNode` implementation file (the `std::set`-based
sibling representation that `pqtree.cc` manipulates).  Each function takes
the heap and the id of the receiver (`this`). -/

/-- `PQNode::LabelAsFull`. -/
def labelAsFull (hp : Hp) (i : Nat) : Except Err Hp := do
  let nd ← getE hp i
  let hp := hp.set i { nd with label_ := .full }
  match nd.parent_ with
  | none => .ok hp
  | some p => do
      let pn ← getE hp p
      .ok (hp.set p { pn with full_children_ := insSet i pn.full_children_ })

/-- `PQNode::QNextChild` (set-based version): the next child in the sibling
chain given the previous one.  `*begin()` of an empty sibling set is
undefined behaviour in C++ and is an error here. -/
def qNextChild (hp : Hp) (i : Nat) (last : Option Nat) : Except Err (Option Nat) := do
  let nd ← getE hp i
  match nd.immediate_siblings_ with
  | [] => .error .ubAccess
  | [a] =>
      if some a = last then .ok none else .ok (some a)
  | a :: b :: rest =>
      if some a = last then .ok (some b)
      else if last = none ∧ rest = [] then do
        -- the edge of a pseudonode: prefer the sibling that is not empty
        let na ← getE hp a
        if na.label_ ≠ .empty then .ok (some a) else .ok (some b)
      else .ok (some a)

/-- `PQNode::SwapQ`: removes `this` (`i`) from a Q-node parent and puts
`toInsert` in its place. -/
def swapQ (hp : Hp) (i : Nat) (toInsert : Nat) : Except Err Hp := do
  let nd ← getE hp i
  let tn ← getE hp toInsert
  let hp := hp.set toInsert { tn with pseudochild_ := nd.pseudochild_ }
  let hp ←
    match nd.parent_ with
    | none => .error .ubAccess
    | some p => do
        let pn ← getE hp p
        if pn.endmost_children_0 = some i then
          .ok (hp.set p { pn with endmost_children_0 := some toInsert })
        else if pn.endmost_children_1 = some i then
          .ok (hp.set p { pn with endmost_children_1 := some toInsert })
        else .ok hp
  let tn2 ← getE hp toInsert
  let hp := hp.set toInsert { tn2 with immediate_siblings_ := [] }
  let hp ← swapQSibs i toInsert nd.immediate_siblings_ hp
  let nd2 ← getE hp i
  .ok (hp.set i { nd2 with immediate_siblings_ := [], parent_ := none })
where
  swapQSibs (i toInsert : Nat) : List Nat → Hp → Except Err Hp
    | [], hp => .ok hp
    | s :: ss, hp => do
        let tn ← getE hp toInsert
        let hp := hp.set toInsert
          { tn with immediate_siblings_ := insSet s tn.immediate_siblings_ }
        let sn ← getE hp s
        let hp := hp.set s
          { sn with immediate_siblings_ :=
              insSet toInsert (eraseSet i sn.immediate_siblings_) }
        swapQSibs i toInsert ss hp

/-- Checks one `endmost_children_` slot for a label. -/
def slotHasLabel (hp : Hp) (slot : Option Nat) (lab : NLabel) : Except Err (Option Nat) :=
  match slot with
  | none => .ok none
  | some c => do
      let cn ← getE hp c
      if cn.label_ = lab then .ok (some c) else .ok none

/-- `PQNode::EndmostChildWithLabel`. -/
def endmostChildWithLabel (hp : Hp) (i : Nat) (lab : NLabel) : Except Err (Option Nat) := do
  let nd ← getE hp i
  let r0 ← slotHasLabel hp nd.endmost_children_0 lab
  if r0.isSome then .ok r0
  else slotHasLabel hp nd.endmost_children_1 lab

/-- `PQNode::CircularChildWithLabel`. -/
def circularChildWithLabel (hp : Hp) (i : Nat) (lab : NLabel) : Except Err (Option Nat) := do
  let nd ← getE hp i
  circGo hp lab nd.circular_link_
where
  circGo (hp : Hp) (lab : NLabel) : List Nat → Except Err (Option Nat)
    | [] => .ok none
    | c :: cs => do
        let cn ← getE hp c
        if cn.label_ = lab then .ok (some c) else circGo hp lab cs

/-- `PQNode::ImmediateSiblingWithLabel` (set-based version). -/
def immediateSiblingWithLabel (hp : Hp) (i : Nat) (lab : NLabel) : Except Err (Option Nat) := do
  let nd ← getE hp i
  sibGo hp lab nd.immediate_siblings_
where
  sibGo (hp : Hp) (lab : NLabel) : List Nat → Except Err (Option Nat)
    | [] => .ok none
    | s :: ss => do
        let sn ← getE hp s
        if sn.label_ = lab then .ok (some s) else sibGo hp lab ss

/-- `PQNode::ReplaceEndmostChild`: replaces the first matching slot. -/
def replaceEndmostChild (hp : Hp) (i oldC newC : Nat) : Except Err Hp := do
  let nd ← getE hp i
  if nd.endmost_children_0 = some oldC then
    .ok (hp.set i { nd with endmost_children_0 := some newC })
  else if nd.endmost_children_1 = some oldC then
    .ok (hp.set i { nd with endmost_children_1 := some newC })
  else .ok hp

/-- `PQNode::ReplaceImmediateSibling` (set-based version): erase `oldC`,
insert `newC`, and register `this` as a sibling of `newC`. -/
def replaceImmediateSibling (hp : Hp) (i oldC newC : Nat) : Except Err Hp := do
  let nd ← getE hp i
  let hp := hp.set i
    { nd with immediate_siblings_ := insSet newC (eraseSet oldC nd.immediate_siblings_) }
  let nn ← getE hp newC
  .ok (hp.set newC { nn with immediate_siblings_ := insSet i nn.immediate_siblings_ })

/-- `PQNode::ReplaceCircularLink`: `circular_link_.remove(old); push_back(new)`. -/
def replaceCircularLink (hp : Hp) (i oldC newC : Nat) : Except Err Hp := do
  let nd ← getE hp i
  .ok (hp.set i { nd with circular_link_ := listRemove oldC nd.circular_link_ ++ [newC] })

/-- `PQNode::MoveFullChildren`: moves each full child of `i` into the
circular link of `newNode`, re-parenting it. -/
def moveFullChildren (hp : Hp) (i newNode : Nat) : Except Err Hp := do
  let nd ← getE hp i
  mfcGo i newNode nd.full_children_ hp
where
  mfcGo (i newNode : Nat) : List Nat → Hp → Except Err Hp
    | [], hp => .ok hp
    | c :: cs, hp => do
        let fromN ← getE hp i
        let hp := hp.set i { fromN with circular_link_ := listRemove c fromN.circular_link_ }
        let toN ← getE hp newNode
        let hp := hp.set newNode { toN with circular_link_ := toN.circular_link_ ++ [c] }
        let cn ← getE hp c
        mfcGo i newNode cs (hp.set c { cn with parent_ := some newNode })

/-- `PQNode::ForgetChildren`: nulls both endmost-children slots. -/
def forgetChildren (hp : Hp) (i : Nat) : Except Err Hp := do
  let nd ← getE hp i
  .ok (hp.set i { nd with endmost_children_0 := none, endmost_children_1 := none })

/-- `PQNode::SwapQ` continued: `PQNode::ReplacePartialChild`. -/
def replacePartialChild (hp : Hp) (i oldC newC : Nat) : Except Err Hp := do
  let nn ← getE hp newC
  let hp := hp.set newC { nn with parent_ := some i }
  let nd ← getE hp i
  let nd := { nd with partial_children_ := eraseSet oldC (insSet newC nd.partial_children_) }
  if nd.type_ = .pnode then
    .ok (hp.set i { nd with circular_link_ := listRemove oldC nd.circular_link_ ++ [newC] })
  else do
    let hp := hp.set i nd
    swapQ hp oldC newC


end PQ

namespace PQ

/-! ## Recursive tree walks

`FindLeaves`, `FindFrontier`, `Reset` and `Print` are the four depth-first
walks of the `PQNode` implementation file.  Each pnode walks
`circular_link_` in order; each qnode walks the sibling chain starting from
`endmost_children_[0]` stepping with `QNextChild`.  All recursion is
bounded by fuel: every recursive call decrements it once. -/

mutual

/-- `PQNode::FindFrontier`: the left-to-right list of leaf values. -/
def findFrontierN : Nat → Hp → Nat → Except Err (List Int)
  | 0, _, _ => .error .outOfFuel
  | fuel+1, hp, i => do
    let nd ← getE hp i
    match nd.type_ with
    | .leaf => .ok [nd.leaf_value]
    | .pnode => findFrontierList fuel hp nd.circular_link_
    | .qnode => findFrontierChain fuel hp nd.endmost_children_0 none

/-- Frontier of a pnode's `circular_link_`, in list order. -/
def findFrontierList : Nat → Hp → List Nat → Except Err (List Int)
  | 0, _, _ => .error .outOfFuel
  | _+1, _, [] => .ok []
  | fuel+1, hp, c :: cs => do
    let xs ← findFrontierN fuel hp c
    let ys ← findFrontierList fuel hp cs
    .ok (xs ++ ys)

/-- Frontier of a qnode's sibling chain (`while (current) { ...; next =
current->QNextChild(last); last = current; current = next; }`). -/
def findFrontierChain : Nat → Hp → Option Nat → Option Nat → Except Err (List Int)
  | 0, _, _, _ => .error .outOfFuel
  | _+1, _, none, _ => .ok []
  | fuel+1, hp, some c, last => do
    let xs ← findFrontierN fuel hp c
    let nxt ← qNextChild hp c last
    let ys ← findFrontierChain fuel hp nxt (some c)
    .ok (xs ++ ys)

end

mutual

/-- `PQNode::FindLeaves`: every `(leaf_value, id)` pair in visit order
(the caller folds these into the value-to-leaf map, later entries first
overwriting earlier ones exactly as repeated `map[v] = node` writes do). -/
def findLeavesN : Nat → Hp → Nat → Except Err (List (Int × Nat))
  | 0, _, _ => .error .outOfFuel
  | fuel+1, hp, i => do
    let nd ← getE hp i
    match nd.type_ with
    | .leaf => .ok [(nd.leaf_value, i)]
    | .pnode => findLeavesList fuel hp nd.circular_link_
    | .qnode => findLeavesChain fuel hp nd.endmost_children_0 none

/-- `FindLeaves` over a pnode's children. -/
def findLeavesList : Nat → Hp → List Nat → Except Err (List (Int × Nat))
  | 0, _, _ => .error .outOfFuel
  | _+1, _, [] => .ok []
  | fuel+1, hp, c :: cs => do
    let xs ← findLeavesN fuel hp c
    let ys ← findLeavesList fuel hp cs
    .ok (xs ++ ys)

/-- `FindLeaves` over a qnode's sibling chain. -/
def findLeavesChain : Nat → Hp → Option Nat → Option Nat → Except Err (List (Int × Nat))
  | 0, _, _, _ => .error .outOfFuel
  | _+1, _, none, _ => .ok []
  | fuel+1, hp, some c, last => do
    let xs ← findLeavesN fuel hp c
    let nxt ← qNextChild hp c last
    let ys ← findLeavesChain fuel hp nxt (some c)
    .ok (xs ++ ys)

end

/-- Sorted-map insertion for the value-to-leaf map (`std::map<int,PQNode*>`);
an existing key is overwritten. -/
def mapInsert (k : Int) (v : Nat) : List (Int × Nat) → List (Int × Nat)
  | [] => [(k, v)]
  | (k', v') :: rest =>
    if k < k' then (k, v) :: (k', v') :: rest
    else if k = k' then (k, v) :: rest
    else (k', v') :: mapInsert k v rest

/-- Lookup in the value-to-leaf map. -/
def mapLookup (m : List (Int × Nat)) (k : Int) : Option Nat :=
  match m with
  | [] => none
  | (k', v') :: rest => if k = k' then some v' else mapLookup rest k

/-- Builds the value-to-leaf map from `FindLeaves` output. -/
def buildLeafMap (pairs : List (Int × Nat)) : List (Int × Nat) :=
  pairs.foldl (fun m p => mapInsert p.1 p.2 m) []

mutual

/-- `PQNode::Reset`: recursively clears labels, marks, transient counters
and the full/partial children sets. -/
def resetN : Nat → Hp → Nat → Except Err Hp
  | 0, _, _ => .error .outOfFuel
  | fuel+1, hp, i => do
    let nd ← getE hp i
    let hp ←
      match nd.type_ with
      | .leaf => .ok hp
      | .pnode => resetList fuel hp nd.circular_link_
      | .qnode => resetChain fuel hp nd.endmost_children_0 none
    let nd2 ← getE hp i
    .ok (hp.set i { nd2 with
      full_children_ := [], partial_children_ := [],
      label_ := .empty, mark_ := .unmarked,
      pertinent_child_count := 0, pertinent_leaf_count := 0,
      pseudochild_ := false, pseudonode_ := false })

/-- `Reset` over a pnode's children. -/
def resetList : Nat → Hp → List Nat → Except Err Hp
  | 0, _, _ => .error .outOfFuel
  | _+1, hp, [] => .ok hp
  | fuel+1, hp, c :: cs => do
    let hp ← resetN fuel hp c
    resetList fuel hp cs

/-- `Reset` over a qnode's sibling chain; each step reads the heap already
mutated by the recursive call, exactly as the C++ loop does. -/
def resetChain : Nat → Hp → Option Nat → Option Nat → Except Err Hp
  | 0, _, _, _ => .error .outOfFuel
  | _+1, hp, none, _ => .ok hp
  | fuel+1, hp, some c, last => do
    let hp ← resetN fuel hp c
    let nxt ← qNextChild hp c last
    resetChain fuel hp nxt (some c)

end

mutual

/-- `PQNode::Print`: pnodes as `( ... )`, qnodes as `[ ... ]`, leaves as
their integer value, single-space separated. -/
def printN : Nat → Hp → Nat → Except Err String
  | 0, _, _ => .error .outOfFuel
  | fuel+1, hp, i => do
    let nd ← getE hp i
    match nd.type_ with
    | .leaf => .ok (toString nd.leaf_value)
    | .pnode => do
        let parts ← printList fuel hp nd.circular_link_
        .ok ("(" ++ String.intercalate " " parts ++ ")")
    | .qnode => do
        let parts ← printChain fuel hp nd.endmost_children_0 none
        .ok ("[" ++ String.intercalate " " parts ++ "]")

/-- `Print` fragments of a pnode's children. -/
def printList : Nat → Hp → List Nat → Except Err (List String)
  | 0, _, _ => .error .outOfFuel
  | _+1, _, [] => .ok []
  | fuel+1, hp, c :: cs => do
    let s ← printN fuel hp c
    let ss ← printList fuel hp cs
    .ok (s :: ss)

/-- `Print` fragments of a qnode's sibling chain. -/
def printChain : Nat → Hp → Option Nat → Option Nat → Except Err (List String)
  | 0, _, _, _ => .error .outOfFuel
  | _+1, _, none, _ => .ok []
  | fuel+1, hp, some c, last => do
    let s ← printN fuel hp c
    let nxt ← qNextChild hp c last
    let ss ← printChain fuel hp nxt (some c)
    .ok (s :: ss)

end

end PQ

namespace PQ

/-! ## `PQNode::Copy` — the deep copy used for safe reduction

`PQTree` objects own disjoint node arenas in C++, so the copy reads a
*source* heap and allocates in a separate *target* heap.  Scalar fields are
copied; the relational fields are rebuilt during the walk, exactly as in
the source (`CopyAsChild` sets each copy's parent to the copying node). -/

/-- The scalar part of `PQNode::Copy`: every relational field starts
cleared. -/
def copyScalars (nd : Node) : Node :=
  { type_ := nd.type_, label_ := nd.label_, mark_ := nd.mark_,
    parent_ := none,
    pertinent_child_count := nd.pertinent_child_count,
    pertinent_leaf_count := nd.pertinent_leaf_count,
    leaf_value := nd.leaf_value,
    pseudonode_ := nd.pseudonode_, pseudochild_ := nd.pseudochild_ }

mutual

/-- `new PQNode(*src)`: deep-copies node `i` of `src` into `tgt`,
returning the new id. -/
def copyNodeX : Nat → Hp → Nat → Hp → Except Err (Nat × Hp)
  | 0, _, _, _ => .error .outOfFuel
  | fuel+1, src, i, tgt => do
    let nd ← getE src i
    let (nid, tgt) := tgt.alloc (copyScalars nd)
    -- copy the nodes in circular link (a no-op unless this is a pnode)
    let (kids, tgt) ← copyKidsX fuel src nd.circular_link_ tgt nid
    let selfN ← getE tgt nid
    let tgt := tgt.set nid { selfN with circular_link_ := kids }
    -- copy the sibling chain for qnodes
    if nd.type_ = .qnode then
      match nd.endmost_children_0 with
      | none => .error .ubAccess
      | some e0 => do
          let (e0c, tgt) ← copyNodeX fuel src e0 tgt
          let e0n ← getE tgt e0c
          let tgt := tgt.set e0c { e0n with parent_ := some nid }
          let selfN2 ← getE tgt nid
          let tgt := tgt.set nid { selfN2 with endmost_children_0 := some e0c }
          let (lastNew, tgt) ← copyChainX fuel src e0 none tgt nid e0c none
          let selfN3 ← getE tgt nid
          -- `endmost_children_[1] = current`: `current` is uninitialised
          -- (modelled `none`) when the source chain has a single node.
          .ok (nid, tgt.set nid { selfN3 with endmost_children_1 := lastNew })
    else .ok (nid, tgt)
termination_by structural fuel _ _ _ => fuel

/-- `CopyAsChild` over the `circular_link_` list: copies each child,
re-parents the copy to `nid`, and returns the new ids in order. -/
def copyKidsX : Nat → Hp → List Nat → Hp → Nat → Except Err (List Nat × Hp)
  | 0, _, _, _, _ => .error .outOfFuel
  | _+1, _, [], tgt, _ => .ok ([], tgt)
  | fuel+1, src, c :: cs, tgt, nid => do
    let (cid, tgt) ← copyNodeX fuel src c tgt
    let cn ← getE tgt cid
    let tgt := tgt.set cid { cn with parent_ := some nid }
    let (rest, tgt) ← copyKidsX fuel src cs tgt nid
    .ok (cid :: rest, tgt)
termination_by structural fuel _ _ _ _ => fuel

/-- The chain-copy loop of `PQNode::Copy`: walks the source chain from
`curCopy` (previous step `lastCopy`), copying each next node, linking it to
the previously created copy `lastNew`, and returning the final value of the
loop variable `current` (`none` when the loop body never ran). -/
def copyChainX : Nat → Hp → Nat → Option Nat → Hp → Nat → Nat → Option Nat →
    Except Err (Option Nat × Hp)
  | 0, _, _, _, _, _, _, _ => .error .outOfFuel
  | fuel+1, src, curCopy, lastCopy, tgt, parentNew, lastNew, currentNew => do
    let nextCopy ← qNextChild src curCopy lastCopy
    match nextCopy with
    | none => .ok (currentNew, tgt)
    | some nxt => do
        let (cNew, tgt) ← copyNodeX fuel src nxt tgt
        let cn ← getE tgt cNew
        let tgt := tgt.set cNew { cn with parent_ := some parentNew }
        -- current->immediate_siblings_.insert(last);
        -- last->immediate_siblings_.insert(current);
        let cn2 ← getE tgt cNew
        let tgt := tgt.set cNew
          { cn2 with immediate_siblings_ := insSet lastNew cn2.immediate_siblings_ }
        let ln ← getE tgt lastNew
        let tgt := tgt.set lastNew
          { ln with immediate_siblings_ := insSet cNew ln.immediate_siblings_ }
        copyChainX fuel src nxt (some curCopy) tgt parentNew cNew (some cNew)
termination_by structural fuel _ _ _ _ _ _ _ => fuel

end

/-! ## `QNodeChildrenIterator` (set-based version) -/

/-- The iterator's four pointer fields. -/
structure QIter where
  parent_ : Nat
  current_ : Option Nat
  next_ : Option Nat
  prev_ : Option Nat
deriving DecidableEq, Repr

/-- `QNodeChildrenIterator::Reset` (also the constructor): positions the
iterator at `endmost_children_[0]` or at the forced `begin_side`. -/
def qiterReset (hp : Hp) (parentId : Nat) (beginSide : Option Nat) : Except Err QIter := do
  let pn ← getE hp parentId
  let cur := match beginSide with
    | some b => some b
    | none => pn.endmost_children_0
  match cur with
  | none => .error .ubAccess
  | some c => do
      let cn ← getE hp c
      match cn.immediate_siblings_ with
      | [] => .error .ubAccess
      | s :: _ => .ok ⟨parentId, some c, some s, none⟩

/-- `QNodeChildrenIterator::IsDone`. -/
def qiterIsDone (it : QIter) : Bool :=
  it.current_.isNone

/-- `QNodeChildrenIterator::NextPseudoNodeSibling`: advance to the
non-empty-labelled sibling of `current_`.  Note the source reads
`current_->ImmediateSiblingWithLabel(partial)` *after* assigning
`current_ = NULL` when there is no full sibling, a null dereference which
is modelled as the error it is. -/
def qiterNextPseudo (hp : Hp) (it : QIter) : Except Err QIter := do
  match it.current_ with
  | none => .error .ubAccess
  | some c => do
      let fullSib ← immediateSiblingWithLabel hp c .full
      match fullSib with
      | some f => .ok { it with prev_ := some c, current_ := some f }
      | none => .error .ubAccess

/-- `QNodeChildrenIterator::Next`. -/
def qiterNext (hp : Hp) (it : QIter) : Except Err QIter := do
  if qiterIsDone it then .ok it
  else do
    let c ← match it.current_ with
      | some c => Except.ok c
      | none => Except.error Err.ubAccess
    let cn ← getE hp c
    let it ←
      if it.prev_ = none ∧ cn.immediate_siblings_.length = 2 then
        qiterNextPseudo hp it
      else
        .ok { it with prev_ := it.current_, current_ := it.next_ }
    match it.current_ with
    | none => .ok it
    | some c2 => do
        let c2n ← getE hp c2
        match c2n.immediate_siblings_ with
        | [] => .error .ubAccess
        | [_] => .ok { it with next_ := none }
        | a :: b :: _ =>
            if some a ≠ it.prev_ then .ok { it with next_ := some a }
            else .ok { it with next_ := some b }

end PQ

namespace PQ

/-! ## Tree-level state and the template catalogue (`pqtree.cc`)

`Ct` groups the `PQTree` members that the bubble/reduce machinery and the
templates touch.  The `invalid_` flag and the `reductions_` log live one
level up (in `St`), because no function below `PQTree::Reduce` reads or
writes them. -/

/-- The core members of `class PQTree`. -/
structure Ct where
  hp : Hp
  root_ : Nat
  leaf_address_ : List (Int × Nat)
  pseudonode_ : Option Nat := none
  block_count_ : Int := 0
  blocked_nodes_ : Int := 0
  off_the_top_ : Int := 0
deriving DecidableEq, Repr

/-- Read-modify-write of one node (a C++ `node->field = ...;` statement). -/
def upd (hp : Hp) (i : Nat) (f : Node → Node) : Except Err Hp := do
  let nd ← getE hp i
  .ok (hp.set i (f nd))

/-- `new PQNode`: the non-leaf constructor.  (`type_` and `pseudochild_`
are left uninitialised by the C++ constructor; every caller assigns
`type_` immediately, and `pseudochild_` defaults to `false` here.) -/
def newPQNode : Node :=
  { type_ := .pnode, label_ := .empty, mark_ := .unmarked, parent_ := none,
    pertinent_child_count := 0, pertinent_leaf_count := 0 }

/-- The recurring "make one node of the full children" step of templates
P3–P6: a single full child is unhooked from the host's circular link,
while several are gathered under a fresh full P-node aggregate. -/
def fullChildRep (hp : Hp) (x : Nat) (fcs : List Nat) :
    Except Err (Nat × Hp) :=
  if fcs.length = 1 then
    match fcs with
    | fc :: _ => do
        let hp ← upd hp x (fun n =>
          { n with circular_link_ := listRemove fc n.circular_link_ })
        pure (fc, hp)
    | [] => .error .ubAccess
  else do
    let (fc, hp) := hp.alloc { newPQNode with type_ := .pnode, label_ := .full }
    let hp ← moveFullChildren hp x fc
    pure (fc, hp)

/-- The empty-side counterpart in `TemplateP3`: a host left with a single
empty child hands it over and is destroyed; otherwise the host itself
becomes the empty aggregate. -/
def p3EmptyRep (hp : Hp) (x : Nat) (ndL : Node) : Except Err (Nat × Hp) :=
  if ndL.circular_link_.length = 1 then
    match ndL.circular_link_ with
    | ec :: _ =>
        let hp := hp.set x { ndL with circular_link_ := [] }
        pure (ec, hp.del x)
    | [] => .error .ubAccess
  else pure (x, hp)

/-- `PQTree::TemplateL1`: a leaf matches and is labelled full. -/
def templateL1 (_fuel : Nat) (x : Nat) (ct : Ct) : Except Err (Bool × Ct) := do
  let nd ← getE ct.hp x
  if nd.type_ ≠ .leaf then .ok (false, ct)
  else do
    let hp ← labelAsFull ct.hp x
    .ok (true, { ct with hp := hp })

/-- The `Q1` iterator loop: are all children full? -/
def q1Loop : Nat → Hp → QIter → Except Err Bool
  | 0, _, _ => .error .outOfFuel
  | fuel+1, hp, it =>
    if qiterIsDone it then .ok true
    else do
      let cn ← getOptE hp it.current_
      if cn.label_ ≠ .full then .ok false
      else do
        let it2 ← qiterNext hp it
        q1Loop fuel hp it2

/-- `PQTree::TemplateQ1`: a Q-node with only full children. -/
def templateQ1 (fuel : Nat) (x : Nat) (ct : Ct) : Except Err (Bool × Ct) := do
  let nd ← getE ct.hp x
  if nd.type_ ≠ .qnode then .ok (false, ct)
  else do
    let it ← qiterReset ct.hp x none
    let allFull ← q1Loop fuel ct.hp it
    if allFull then do
      let hp ← labelAsFull ct.hp x
      .ok (true, { ct with hp := hp })
    else .ok (false, ct)

/-- The `Q2` full-run loop: from the full endmost child, the next
`full_children_.size()` children must all be full. -/
def q2RunLoop (hp : Hp) : Nat → QIter → Except Err (Bool × QIter)
  | 0, it => .ok (true, it)
  | k+1, it => do
    let cn ← getOptE hp it.current_
    if cn.label_ ≠ .full then .ok (false, it)
    else do
      let it2 ← qiterNext hp it
      q2RunLoop hp k it2

/-- The match test of `TemplateQ2`: when there are full children they must
form a run anchored at exactly one full endmost child, with the partial
child (if any) right after the run; with no full children a partial
endmost child suffices.  Read-only. -/
def q2Matched (hp : Hp) (x : Nat) (nd : Node) : Except Err Bool :=
  if nd.full_children_ ≠ [] then do
    -- count the full endmost children (both slots are dereferenced)
    let e0 ← getOptE hp nd.endmost_children_0
    let e1 ← getOptE hp nd.endmost_children_1
    let numFullEnds := (if e0.label_ = .full then 1 else 0) +
                       (if e1.label_ = .full then 1 else 0)
    if numFullEnds ≠ 1 then pure false
    else do
      let fullEnd := if e1.label_ = .full then nd.endmost_children_1
                     else nd.endmost_children_0
      let it ← qiterReset hp x fullEnd
      let (runOk, it) ← q2RunLoop hp nd.full_children_.length it
      if !runOk then pure false
      else do
        -- if (iter.Current()->label_ != partial && |partials| == 1) fail
        let cn ← getOptE hp it.current_
        if cn.label_ ≠ .part ∧ nd.partial_children_.length = 1 then pure false
        else pure true
  else do
    let pc ← endmostChildWithLabel hp x .part
    pure pc.isSome

/-- One end-splice of the `TemplateQ2` merge: hand the dissolving partial
child's end child to the matching immediate sibling, or make it the host's
new endmost child. -/
def q2Splice (hp : Hp) (x toMerge : Nat) (sib child : Option Nat) :
    Except Err Hp :=
  match sib, child with
  | some s, some c => replaceImmediateSibling hp s toMerge c
  | some _, none => .error .ubAccess
  | none, some c => do
      let hp ← replaceEndmostChild hp x toMerge c
      upd hp c (fun n => { n with parent_ := some x })
  | none, none => .error .ubAccess

/-- `PQTree::TemplateQ2` (the version whose merge step claim C10 cites):
a non-pseudo Q-node with at most one partial child, whose full children
form a run anchored at an endmost child, the partial child (if any)
adjacent to that run; the partial child is dissolved into the host. -/
def templateQ2 (_fuel : Nat) (x : Nat) (ct : Ct) : Except Err (Bool × Ct) := do
  let nd ← getE ct.hp x
  if nd.type_ ≠ .qnode ∨ nd.pseudonode_ ∨ nd.partial_children_.length > 1 then
    .ok (false, ct)
  else do
    let matched ← q2Matched ct.hp x nd
    if !matched then .ok (false, ct)
    else do
      let hp ←
        match nd.partial_children_ with
        | [] => pure ct.hp
        | toMerge :: _ => do
            let hp := ct.hp
            let fullChild ← endmostChildWithLabel hp toMerge .full
            let emptyChild ← endmostChildWithLabel hp toMerge .empty
            let fullSib ← immediateSiblingWithLabel hp toMerge .full
            let emptySib ← immediateSiblingWithLabel hp toMerge .empty
            let hp ← q2Splice hp x toMerge fullSib fullChild
            let hp ← q2Splice hp x toMerge emptySib emptyChild
            let hp ← forgetChildren hp toMerge
            pure (hp.del toMerge)
      let hp ← upd hp x (fun n => { n with label_ := .part })
      let nd2 ← getE hp x
      let hp ←
        match nd2.parent_ with
        | none => pure hp
        | some p => upd hp p (fun n =>
            { n with partial_children_ := insSet x n.partial_children_ })
      .ok (true, { ct with hp := hp })

/-- The `Q3` consecutivity scan over the children, carrying
`run_started` / `run_finished`. -/
def q3ScanLoop : Nat → Hp → QIter → Bool → Bool → Except Err Bool
  | 0, _, _, _, _ => .error .outOfFuel
  | fuel+1, hp, it, runStarted, runFinished =>
    if qiterIsDone it then .ok true
    else do
      let cn ← getOptE hp it.current_
      match cn.label_ with
      | .full =>
          if runFinished then .ok false
          else do
            let it2 ← qiterNext hp it
            q3ScanLoop fuel hp it2 true runFinished
      | .empty => do
          let it2 ← qiterNext hp it
          q3ScanLoop fuel hp it2 runStarted (runFinished || runStarted)
      | .part =>
          if runFinished then .ok false
          else do
            let it2 ← qiterNext hp it
            q3ScanLoop fuel hp it2 true runStarted

/-- The merge of one partial child in `TemplateQ3`.  `CS` is the local of
the source whose value is left unassigned when the partial child has no
immediate siblings and the host is not a pseudonode. -/
def q3MergeOne (x : Nat) (ct : Ct) (toMerge : Nat) : Except Err Ct := do
  let hp := ct.hp
  let tm ← getE hp toMerge
  let emptyChild ← endmostChildWithLabel hp toMerge .empty
  let fullChild ← endmostChildWithLabel hp toMerge .full
  -- for each immediate sibling, splice in the matching end of the partial
  let (hp, cs) ← tm.immediate_siblings_.foldlM
    (fun (acc : Hp × Option Nat) s => do
      let (hp, _) := acc
      let sn ← getE hp s
      if sn.label_ = .empty then
        match emptyChild with
        | none => .error .ubAccess
        | some ec => do
            let hp ← replaceImmediateSibling hp s toMerge ec
            pure (hp, fullChild)
      else
        match fullChild with
        | none => .error .ubAccess
        | some fc => do
            let hp ← replaceImmediateSibling hp s toMerge fc
            pure (hp, emptyChild))
    (hp, (none : Option Nat))
  let host ← getE hp x
  let cs := if host.pseudonode_ then emptyChild else cs
  let hasOnlyOneSibling := tm.immediate_siblings_.length = 1
  let hp ←
    if hasOnlyOneSibling ∨ host.pseudonode_ then do
      match cs with
      | none => .error .ubAccess
      | some c => do
          let hp ← upd hp c (fun n => { n with parent_ := some x })
          replaceEndmostChild hp x toMerge c
    else pure hp
  let hp ← forgetChildren hp toMerge
  .ok { ct with hp := hp.del toMerge }

/-- `PQTree::TemplateQ3` (the version whose linear scan claim C8 cites):
a Q-node with at most two partial children whose full/partial children
form one consecutive run, partials at the run's ends; each partial child
is dissolved in place.  (The `cout << "Q3"` debug print has no tree
effect.) -/
def templateQ3 (fuel : Nat) (x : Nat) (ct : Ct) : Except Err (Bool × Ct) := do
  let nd ← getE ct.hp x
  if nd.type_ ≠ .qnode ∨ nd.partial_children_.length > 2 then .ok (false, ct)
  else if nd.pseudonode_ ∧ nd.endmost_children_1 = none then .ok (true, ct)
  else do
    let it ← qiterReset ct.hp x none
    let scanOk ← q3ScanLoop fuel ct.hp it false false
    if !scanOk then .ok (false, ct)
    else do
      let ct ← nd.partial_children_.foldlM (q3MergeOne x) ct
      .ok (true, ct)

end PQ

namespace PQ

/-- `PQTree::TemplateP1`: a P-node with all children full.  When not the
reduction root, the (possibly stale) parent pointer is followed to record
the node in the parent's full-children set. -/
def templateP1 (isReductionRoot : Bool) (_fuel : Nat) (x : Nat) (ct : Ct) :
    Except Err (Bool × Ct) := do
  let nd ← getE ct.hp x
  if nd.type_ ≠ .pnode ∨ nd.full_children_.length ≠ nd.circular_link_.length then
    .ok (false, ct)
  else do
    let hp := ct.hp.set x { nd with label_ := .full }
    if isReductionRoot then .ok (true, { ct with hp := hp })
    else
      match nd.parent_ with
      | none => .error .ubAccess
      | some p => do
          let hp ← upd hp p (fun n =>
            { n with full_children_ := insSet x n.full_children_ })
          .ok (true, { ct with hp := hp })

/-- `PQTree::TemplateP2` (root only): groups the full children of a P-node
into a fresh P-node child and labels the host partial. -/
def templateP2 (_fuel : Nat) (x : Nat) (ct : Ct) : Except Err (Bool × Ct) := do
  let nd ← getE ct.hp x
  if nd.type_ ≠ .pnode ∨ nd.partial_children_.length ≠ 0 then .ok (false, ct)
  else do
    let hp ←
      if nd.full_children_.length ≥ 2 then do
        let (newPnode, hp) := ct.hp.alloc { newPQNode with type_ := .pnode, parent_ := some x }
        let hp ← moveFullChildren hp x newPnode
        upd hp x (fun n => { n with circular_link_ := n.circular_link_ ++ [newPnode] })
      else pure ct.hp
    let hp ← upd hp x (fun n => { n with label_ := .part })
    .ok (true, { ct with hp := hp })

/-- `PQTree::TemplateP3` (non-root): replaces a full/empty P-node by a
two-child Q-node with a full aggregate on one end and an empty aggregate
on the other. -/
def templateP3 (_fuel : Nat) (x : Nat) (ct : Ct) : Except Err (Bool × Ct) := do
  let nd ← getE ct.hp x
  if nd.type_ ≠ .pnode ∨ nd.partial_children_ ≠ [] then .ok (false, ct)
  else do
    -- set up the node on the full child side
    let (fullChild, hp) ← fullChildRep ct.hp x nd.full_children_
    let (newQnode, hp) := hp.alloc { newPQNode with type_ := .qnode }
    let hp ←
      match nd.parent_ with
      | none => .error .ubAccess
      | some p => replacePartialChild hp p x newQnode
    let hp ← upd hp fullChild (fun n => { n with parent_ := some newQnode })
    let hp ← upd hp newQnode (fun n =>
      { n with endmost_children_0 := some fullChild,
               full_children_ := insSet fullChild n.full_children_ })
    -- set up the node on the empty child side
    let ndL ← getE hp x
    let (emptyChild, hp) ← p3EmptyRep hp x ndL
    let hp ← upd hp emptyChild (fun n =>
      { n with parent_ := some newQnode, label_ := .empty })
    let hp ← upd hp newQnode (fun n => { n with endmost_children_1 := some emptyChild })
    let hp ← upd hp emptyChild (fun n => { n with immediate_siblings_ := [fullChild] })
    let hp ← upd hp fullChild (fun n => { n with immediate_siblings_ := [emptyChild] })
    let hp ← upd hp newQnode (fun n => { n with label_ := .part })
    .ok (true, { ct with hp := hp })

/-- The full-children move of `TemplateP4`: the host's full children (as a
single representative) join the partial Q-node at its full end. -/
def p4MoveFull (hp : Hp) (x partialQnode fullC : Nat) (fcs : List Nat) :
    Except Err Hp :=
  if fcs ≠ [] then do
    let (fcr, hp) ← fullChildRep hp x fcs
    let hp ← upd hp fcr (fun n => { n with parent_ := some partialQnode })
    let hp ← replaceEndmostChild hp partialQnode fullC fcr
    let hp ← upd hp partialQnode (fun n =>
      { n with full_children_ := insSet fcr n.full_children_ })
    let hp ← upd hp fullC (fun n =>
      { n with immediate_siblings_ := insSet fcr n.immediate_siblings_ })
    upd hp fcr (fun n =>
      { n with immediate_siblings_ := insSet fullC n.immediate_siblings_ })
  else pure hp

/-- `PQTree::TemplateP4` (root only): the single partial (Q-node) child
absorbs the host's full children on its full end; a host left with one
child is elided (without being freed, exactly as in the source). -/
def templateP4 (_fuel : Nat) (x : Nat) (ct : Ct) : Except Err (Bool × Ct) := do
  let nd ← getE ct.hp x
  if nd.type_ ≠ .pnode ∨ nd.partial_children_.length ≠ 1 then .ok (false, ct)
  else do
    let partialQnode ← match nd.partial_children_ with
      | pq :: _ => Except.ok pq
      | [] => Except.error Err.ubAccess
    let pqn ← getE ct.hp partialQnode
    if pqn.type_ ≠ .qnode then .error .assertFail
    else do
      let emptyChild ← endmostChildWithLabel ct.hp partialQnode .empty
      let fullChild ← endmostChildWithLabel ct.hp partialQnode .full
      let _emptySibling ← circularChildWithLabel ct.hp x .empty
      match emptyChild, fullChild with
      | some _, some fullC => do
          -- move the full children of the host under the partial Q-node
          let hp ← p4MoveFull ct.hp x partialQnode fullC nd.full_children_
          -- if the host now has only one child, elide it
          let ndL ← getE hp x
          if ndL.circular_link_.length = 1 then do
            let theParent := ndL.parent_
            let hp ← upd hp partialQnode (fun n => { n with parent_ := theParent })
            match theParent with
            | some p =>
                if ndL.immediate_siblings_ = [] then do
                  let hp ← upd hp p (fun n =>
                    { n with circular_link_ :=
                        listRemove x n.circular_link_ ++ [partialQnode] })
                  .ok (true, { ct with hp := hp })
                else do
                  let hp ← ndL.immediate_siblings_.foldlM
                    (fun hp s => replaceImmediateSibling hp s x partialQnode) hp
                  let hp ←
                    if ndL.immediate_siblings_.length = 1 then
                      replaceEndmostChild hp p x partialQnode
                    else pure hp
                  .ok (true, { ct with hp := hp })
            | none => .ok (true, { ct with hp := hp, root_ := partialQnode })
          else .ok (true, { ct with hp := hp })
      | _, _ => .ok (false, ct)

/-- The full-children move of `TemplateP5`: the promoted partial Q-node
absorbs the host's full children (as a single representative) at its full
end. -/
def p5MoveFull (hp : Hp) (x partialQnode fullC : Nat) (fcs : List Nat) :
    Except Err Hp :=
  if fcs.length > 0 then do
    let (fcr, hp) ← fullChildRep hp x fcs
    let hp ← upd hp x (fun n => { n with full_children_ := [] })
    let hp ← upd hp fcr (fun n => { n with parent_ := some partialQnode })
    let hp ← upd hp fullC (fun n =>
      { n with immediate_siblings_ := insSet fcr n.immediate_siblings_ })
    let hp ← upd hp fcr (fun n =>
      { n with immediate_siblings_ := insSet fullC n.immediate_siblings_ })
    replaceEndmostChild hp partialQnode fullC fcr
  else pure hp

/-- The empty-children move of `TemplateP5`: the host's remaining empty
children (the single empty sibling, or the demoted host itself) hang off
the promoted partial Q-node's empty end. -/
def p5MoveEmpty (hp : Hp) (x partialQnode emptyC : Nat)
    (emptySibling : Option Nat) (ndL : Node) : Except Err Hp :=
  if ndL.circular_link_.length ≠ 0 then do
    let ecr ←
      if ndL.circular_link_.length = 1 then
        match emptySibling with
        | some es => Except.ok es
        | none => Except.error Err.ubAccess
      else do
        pure x
    let hp ←
      if ndL.circular_link_.length = 1 then pure hp
      else upd hp x (fun n =>
        { n with label_ := .empty, immediate_siblings_ := [] })
    let hp ← upd hp ecr (fun n => { n with parent_ := some partialQnode })
    let hp ← upd hp emptyC (fun n =>
      { n with immediate_siblings_ := insSet ecr n.immediate_siblings_ })
    let hp ← upd hp ecr (fun n =>
      { n with immediate_siblings_ := insSet emptyC n.immediate_siblings_ })
    replaceEndmostChild hp partialQnode emptyC ecr
  else pure hp

/-- `PQTree::TemplateP5` (non-root): the single partial Q-node child is
promoted into the host's place; it absorbs the host's full children on its
full end and the host's remaining empty children on its empty end. -/
def templateP5 (_fuel : Nat) (x : Nat) (ct : Ct) : Except Err (Bool × Ct) := do
  let nd ← getE ct.hp x
  if nd.type_ ≠ .pnode ∨ nd.partial_children_.length ≠ 1 then .ok (false, ct)
  else do
    let partialQnode ← match nd.partial_children_ with
      | pq :: _ => Except.ok pq
      | [] => Except.error Err.ubAccess
    let pqn ← getE ct.hp partialQnode
    if pqn.type_ ≠ .qnode then .error .assertFail
    else do
      let emptyChild ← endmostChildWithLabel ct.hp partialQnode .empty
      let fullChild ← endmostChildWithLabel ct.hp partialQnode .full
      let emptySibling ← circularChildWithLabel ct.hp x .empty
      match emptyChild, fullChild with
      | some emptyC, some fullC => do
          let theParent := nd.parent_
          let hp ← upd ct.hp partialQnode (fun n =>
            { n with parent_ := theParent,
                     pertinent_leaf_count := nd.pertinent_leaf_count,
                     label_ := .part })
          let hp ←
            match theParent with
            | none => .error .ubAccess
            | some p => upd hp p (fun n =>
                { n with partial_children_ := insSet partialQnode n.partial_children_ })
          let hp ← upd hp x (fun n =>
            { n with circular_link_ := listRemove partialQnode n.circular_link_,
                     partial_children_ := eraseSet partialQnode n.partial_children_ })
          let hp ←
            match theParent with
            | none => .error .ubAccess
            | some p =>
              if nd.immediate_siblings_.length = 0 then
                replaceCircularLink hp p x partialQnode
              else do
                let hp ← nd.immediate_siblings_.foldlM
                  (fun hp s => replaceImmediateSibling hp s x partialQnode) hp
                replaceEndmostChild hp p x partialQnode
          -- move the full children of the host under the partial Q-node
          let hp ← p5MoveFull hp x partialQnode fullC nd.full_children_
          -- if the host still has empty children, hang them off the empty end
          let ndL ← getE hp x
          let hp ← p5MoveEmpty hp x partialQnode emptyC emptySibling ndL
          let ndL2 ← getE hp x
          let hp ←
            if ndL2.circular_link_.length < 2 then do
              let hp := hp.set x { ndL2 with circular_link_ := [] }
              pure (hp.del x)
            else pure hp
          .ok (true, { ct with hp := hp })
      | _, _ => .ok (false, ct)

/-- The fuse step of `TemplateP6`: the two partial Q-nodes' full ends are
linked, with the host's full children (as a single representative) spliced
in between when present. -/
def p6MergeFull (hp : Hp) (x pq1 fullC1 fullC2 : Nat) (fcs : List Nat) :
    Except Err Hp :=
  if fcs ≠ [] then do
    let (fcr, hp) ← fullChildRep hp x fcs
    let hp ← upd hp fcr (fun n => { n with parent_ := some pq1 })
    let hp ← upd hp fullC2 (fun n => { n with parent_ := some pq1 })
    let hp ← upd hp fullC1 (fun n =>
      { n with immediate_siblings_ := insSet fcr n.immediate_siblings_ })
    let hp ← upd hp fullC2 (fun n =>
      { n with immediate_siblings_ := insSet fcr n.immediate_siblings_ })
    let hp ← upd hp fcr (fun n =>
      { n with immediate_siblings_ := insSet fullC1 n.immediate_siblings_ })
    upd hp fcr (fun n =>
      { n with immediate_siblings_ := insSet fullC2 n.immediate_siblings_ })
  else do
    let hp ← upd hp fullC1 (fun n =>
      { n with immediate_siblings_ := insSet fullC2 n.immediate_siblings_ })
    upd hp fullC2 (fun n =>
      { n with immediate_siblings_ := insSet fullC1 n.immediate_siblings_ })

/-- `PQTree::TemplateP6` (root only): fuses the two partial Q-node children
at their full ends (with the host's full children in between) and elides a
host left with a single child. -/
def templateP6 (_fuel : Nat) (x : Nat) (ct : Ct) : Except Err (Bool × Ct) := do
  let nd ← getE ct.hp x
  if nd.type_ ≠ .pnode ∨ nd.partial_children_.length ≠ 2 then .ok (false, ct)
  else do
    let (pq1, pq2) ← match nd.partial_children_ with
      | a :: b :: _ => Except.ok (a, b)
      | _ => Except.error Err.ubAccess
    let emptyChild1 ← endmostChildWithLabel ct.hp pq1 .empty
    let fullChild1 ← endmostChildWithLabel ct.hp pq1 .full
    match emptyChild1, fullChild1 with
    | some _, some fullC1 => do
        let emptyChild2 ← endmostChildWithLabel ct.hp pq2 .empty
        let fullChild2 ← endmostChildWithLabel ct.hp pq2 .full
        match emptyChild2, fullChild2 with
        | some emptyC2, some fullC2 => do
            let hp ← p6MergeFull ct.hp x pq1 fullC1 fullC2 nd.full_children_
            let hp ← replaceEndmostChild hp pq1 fullC1 emptyC2
            let hp ← upd hp emptyC2 (fun n => { n with parent_ := some pq1 })
            let hp ← upd hp x (fun n =>
              { n with circular_link_ := listRemove pq2 n.circular_link_ })
            let hp ← forgetChildren hp pq2
            let hp := hp.del pq2
            -- if the host now has only one child, elide it
            let ndL ← getE hp x
            if ndL.circular_link_.length = 1 then do
              let hp ← upd hp pq1 (fun n =>
                { n with parent_ := ndL.parent_,
                         pertinent_leaf_count := ndL.pertinent_leaf_count,
                         label_ := .part })
              match ndL.parent_ with
              | some p => do
                  let hp ← upd hp p (fun n =>
                    { n with partial_children_ := insSet pq1 n.partial_children_ })
                  let pn ← getE hp p
                  if pn.type_ = .pnode then do
                    let hp ← replaceCircularLink hp p x pq1
                    .ok (true, { ct with hp := hp })
                  else do
                    let hp ← ndL.immediate_siblings_.foldlM
                      (fun hp s => replaceImmediateSibling hp s x pq1) hp
                    let hp ← replaceEndmostChild hp p x pq1
                    .ok (true, { ct with hp := hp })
              | none => do
                  let hp ← upd hp pq1 (fun n => { n with parent_ := none })
                  let ndL2 ← getE hp x
                  let hp := hp.set x { ndL2 with circular_link_ := [] }
                  .ok (true, { ct with hp := hp.del x, root_ := pq1 })
            else .ok (true, { ct with hp := hp })
        | _, _ => .ok (false, ct)
    | _, _ => .ok (false, ct)

end PQ

namespace PQ

/-! ## The bubble pass (`PQTree::Bubble`, `PQTree::UnblockSiblings`) -/

/-- `PQTree::UnblockSiblings`: recursively unblocks the contiguous run of
blocked siblings of `x`, re-parenting each to `parent`, and returns how
many nodes were unblocked. -/
def unblockSiblings : Nat → Hp → Nat → Option Nat → Option Nat → Except Err (Int × Hp)
  | 0, _, _, _, _ => .error .outOfFuel
  | fuel+1, hp, x, parent, last => do
    let nd ← getE hp x
    if nd.mark_ = .blocked then do
      let hp := hp.set x { nd with mark_ := .unblocked, parent_ := parent }
      nd.immediate_siblings_.foldlM
        (fun (acc : Int × Hp) s =>
          if some s = last then pure acc
          else do
            let (cnt, hp2) ← unblockSiblings fuel acc.2 s parent (some x)
            pure (acc.1 + cnt, hp2))
        (1, hp)
    else .ok (0, hp)

/-- One partition of a node's immediate siblings into blocked and
unblocked ones (in sorted id order, as `std::set` iteration). -/
def partitionSiblings (hp : Hp) (sibs : List Nat) :
    Except Err (List Nat × List Nat) :=
  sibs.foldlM
    (fun (acc : List Nat × List Nat) s => do
      let sn ← getE hp s
      if sn.mark_ = .blocked then pure (acc.1 ++ [s], acc.2)
      else if sn.mark_ = .unblocked then pure (acc.1, acc.2 ++ [s])
      else pure acc)
    ([], [])

/-- The unblock step inside the `Bubble` while-loop: adopt an unblocked
sibling's parent, or mark unblocked outright when the node has fewer than
two immediate siblings (endmost child of a Q-node or child of a P-node). -/
def blUnblock (hp : Hp) (x : Nat) (nd : Node) (us : List Nat) :
    Except Err Hp :=
  match us with
  | u :: _ => do
      let un ← getE hp u
      upd hp x (fun n =>
        { n with parent_ := un.parent_, mark_ := .unblocked })
  | [] =>
      if nd.immediate_siblings_.length < 2 then
        upd hp x (fun n => { n with mark_ := .unblocked })
      else pure hp

/-- When the candidate had blocked siblings: re-mark it blocked is undone,
the blocked chain through it is unblocked via `unblockSiblings`, and the
parent's pertinent child count absorbs the list. -/
def blListSize (fuel : Nat) (hp : Hp) (x : Nat) (bs : List Nat) :
    Except Err (Int × Hp) :=
  if bs ≠ [] then do
    let hp ← upd hp x (fun n => { n with mark_ := .blocked })
    let nd2 ← getE hp x
    let (listSize, hp) ← unblockSiblings fuel hp x nd2.parent_ none
    let hp ←
      match nd2.parent_ with
      | none => .error .ubAccess
      | some p => upd hp p (fun n =>
          { n with pertinent_child_count :=
              n.pertinent_child_count + listSize - 1 })
    pure (listSize, hp)
  else pure ((0 : Int), hp)

/-- Bookkeeping on the unblocked candidate's parent: bump its pertinent
child count and queue it if unmarked; a parentless candidate instead sets
`off_the_top_`. -/
def blParent (q : List Nat) (hp : Hp) (ct : Ct) (ndP : Node) :
    Except Err (List Nat × Hp × Ct) :=
  match ndP.parent_ with
  | none => pure (q, hp, { ct with off_the_top_ := 1 })
  | some p => do
      let hp ← upd hp p (fun n =>
        { n with pertinent_child_count := n.pertinent_child_count + 1 })
      let pn ← getE hp p
      if pn.mark_ = .unmarked then do
        let hp := hp.set p { pn with mark_ := .queued }
        pure (q ++ [p], hp, ct)
      else pure (q, hp, ct)

/-- The main bubble loop.  The C++ guard `q.size() + block_count_ +
off_the_top_ > 1` adds `int`s to a `size_t`; a negative `block_count_`
would wrap around to a huge unsigned value, so it keeps the loop running
here too. -/
def bubbleLoop : Nat → List Nat → List Nat → Ct → Except Err (Bool × List Nat × Ct)
  | 0, _, _, _ => .error .outOfFuel
  | fuel+1, q, blockedList, ct =>
    if ¬(ct.block_count_ < 0 ∨
         (q.length : Int) + ct.block_count_ + ct.off_the_top_ > 1) then
      .ok (true, blockedList, ct)
    else
      match q with
      | [] => .ok (false, blockedList, ct)
      | x :: q => do
        let hp ← upd ct.hp x (fun n => { n with mark_ := .blocked })
        let nd ← getE hp x
        let (bs, us) ← partitionSiblings hp nd.immediate_siblings_
        -- unblock via an unblocked sibling, or as a corner/P-child
        let hp ← blUnblock hp x nd us
        let ndL ← getE hp x
        if ndL.mark_ = .unblocked then do
          let (listSize, hp) ← blListSize fuel hp x bs
          let ndP ← getE hp x
          let (q, hp, ct) ← blParent q hp ct ndP
          let ct := { ct with hp := hp,
                              block_count_ := ct.block_count_ - bs.length,
                              blocked_nodes_ := ct.blocked_nodes_ - listSize }
          bubbleLoop fuel q blockedList ct
        else
          let ct := { ct with hp := hp,
                              block_count_ := ct.block_count_ + 1 - bs.length,
                              blocked_nodes_ := ct.blocked_nodes_ + 1 }
          bubbleLoop fuel q (insSet x blockedList) ct

/-- The pseudonode construction at the end of `Bubble`: walks the blocked
list, reparenting each still-blocked node to the fresh pseudonode,
severing the links to its non-blocked neighbours, and recording the two
chain ends as the pseudonode's endmost children.  Writing past the
two-element arrays (`side` beyond 1) is the buffer overflow it would be in
C++. -/
def bubblePseudo (pid : Nat) (blockedList : List Nat) (hp : Hp) :
    Except Err Hp := do
  let (hp, _) ← blockedList.foldlM
    (fun (acc : Hp × Nat) b => do
      let (hp, side) := acc
      let nd ← getE hp b
      if nd.mark_ = .blocked then do
        let hp ← upd hp pid (fun n =>
          { n with pertinent_child_count := n.pertinent_child_count + 1,
                   pertinent_leaf_count :=
                     n.pertinent_leaf_count + nd.pertinent_leaf_count })
        -- loop over (at most two) immediate siblings
        let (hp, count) ← (nd.immediate_siblings_.take 2).foldlM
          (fun (acc2 : Hp × Nat) s => do
            let (hp, count) := acc2
            let sn ← getE hp s
            if sn.mark_ = .blocked then pure (hp, count + 1)
            else do
              let hp ← upd hp b (fun n =>
                { n with immediate_siblings_ := eraseSet s n.immediate_siblings_ })
              let hp ← upd hp s (fun n =>
                { n with immediate_siblings_ := eraseSet b n.immediate_siblings_ })
              let hp ←
                if side = 0 then
                  upd hp pid (fun n => { n with pseudo_neighbors_0 := some s })
                else if side = 1 then
                  upd hp pid (fun n => { n with pseudo_neighbors_1 := some s })
                else .error .ubAccess
              pure (hp, count))
          (hp, 0)
        let hp ← upd hp b (fun n =>
          { n with parent_ := some pid, pseudochild_ := true })
        if count < 2 then do
          let hp ←
            if side = 0 then
              upd hp pid (fun n => { n with endmost_children_0 := some b })
            else if side = 1 then
              upd hp pid (fun n => { n with endmost_children_1 := some b })
            else .error .ubAccess
          pure (hp, side + 1)
        else pure (hp, side)
      else pure acc)
    (hp, 0)
  .ok hp

/-- `PQTree::Bubble`: the first pass.  A reduction value with no leaf in
the tree fails the `assert (temp)` on queue construction. -/
def bubble (fuel : Nat) (S : List Int) (ct : Ct) : Except Err (Bool × Ct) := do
  let ct := { ct with block_count_ := 0, blocked_nodes_ := 0, off_the_top_ := 0 }
  let q ← S.foldlM
    (fun acc v =>
      match mapLookup ct.leaf_address_ v with
      | some id => pure (acc ++ [id])
      | none => .error Err.assertFail)
    ([] : List Nat)
  let (ok, blockedList, ct) ← bubbleLoop fuel q [] ct
  if !ok then .ok (false, ct)
  else if ct.block_count_ > 1 ∨ (ct.off_the_top_ = 1 ∧ ct.block_count_ ≠ 0) then
    .ok (false, ct)
  else do
    let correctBlockedCount ← blockedList.foldlM
      (fun (acc : Nat) b => do
        let nd ← getE ct.hp b
        if nd.mark_ = .blocked then pure (acc + 1) else pure acc)
      0
    if ct.block_count_ = 1 ∧ correctBlockedCount > 1 then do
      let (pid, hp) := ct.hp.alloc
        { newPQNode with type_ := .qnode, pseudonode_ := true }
      let hp ← bubblePseudo pid blockedList hp
      .ok (true, { ct with hp := hp, pseudonode_ := some pid })
    else .ok (true, ct)

/-! ## The reduce pass (`PQTree::ReduceStep`, `PQTree::CleanPseudo`) -/

/-- `PQTree::CleanPseudo`: restores the severed neighbour links around the
pseudonode's endmost children, then destroys the pseudonode (children
forgotten first). -/
def cleanPseudo (ct : Ct) : Except Err Ct := do
  match ct.pseudonode_ with
  | none => .ok ct
  | some p => do
      let pn ← getE ct.hp p
      let hp ← restoreSide ct.hp pn.endmost_children_0 pn.pseudo_neighbors_0
      let hp ← restoreSide hp pn.endmost_children_1 pn.pseudo_neighbors_1
      let hp ← forgetChildren hp p
      .ok { ct with hp := hp.del p, pseudonode_ := none }
where
  restoreSide (hp : Hp) (e nb : Option Nat) : Except Err Hp :=
    match e, nb with
    | some e', some nb' => do
        let hp ← upd hp e' (fun n =>
          { n with immediate_siblings_ := insSet nb' n.immediate_siblings_ })
        upd hp nb' (fun n =>
          { n with immediate_siblings_ := insSet e' n.immediate_siblings_ })
    | _, _ => .error .ubAccess

/-- The template chain tried on a pertinent node that is not the pertinent
root: L1, P1 (non-root), P3, P5, Q1, Q2. -/
def dispatchNonRoot (fuel : Nat) (x : Nat) (ct : Ct) : Except Err (Bool × Ct) := do
  let (m, ct) ← templateL1 fuel x ct
  if m then .ok (true, ct) else do
  let (m, ct) ← templateP1 false fuel x ct
  if m then .ok (true, ct) else do
  let (m, ct) ← templateP3 fuel x ct
  if m then .ok (true, ct) else do
  let (m, ct) ← templateP5 fuel x ct
  if m then .ok (true, ct) else do
  let (m, ct) ← templateQ1 fuel x ct
  if m then .ok (true, ct) else do
  let (m, ct) ← templateQ2 fuel x ct
  if m then .ok (true, ct) else .ok (false, ct)

/-- The template chain tried on the pertinent root: L1, P1 (root), P2, P4,
P6, Q1, Q2, Q3. -/
def dispatchRoot (fuel : Nat) (x : Nat) (ct : Ct) : Except Err (Bool × Ct) := do
  let (m, ct) ← templateL1 fuel x ct
  if m then .ok (true, ct) else do
  let (m, ct) ← templateP1 true fuel x ct
  if m then .ok (true, ct) else do
  let (m, ct) ← templateP2 fuel x ct
  if m then .ok (true, ct) else do
  let (m, ct) ← templateP4 fuel x ct
  if m then .ok (true, ct) else do
  let (m, ct) ← templateP6 fuel x ct
  if m then .ok (true, ct) else do
  let (m, ct) ← templateQ1 fuel x ct
  if m then .ok (true, ct) else do
  let (m, ct) ← templateQ2 fuel x ct
  if m then .ok (true, ct) else do
  let (m, ct) ← templateQ3 fuel x ct
  if m then .ok (true, ct) else .ok (false, ct)

/-- The pre-dispatch bookkeeping for a non-root pertinent node: the parent
accumulates the pertinent leaf count, loses one pertinent child, and is
enqueued once its pertinent children are all processed. -/
def nonRootBookkeep (x : Nat) (q : List Nat) (ct : Ct) :
    Except Err (List Nat × Ct) := do
  let nd ← getE ct.hp x
  match nd.parent_ with
  | none => .error .ubAccess
  | some p => do
      let pn ← getE ct.hp p
      let pn := { pn with
        pertinent_leaf_count := pn.pertinent_leaf_count + nd.pertinent_leaf_count,
        pertinent_child_count := pn.pertinent_child_count - 1 }
      let hp := ct.hp.set p pn
      let q := if pn.pertinent_child_count = 0 then q ++ [p] else q
      .ok (q, { ct with hp := hp })

/-- The main loop of `PQTree::ReduceStep`. -/
def reduceStepLoop : Nat → Nat → List Nat → Ct → Except Err (Bool × Ct)
  | 0, _, _, _ => .error .outOfFuel
  | _+1, _, [], ct => do
      let ct ← cleanPseudo ct
      .ok (true, ct)
  | fuel+1, ssize, x :: q, ct => do
      let nd ← getE ct.hp x
      if nd.pertinent_leaf_count < (ssize : Int) then do
        let (q, ct) ← nonRootBookkeep x q ct
        let (m, ct) ← dispatchNonRoot fuel x ct
        if m then reduceStepLoop fuel ssize q ct
        else do
          let ct ← cleanPseudo ct
          .ok (false, ct)
      else do
        let (m, ct) ← dispatchRoot fuel x ct
        if m then reduceStepLoop fuel ssize q ct
        else do
          let ct ← cleanPseudo ct
          .ok (false, ct)

/-- `PQTree::ReduceStep`: queue the pertinent leaves (an unknown value
yields a null lookup and `return false`), then process bottom-up. -/
def reduceStep (fuel : Nat) (S : List Int) (ct : Ct) : Except Err (Bool × Ct) := do
  let init ← S.foldlM
    (fun (acc : Option (List Nat × Hp)) v =>
      match acc with
      | none => pure none
      | some (q, hp) =>
        match mapLookup ct.leaf_address_ v with
        | none => pure none
        | some id => do
            let hp ← upd hp id (fun n => { n with pertinent_leaf_count := 1 })
            pure (some (q ++ [id], hp)))
    (some ([], ct.hp))
  match init with
  | none => .ok (false, ct)
  | some (q, hp) => reduceStepLoop fuel S.length q { ct with hp := hp }

end PQ

namespace PQ

/-! ## The `PQTree` driver -/

/-- The full `PQTree` state: the core (heap, root, leaf index, bubble
scratch) plus the sticky `invalid_` bit and the `reductions_` log, which
only the driver functions below touch. -/
structure St where
  core : Ct
  invalid_ : Bool := false
  reductions_ : List (List Int) := []
deriving DecidableEq, Repr

/-- `PQTree::PQTree(set<int>)`: a P-node root with one leaf per value, in
ascending order. -/
def pqtreeNew (values : List Int) : St :=
  let (rootId, hp) := ({ } : Hp).alloc { newPQNode with type_ := .pnode }
  let (hp, la, kids) := values.foldl
    (fun (acc : Hp × List (Int × Nat) × List Nat) v =>
      let (hp, la, kids) := acc
      let (nid, hp) := hp.alloc
        { type_ := .leaf, label_ := .empty, mark_ := .unmarked,
          parent_ := some rootId, pertinent_child_count := 0,
          pertinent_leaf_count := 0, leaf_value := v }
      (hp, mapInsert v nid la, kids ++ [nid]))
    (hp, [], [])
  let hp := hp.set rootId
    (match hp.get rootId with
     | some nd => { nd with circular_link_ := kids }
     | none => { newPQNode with type_ := .pnode, circular_link_ := kids })
  { core := { hp := hp, root_ := rootId, leaf_address_ := la } }

/-- `PQTree::Reduce`. -/
def Reduce (fuel : Nat) (S : List Int) (st : St) : Except Err (Bool × St) :=
  if S.length < 2 then
    .ok (true, { st with reductions_ := st.reductions_ ++ [S] })
  else if st.invalid_ then .ok (false, st)
  else
    match bubble fuel S st.core with
    | .error e => .error e
    | .ok (false, ct) => .ok (false, { st with core := ct, invalid_ := true })
    | .ok (true, ct) =>
      match reduceStep fuel S ct with
      | .error e => .error e
      | .ok (false, ct) => .ok (false, { st with core := ct, invalid_ := true })
      | .ok (true, ct) =>
        -- `if (pseudonode_) { ForgetChildren; delete; }` — dead in practice
        -- because CleanPseudo already nulled the member on both exits of
        -- ReduceStep, but transcribed faithfully.
        let cleaned : Except Err Ct :=
          match ct.pseudonode_ with
          | none => .ok ct
          | some p => do
              let hp ← forgetChildren ct.hp p
              .ok { ct with hp := hp.del p }
        match cleaned with
        | .error e => .error e
        | .ok ct =>
          match resetN fuel ct.hp ct.root_ with
          | .error e => .error e
          | .ok hp =>
            .ok (true, { st with core := { ct with hp := hp },
                                 reductions_ := st.reductions_ ++ [S] })

/-- `PQTree::ReduceAll`: reduce by each set in order, stopping at the
first failure. -/
def ReduceAll (fuel : Nat) (L : List (List Int)) (st : St) : Except Err (Bool × St) :=
  match L with
  | [] => .ok (true, st)
  | S :: rest =>
    match Reduce fuel S st with
    | .error e => .error e
    | .ok (false, st) => .ok (false, st)
    | .ok (true, st) => ReduceAll fuel rest st

/-- `PQTree::Frontier`. -/
def Frontier (fuel : Nat) (st : St) : Except Err (List Int) :=
  findFrontierN fuel st.core.hp st.core.root_

/-- `PQTree::Print`. -/
def PrintT (fuel : Nat) (st : St) : Except Err String :=
  printN fuel st.core.hp st.core.root_

/-- `PQTree::GetReductions`. -/
def GetReductions (st : St) : List (List Int) :=
  st.reductions_

/-- `SetMethods::SetUnion` on sorted `std::set<int>` contents. -/
def setUnionInt : List Int → List Int → List Int
  | [], ys => ys
  | xs, [] => xs
  | x :: xs, y :: ys =>
    if x < y then x :: setUnionInt xs (y :: ys)
    else if y < x then y :: setUnionInt (x :: xs) ys
    else x :: setUnionInt xs ys
termination_by xs ys => xs.length + ys.length

/-- `PQTree::GetContained`: the union of all recorded reductions. -/
def GetContained (st : St) : List Int :=
  st.reductions_.foldl (fun acc S => setUnionInt acc S) []

/-- `PQTree::ReducedFrontier`: the frontier filtered to values contained
in at least one recorded reduction. -/
def ReducedFrontier (fuel : Nat) (st : St) : Except Err (List Int) := do
  let inter ← findFrontierN fuel st.core.hp st.core.root_
  let allContained := st.reductions_.foldl (fun acc S => setUnionInt acc S) []
  .ok (inter.filter (fun v => allContained.contains v))

/-- `PQTree::SafeReduce`: snapshot (`PQTree toCopy(*this)`, whose
`CopyFrom` deep-copies the root into a fresh arena and rebuilds the leaf
index), run `Reduce`, and on failure restore the root, the bubble scratch
and the `invalid_` flag from the snapshot, rebuilding the leaf index. -/
def SafeReduce (fuel : Nat) (S : List Int) (st : St) : Except Err (Bool × St) := do
  let (cRoot, cHp) ← copyNodeX fuel st.core.hp st.core.root_ { }
  let cPairs ← findLeavesN fuel cHp cRoot
  let _copyLeafIndex := buildLeafMap cPairs
  match Reduce fuel S st with
  | .error e => .error e
  | .ok (true, st') => .ok (true, st')
  | .ok (false, st') => do
      let (rRoot, hp2) ← copyNodeX fuel cHp cRoot st'.core.hp
      let pairs ← findLeavesN fuel hp2 rRoot
      .ok (false, { st' with
                    core := { st'.core with
                              hp := hp2, root_ := rRoot,
                              leaf_address_ := buildLeafMap pairs,
                              block_count_ := st.core.block_count_,
                              blocked_nodes_ := st.core.blocked_nodes_,
                              off_the_top_ := st.core.off_the_top_ },
                    invalid_ := st.invalid_ })

/-- `PQTree::SafeReduceAll`. -/
def SafeReduceAll (fuel : Nat) (L : List (List Int)) (st : St) : Except Err (Bool × St) := do
  let (cRoot, cHp) ← copyNodeX fuel st.core.hp st.core.root_ { }
  let cPairs ← findLeavesN fuel cHp cRoot
  let _copyLeafIndex := buildLeafMap cPairs
  match ReduceAll fuel L st with
  | .error e => .error e
  | .ok (true, st') => .ok (true, st')
  | .ok (false, st') => do
      let (rRoot, hp2) ← copyNodeX fuel cHp cRoot st'.core.hp
      let pairs ← findLeavesN fuel hp2 rRoot
      .ok (false, { st' with
                    core := { st'.core with
                              hp := hp2, root_ := rRoot,
                              leaf_address_ := buildLeafMap pairs,
                              block_count_ := st.core.block_count_,
                              blocked_nodes_ := st.core.blocked_nodes_,
                              off_the_top_ := st.core.off_the_top_ },
                    invalid_ := st.invalid_ })

end PQ

namespace PQ

/-! ## The two consecutivity checks (claim C8)

`PQNode::ConsecutiveFullPartialChildren` (the counting predicate of the
node implementation file) and the linear scan at the top of the older
`PQTree::TemplateQ3` both decide whether a Q-node's full/partial children
are consecutive with partials at the ends.  Both depend on the children
only through their labels in sibling order, given the claim's hypothesis
that `full_children_` and `partial_children_` list exactly the children
labelled full resp. partial and that each child's immediate siblings are
its chain neighbours.  They are therefore embedded as functions of the
label list. -/

/-- A label is pertinent when it is full or partial. -/
def pertinent : NLabel → Bool
  | .empty => false
  | .full => true
  | .part => true

/-- The walk behind `adjCount`, carrying the previous label. -/
def adjCountGo (t : NLabel) : Option NLabel → List NLabel → Nat
  | _, [] => 0
  | prev, x :: rest =>
    (if pertinent x then
      (if prev = some t then 1 else 0) +
      (match rest.head? with
       | some n => if n = t then 1 else 0
       | none => 0)
     else 0) + adjCountGo t (some x) rest

/-- The neighbour-label count of `ConsecutiveFullPartialChildren`: for
each full or partial child, every immediate sibling (the adjacent list
entries) with label `t` counts once. -/
def adjCount (t : NLabel) (L : List NLabel) : Nat :=
  adjCountGo t none L

/-- `PQNode::ConsecutiveFullPartialChildren`, on the label list.  The
second count equation is the C++
`counts[full] != (full_children_.size() * 2) - (2 - counts[partial])`,
carried out over `Int` (the unsigned wrap-around of the C++ `size_t`
arithmetic cannot make two sides equal that differ over `Int` at these
magnitudes). -/
def consecutiveFullPartialChildren (L : List NLabel) : Bool :=
  let F := L.count .full
  let P := L.count .part
  if F + P ≤ 1 then true
  else
    let cp := adjCount .part L
    let cf := adjCount .full L
    (cp = P) && ((cf : Int) = 2 * (F : Int) - (2 - (cp : Int)))

/-- The state machine of the `TemplateQ3` linear scan
(`run_started` / `run_finished`). -/
def templateQ3ScanGo : Bool → Bool → List NLabel → Bool
  | _, _, [] => true
  | _, rf, .full :: t => if rf then false else templateQ3ScanGo true rf t
  | rs, rf, .empty :: t => templateQ3ScanGo rs (rf || rs) t
  | rs, rf, .part :: t => if rf then false else templateQ3ScanGo true rs t

/-- The `TemplateQ3` consecutivity scan, on the label list. -/
def templateQ3Scan (L : List NLabel) : Bool :=
  templateQ3ScanGo false false L

/-- The pattern `empty* (partial? full* partial?) empty*` of the claim:
the middle block, all pertinent, with partials only at its two ends. -/
def midOk (m : List NLabel) : Prop :=
  m = [] ∨ ∃ (pl : Bool) (k : Nat) (pr : Bool),
    m = (if pl then [NLabel.part] else []) ++ List.replicate k NLabel.full ++
        (if pr then [NLabel.part] else [])

/-- A label list matches `empty* (partial? full* partial?) empty*`. -/
def matchesPattern (L : List NLabel) : Prop :=
  ∃ (a : Nat) (m : List NLabel) (c : Nat),
    L = List.replicate a NLabel.empty ++ m ++ List.replicate c NLabel.empty ∧
    midOk m

end PQ

namespace PQ

/-! ### Pair form of the neighbour counts

`adjCount` sums, over every pertinent child, the labels of its (at most
two) neighbours.  Summing instead over adjacent *pairs* of the list gives
the same number and recurses pleasantly. -/

/-- Pair-wise neighbour count: every adjacent pair `(p, x)` contributes
one for `x = t` if `p` is pertinent and one for `p = t` if `x` is
pertinent. -/
def pairCountGo (t : NLabel) : Option NLabel → List NLabel → Nat
  | _, [] => 0
  | prev, x :: rest =>
    (match prev with
     | some p =>
       (if pertinent p ∧ x = t then 1 else 0) +
       (if pertinent x ∧ p = t then 1 else 0)
     | none => 0) + pairCountGo t (some x) rest

/-- Pair-wise neighbour count of a whole list. -/
def pairCount (t : NLabel) (L : List NLabel) : Nat :=
  pairCountGo t none L

/-- Adjacent pertinent-pertinent pair count. -/
def pairPertGo : Option NLabel → List NLabel → Nat
  | _, [] => 0
  | prev, x :: rest =>
    (match prev with
     | some p => if pertinent p ∧ pertinent x then 1 else 0
     | none => 0) + pairPertGo (some x) rest

/-- Number of maximal runs of pertinent labels. -/
def runsGo : Option NLabel → List NLabel → Nat
  | _, [] => 0
  | prev, x :: rest =>
    (if pertinent x ∧ ¬(match prev with
                        | some p => pertinent p
                        | none => false) = true then 1 else 0) +
    runsGo (some x) rest

/-- The boundary term of the neighbour walk: one when the first element
is pertinent and the previous element carries label `t`. -/
def bpair (t : NLabel) (prev : Option NLabel) (L : List NLabel) : Nat :=
  match L, prev with
  | x :: _, some p => if pertinent x ∧ p = t then 1 else 0
  | _, _ => 0

/-- The per-node neighbour walk equals a boundary term plus the pair
count. -/
theorem adjCountGo_eq_pair (t : NLabel) : ∀ (L : List NLabel) (prev : Option NLabel),
    adjCountGo t prev L = bpair t prev L + pairCount t L := by
  intro L
  induction L with
  | nil =>
    intro prev
    cases prev <;> simp [adjCountGo, bpair, pairCount, pairCountGo]
  | cons x r ih =>
    intro prev
    rw [show adjCountGo t prev (x :: r) =
        (if pertinent x then (if prev = some t then 1 else 0) +
          (match r.head? with
           | some n => if n = t then 1 else 0
           | none => 0) else 0) +
        adjCountGo t (some x) r from rfl]
    rw [ih (some x)]
    clear ih
    cases r with
    | nil =>
      cases prev with
      | none => simp [bpair, pairCount, pairCountGo]
      | some p =>
        by_cases hx : pertinent x <;> by_cases hp : p = t <;>
          simp [bpair, pairCount, pairCountGo, hx, hp]
    | cons y r2 =>
      have hP : pairCount t (x :: y :: r2) =
          ((if pertinent x ∧ y = t then 1 else 0) +
           (if pertinent y ∧ x = t then 1 else 0)) +
          pairCountGo t (some y) r2 := by
        simp [pairCount, pairCountGo]
      have hP2 : pairCount t (y :: r2) = pairCountGo t (some y) r2 := by
        simp [pairCount, pairCountGo]
      rw [hP, hP2]
      clear hP hP2
      simp only [List.head?, bpair]
      cases prev with
      | none =>
        by_cases hx : pertinent x <;> by_cases hy : pertinent y <;>
          by_cases hyt : y = t <;> by_cases hxt : x = t <;>
          simp [hx, hy, hyt, hxt] <;> omega
      | some p =>
        by_cases hx : pertinent x <;> by_cases hy : pertinent y <;>
          by_cases hyt : y = t <;> by_cases hxt : x = t <;>
          by_cases hpt : p = t <;>
          simp [hx, hy, hyt, hxt, hpt] <;> (try split_ifs) <;> omega

/-- `adjCount` is the pair count. -/
theorem adjCount_eq_pairCount (t : NLabel) (L : List NLabel) :
    adjCount t L = pairCount t L := by
  rw [adjCount, adjCountGo_eq_pair]
  cases L <;> simp [bpair]

end PQ

namespace PQ

/-- Number of pertinent (full or partial) labels. -/
def countPert (L : List NLabel) : Nat :=
  L.countP (fun x => pertinent x)

/-- Full plus partial labels are the pertinent ones. -/
theorem count_full_add_part (L : List NLabel) :
    L.count .full + L.count .part = countPert L := by
  induction L with
  | nil => simp [countPert]
  | cons x r ih =>
    cases x <;>
      simp [countPert, List.count_cons, List.countP_cons, pertinent] at * <;>
      omega

/-- The full- and partial-neighbour counts add up to twice the number of
pertinent-pertinent adjacencies. -/
theorem pairCount_full_add_part : ∀ (L : List NLabel) (prev : Option NLabel),
    pairCountGo .full prev L + pairCountGo .part prev L = 2 * pairPertGo prev L := by
  intro L
  induction L with
  | nil => intro prev; simp [pairCountGo, pairPertGo]
  | cons x r ih =>
    intro prev
    show (match prev with
          | some p =>
            (if pertinent p ∧ x = NLabel.full then 1 else 0) +
            (if pertinent x ∧ p = NLabel.full then 1 else 0)
          | none => 0) + pairCountGo .full (some x) r +
         ((match prev with
          | some p =>
            (if pertinent p ∧ x = NLabel.part then 1 else 0) +
            (if pertinent x ∧ p = NLabel.part then 1 else 0)
          | none => 0) + pairCountGo .part (some x) r) =
         2 * ((match prev with
          | some p => if pertinent p ∧ pertinent x then 1 else 0
          | none => 0) + pairPertGo (some x) r)
    have h := ih (some x)
    cases prev with
    | none => simpa using h
    | some p => cases p <;> cases x <;> simp [pertinent] <;> omega

/-- Pertinent adjacencies plus maximal pertinent runs equal the number of
pertinent labels. -/
theorem pairPert_add_runs : ∀ (L : List NLabel) (prev : Option NLabel),
    pairPertGo prev L + runsGo prev L = countPert L := by
  intro L
  induction L with
  | nil => intro prev; simp [pairPertGo, runsGo, countPert]
  | cons x r ih =>
    intro prev
    show (match prev with
          | some p => if pertinent p ∧ pertinent x then 1 else 0
          | none => 0) + pairPertGo (some x) r +
         ((if pertinent x ∧ ¬(match prev with
                              | some p => pertinent p
                              | none => false) = true then 1 else 0) +
          runsGo (some x) r) = countPert (x :: r)
    have h := ih (some x)
    have hc : countPert (x :: r) = (if pertinent x then 1 else 0) + countPert r := by
      simp only [countPert, List.countP_cons]
      cases hx : pertinent x <;> simp [hx] <;> omega
    rw [hc]
    cases prev with
    | none => cases hx : pertinent x <;> simp [hx] <;> omega
    | some p =>
      cases hx : pertinent x <;> cases hp : pertinent p <;>
        simp [hx, hp] <;> omega

end PQ

namespace PQ

/-- A previous empty element contributes nothing to a non-empty-label pair
count. -/
theorem pairCountGo_empty_prev (t : NLabel) (ht : t ≠ .empty) (l : List NLabel) :
    pairCountGo t (some .empty) l = pairCount t l := by
  cases l with
  | nil => simp [pairCountGo, pairCount]
  | cons x r =>
    show ((if pertinent .empty ∧ x = t then 1 else 0) +
          (if pertinent x ∧ NLabel.empty = t then 1 else 0)) +
         pairCountGo t (some x) r = pairCount t (x :: r)
    have h1 : pertinent .empty = false := rfl
    have h2 : NLabel.empty ≠ t := fun h => ht h.symm
    simp [pairCount, pairCountGo, h1, h2]

/-- Leading empties do not change a non-empty-label pair count. -/
theorem pairCount_replicate_prefix (t : NLabel) (ht : t ≠ .empty) (a : Nat)
    (l : List NLabel) :
    pairCount t (List.replicate a .empty ++ l) = pairCount t l := by
  induction a with
  | zero => simp
  | succ a ih =>
    have : List.replicate (a+1) NLabel.empty ++ l =
        .empty :: (List.replicate a .empty ++ l) := by
      simp [List.replicate_succ]
    rw [this]
    show pairCountGo t none (.empty :: (List.replicate a .empty ++ l)) = _
    have : pairCountGo t none (.empty :: (List.replicate a .empty ++ l)) =
        pairCountGo t (some .empty) (List.replicate a .empty ++ l) := by
      simp [pairCountGo]
    rw [this, pairCountGo_empty_prev t ht, ih]

/-- A run of empties has zero non-empty-label pair count from any
starting point. -/
theorem pairCountGo_replicate_empty (t : NLabel) (ht : t ≠ .empty) (c : Nat) :
    ∀ prev, pairCountGo t prev (List.replicate c .empty) = 0 := by
  induction c with
  | zero => intro prev; simp [pairCountGo]
  | succ c ih =>
    intro prev
    have h2 : NLabel.empty ≠ t := fun h => ht h.symm
    rw [List.replicate_succ]
    cases prev with
    | none => simpa [pairCountGo] using ih (some .empty)
    | some p =>
      show ((if pertinent p ∧ NLabel.empty = t then 1 else 0) +
            (if pertinent .empty ∧ p = t then 1 else 0)) +
           pairCountGo t (some .empty) (List.replicate c .empty) = 0
      have h1 : pertinent .empty = false := rfl
      simp [h1, h2, ih (some .empty)]

/-- The last element of a list, or the supplied default. -/
def lastOr (prev : Option NLabel) : List NLabel → Option NLabel
  | [] => prev
  | x :: r => lastOr (some x) r

/-- Appending: the pair count splits at the boundary, the right part
continuing from the last element of the left part. -/
theorem pairCountGo_append (t : NLabel) (l₂ : List NLabel) :
    ∀ (l₁ : List NLabel) (prev : Option NLabel),
    pairCountGo t prev (l₁ ++ l₂) =
      pairCountGo t prev l₁ + pairCountGo t (lastOr prev l₁) l₂ := by
  intro l₁
  induction l₁ with
  | nil => intro prev; simp [pairCountGo, lastOr]
  | cons x r ih =>
    intro prev
    show (match prev with
          | some p =>
            (if pertinent p ∧ x = t then 1 else 0) +
            (if pertinent x ∧ p = t then 1 else 0)
          | none => 0) + pairCountGo t (some x) (r ++ l₂) = _
    rw [ih (some x)]
    have hR : pairCountGo t prev (x :: r) =
        (match prev with
         | some p =>
           (if pertinent p ∧ x = t then 1 else 0) +
           (if pertinent x ∧ p = t then 1 else 0)
         | none => 0) + pairCountGo t (some x) r := rfl
    rw [hR, show lastOr prev (x :: r) = lastOr (some x) r from rfl]
    omega

/-- Trailing empties do not change a non-empty-label pair count. -/
theorem pairCount_replicate_suffix (t : NLabel) (ht : t ≠ .empty) (c : Nat)
    (l : List NLabel) :
    pairCount t (l ++ List.replicate c .empty) = pairCount t l := by
  rw [pairCount, pairCountGo_append, pairCountGo_replicate_empty t ht]
  simp [pairCount]

end PQ

namespace PQ

/-- In an all-pertinent chain continuing a pertinent `p`, each occurrence
of `t` is counted once per adjacency: twice when interior, once at the far
end. -/
theorem pairCountGo_allPert (t : NLabel) :
    ∀ (m : List NLabel) (p : NLabel), m ≠ [] → pertinent p = true →
    (∀ z ∈ m, pertinent z = true) →
    pairCountGo t (some p) m + (if lastOr none m = some t then 1 else 0) =
      (if p = t then 1 else 0) + 2 * m.count t := by
  intro m
  induction m with
  | nil => intro p h; exact absurd rfl h
  | cons x r ih =>
    intro p _ hp hall
    have hx : pertinent x = true := hall x (by simp)
    cases r with
    | nil =>
      show ((if pertinent p ∧ x = t then 1 else 0) +
            (if pertinent x ∧ p = t then 1 else 0)) + 0 +
           (if lastOr (some x) [] = some t then 1 else 0) = _
      simp only [lastOr, List.count_cons, List.count_nil, hp, hx, true_and]
      by_cases h1 : x = t <;> by_cases h2 : p = t <;>
        simp [h1, h2, Option.some_inj] <;> omega
    | cons y r2 =>
      have hry : (y :: r2) ≠ [] := by simp
      have hall2 : ∀ z ∈ (y :: r2), pertinent z = true := by
        intro z hz; exact hall z (by simp [hz])
      have := ih x hry hx hall2
      show ((if pertinent p ∧ x = t then 1 else 0) +
            (if pertinent x ∧ p = t then 1 else 0)) +
           pairCountGo t (some x) (y :: r2) +
           (if lastOr (some x) (y :: r2) = some t then 1 else 0) = _
      have hlast : lastOr (some x) (y :: r2) = lastOr none (y :: r2) := by
        show lastOr (some y) r2 = lastOr (some y) r2
        rfl
      rw [hlast]
      have hcount : (x :: y :: r2).count t =
          (if x = t then 1 else 0) + (y :: r2).count t := by
        simp [List.count_cons]
        by_cases h1 : x = t <;> simp [h1] <;> omega
      rw [hcount]
      simp only [hp, hx, true_and]
      by_cases h1 : x = t <;> by_cases h2 : p = t <;>
        simp only [h1, h2, if_true, if_false] at this ⊢ <;> omega

/-- The pair count of an all-pertinent block of length at least two:
twice the label count minus the two end indicators. -/
theorem pairCount_allPert (t : NLabel) (m : List NLabel)
    (hlen : 2 ≤ m.length) (hall : ∀ z ∈ m, pertinent z = true) :
    pairCount t m +
      (if m.head? = some t then 1 else 0) +
      (if lastOr none m = some t then 1 else 0) = 2 * m.count t := by
  cases m with
  | nil => simp at hlen
  | cons x r =>
    cases r with
    | nil => simp at hlen
    | cons y r2 =>
      have hx : pertinent x = true := hall x (by simp)
      have hall2 : ∀ z ∈ (y :: r2), pertinent z = true := by
        intro z hz; exact hall z (by simp [hz])
      have h := pairCountGo_allPert t (y :: r2) x (by simp) hx hall2
      have hP : pairCount t (x :: y :: r2) = pairCountGo t (some x) (y :: r2) := by
        simp [pairCount, pairCountGo]
      have hlast : lastOr none (x :: y :: r2) = lastOr none (y :: r2) := rfl
      have hcount : (x :: y :: r2).count t =
          (if x = t then 1 else 0) + (y :: r2).count t := by
        simp [List.count_cons]
        by_cases h1 : x = t <;> simp [h1] <;> omega
      rw [hP, hlast, hcount]
      have hhead : ((x :: y :: r2).head? = some t) ↔ (x = t) := by
        simp
      by_cases h1 : x = t
      · have e1 : (if (x :: y :: r2).head? = some t then 1 else 0) = 1 := by
          simp [hhead, h1]
        have e2 : (if x = t then (1 : Nat) else 0) = 1 := by simp [h1]
        rw [e2] at h
        rw [e1, e2]
        omega
      · have e1 : (if (x :: y :: r2).head? = some t then 1 else 0) = 0 := by
          simp [hhead, h1]
        have e2 : (if x = t then (1 : Nat) else 0) = 0 := by simp [h1]
        rw [e2] at h
        rw [e1, e2]
        omega

end PQ

namespace PQ

/-- Whether the previous element was pertinent. -/
def prevPertOf : Option NLabel → Bool
  | some p => pertinent p
  | none => false

/-- `runsGo` depends on the previous element only through its pertinence. -/
theorem runsGo_congr : ∀ (l : List NLabel) (p₁ p₂ : Option NLabel),
    prevPertOf p₁ = prevPertOf p₂ → runsGo p₁ l = runsGo p₂ l := by
  intro l
  cases l with
  | nil => intro p₁ p₂ _; rfl
  | cons x r =>
    intro p₁ p₂ h
    show (if pertinent x ∧ ¬prevPertOf p₁ = true then 1 else 0) + runsGo (some x) r =
         (if pertinent x ∧ ¬prevPertOf p₂ = true then 1 else 0) + runsGo (some x) r
    rw [h]

/-- A list with no pertinent labels is all empties. -/
theorem countPert_zero_replicate : ∀ (r : List NLabel), countPert r = 0 →
    r = List.replicate r.length .empty := by
  intro r
  induction r with
  | nil => intro _; rfl
  | cons x s ih =>
    intro h
    simp only [countPert, List.countP_cons] at h
    cases hx : pertinent x with
    | true => simp [hx] at h
    | false =>
      have hx2 : x = .empty := by cases x <;> simp [pertinent] at hx ⊢
      have hs : countPert s = 0 := by
        simp [hx] at h; simpa [countPert] using h
      rw [hx2, ih hs]
      simp [List.replicate_succ]

/-- After a non-pertinent element, zero runs means no pertinent labels at
all. -/
theorem runsGo_nonpert_zero : ∀ (r : List NLabel) (prev : Option NLabel),
    prevPertOf prev = false → runsGo prev r = 0 → countPert r = 0 := by
  intro r
  induction r with
  | nil => intro prev _ _; rfl
  | cons x s ih =>
    intro prev hprev h
    show List.countP (fun z => pertinent z) (x :: s) = 0
    have hstep : runsGo prev (x :: s) =
        (if pertinent x ∧ ¬prevPertOf prev = true then 1 else 0) +
        runsGo (some x) s := rfl
    rw [hstep] at h
    cases hx : pertinent x with
    | true => simp [hx, hprev] at h
    | false =>
      have hs : countPert s = 0 := ih (some x) (by simp [prevPertOf, hx]) (by omega)
      simp [List.countP_cons, hx]
      simpa [countPert] using hs

/-- After a pertinent element, zero further runs force the list to be a
pertinent block followed by empties. -/
theorem runsGo_pert_zero_decomp : ∀ (l : List NLabel) (p : NLabel),
    pertinent p = true → runsGo (some p) l = 0 →
    ∃ m c, l = m ++ List.replicate c .empty ∧ (∀ z ∈ m, pertinent z = true) := by
  intro l
  induction l with
  | nil => intro p _ _; exact ⟨[], 0, rfl, by simp⟩
  | cons x s ih =>
    intro p hp h
    have hstep : runsGo (some p) (x :: s) =
        (if pertinent x ∧ ¬prevPertOf (some p) = true then 1 else 0) +
        runsGo (some x) s := rfl
    rw [hstep] at h
    cases hx : pertinent x with
    | true =>
      obtain ⟨m, c, hdec, hall⟩ := ih x hx (by omega)
      refine ⟨x :: m, c, by simp [hdec], ?_⟩
      intro z hz
      rcases List.mem_cons.mp hz with h1 | h2
      · rw [h1]; exact hx
      · exact hall z h2
    | false =>
      have hc : countPert s = 0 :=
        runsGo_nonpert_zero s (some x) (by simp [prevPertOf, hx]) (by omega)
      have hx2 : x = .empty := by cases x <;> simp [pertinent] at hx ⊢
      refine ⟨[], s.length + 1, ?_, by simp⟩
      rw [hx2, countPert_zero_replicate s hc]
      simp [List.replicate_succ]

/-- Exactly one run decomposes the list as empties, a non-empty pertinent
block, and empties. -/
theorem runs_one_decomp : ∀ (L : List NLabel), runsGo none L = 1 →
    ∃ a m c, L = List.replicate a .empty ++ m ++ List.replicate c .empty ∧
      m ≠ [] ∧ (∀ z ∈ m, pertinent z = true) := by
  intro L
  induction L with
  | nil => intro h; simp [runsGo] at h
  | cons x s ih =>
    intro h
    have hstep : runsGo none (x :: s) =
        (if pertinent x ∧ ¬prevPertOf none = true then 1 else 0) +
        runsGo (some x) s := rfl
    rw [hstep] at h
    cases hx : pertinent x with
    | true =>
      have hz : runsGo (some x) s = 0 := by simp [hx, prevPertOf] at h; omega
      obtain ⟨m, c, hdec, hall⟩ := runsGo_pert_zero_decomp s x hx hz
      refine ⟨0, x :: m, c, by simp [hdec], by simp, ?_⟩
      intro z hz2
      rcases List.mem_cons.mp hz2 with h1 | h2
      · rw [h1]; exact hx
      · exact hall z h2
    | false =>
      have hs : runsGo (some x) s = 1 := by simp [hx, prevPertOf] at h; omega
      have hs2 : runsGo none s = 1 := by
        rw [runsGo_congr s none (some x) (by simp [prevPertOf, hx])]
        exact hs
      obtain ⟨a, m, c, hdec, hm, hall⟩ := ih hs2
      have hx2 : x = .empty := by cases x <;> simp [pertinent] at hx ⊢
      exact ⟨a + 1, m, c, by rw [hx2, hdec]; simp [List.replicate_succ], hm, hall⟩

/-- `countPert` over a cons. -/
theorem countPert_cons (x : NLabel) (s : List NLabel) :
    countPert (x :: s) = (if pertinent x = true then 1 else 0) + countPert s := by
  simp only [countPert, List.countP_cons]
  cases pertinent x <;> simp <;> omega

/-- A list with at most one pertinent label matches the pattern. -/
theorem countPert_le_one_matches : ∀ (L : List NLabel), countPert L ≤ 1 →
    matchesPattern L := by
  intro L
  induction L with
  | nil => intro _; exact ⟨0, [], 0, rfl, Or.inl rfl⟩
  | cons x s ih =>
    intro h
    rw [countPert_cons] at h
    cases hx : pertinent x with
    | false =>
      have hx2 : x = .empty := by cases x <;> simp [pertinent] at hx ⊢
      have hs : countPert s ≤ 1 := by rw [hx] at h; simpa using h
      obtain ⟨a, m, c, hdec, hmid⟩ := ih hs
      exact ⟨a + 1, m, c, by rw [hx2, hdec]; simp [List.replicate_succ], hmid⟩
    | true =>
      have hs : countPert s = 0 := by rw [hx] at h; simp at h; omega
      have hrep := countPert_zero_replicate s hs
      have hmid : midOk [x] := by
        cases x with
        | empty => simp [pertinent] at hx
        | full => exact Or.inr ⟨false, 1, false, by simp⟩
        | part => exact Or.inr ⟨true, 0, false, by simp⟩
      refine ⟨0, [x], s.length, ?_, hmid⟩
      rw [List.replicate_zero, List.nil_append]
      exact congrArg (fun l => x :: l) hrep

end PQ

namespace PQ

/-- `lastOr` of a list ending in `y` is `y`. -/
theorem lastOr_concat (y : NLabel) : ∀ (l : List NLabel) (prev : Option NLabel),
    lastOr prev (l ++ [y]) = some y := by
  intro l
  induction l with
  | nil => intro prev; rfl
  | cons x r ih => intro prev; exact ih (some x)

/-- An all-pertinent block of length at least two whose partial labels sit
only at its two ends has the shape `partial? full* partial?`. -/
theorem shape_of_ends (m : List NLabel) (hall : ∀ z ∈ m, pertinent z = true)
    (hlen : 2 ≤ m.length)
    (hcount : m.count .part =
      (if m.head? = some .part then 1 else 0) +
      (if lastOr none m = some .part then 1 else 0)) :
    midOk m := by
  cases m with
  | nil => simp at hlen
  | cons x r =>
    have hrne : r ≠ [] := by
      intro h; rw [h] at hlen; simp at hlen
    obtain ⟨mid, y, hr⟩ : ∃ mid y, r = mid ++ [y] := by
      rcases r.eq_nil_or_concat with h | ⟨mid, y, h⟩
      · exact absurd h hrne
      · exact ⟨mid, y, by simpa [List.concat_eq_append] using h⟩
    subst hr
    have hhead : (x :: (mid ++ [y])).head? = some x := rfl
    have hlast : lastOr none (x :: (mid ++ [y])) = some y := by
      show lastOr (some x) (mid ++ [y]) = some y
      exact lastOr_concat y mid (some x)
    rw [hhead, hlast] at hcount
    have hcnt : (x :: (mid ++ [y])).count .part =
        (if x = .part then 1 else 0) + mid.count .part +
        (if y = .part then 1 else 0) := by
      simp [List.count_cons, List.count_append]
      by_cases h1 : x = NLabel.part <;> by_cases h2 : y = NLabel.part <;>
        simp [h1, h2] <;> omega
    rw [hcnt] at hcount
    have hxy1 : ((some x = some NLabel.part) ↔ (x = NLabel.part)) := by simp
    have hxy2 : ((some y = some NLabel.part) ↔ (y = NLabel.part)) := by simp
    have hmid0 : mid.count .part = 0 := by
      by_cases h1 : x = NLabel.part <;> by_cases h2 : y = NLabel.part <;>
        simp only [hxy1, hxy2, h1, h2, if_true, if_false] at hcount <;>
        simp at hcount <;> omega
    have hmidfull : ∀ z ∈ mid, z = NLabel.full := by
      intro z hz
      have hzp : pertinent z = true := hall z (by simp [hz])
      have hznp : z ≠ NLabel.part := by
        intro h
        have := List.count_pos_iff.mpr (h ▸ hz)
        omega
      cases z with
      | empty => simp [pertinent] at hzp
      | full => rfl
      | part => exact absurd rfl hznp
    have hmidrep : mid = List.replicate mid.length NLabel.full := by
      apply List.eq_replicate_of_mem hmidfull
    have hxp : pertinent x = true := hall x (by simp)
    have hyp : pertinent y = true := hall y (by simp)
    have hrep1 : ∀ n : Nat, List.replicate n NLabel.full ++ [NLabel.full] =
        List.replicate (n + 1) NLabel.full := by
      intro n; rw [List.replicate_succ']
    rcases (by cases x <;> simp [pertinent] at hxp ⊢ <;> tauto :
        x = NLabel.full ∨ x = NLabel.part) with hx | hx <;>
    rcases (by cases y <;> simp [pertinent] at hyp ⊢ <;> tauto :
        y = NLabel.full ∨ y = NLabel.part) with hy | hy
    · refine Or.inr ⟨false, mid.length + 2, false, ?_⟩
      show x :: (mid ++ [y]) =
        [] ++ List.replicate (mid.length + 2) NLabel.full ++ []
      rw [List.nil_append, List.append_nil, hx, hy]
      conv_lhs => rw [hmidrep]
      rw [hrep1, ← List.replicate_succ]
    · refine Or.inr ⟨false, mid.length + 1, true, ?_⟩
      show x :: (mid ++ [y]) =
        [] ++ List.replicate (mid.length + 1) NLabel.full ++ [NLabel.part]
      rw [List.nil_append, hx, hy]
      conv_lhs => rw [hmidrep]
      rw [List.replicate_succ]
      simp
    · refine Or.inr ⟨true, mid.length + 1, false, ?_⟩
      show x :: (mid ++ [y]) =
        [NLabel.part] ++ List.replicate (mid.length + 1) NLabel.full ++ []
      rw [List.append_nil, hx, hy]
      conv_lhs => rw [hmidrep]
      rw [← hrep1]
      simp
    · refine Or.inr ⟨true, mid.length, true, ?_⟩
      show x :: (mid ++ [y]) =
        [NLabel.part] ++ List.replicate mid.length NLabel.full ++ [NLabel.part]
      rw [hx, hy]
      conv_lhs => rw [hmidrep]
      simp

end PQ

namespace PQ

/-- A run of empties has no pertinent labels. -/
theorem countPert_replicate_empty (a : Nat) :
    countPert (List.replicate a .empty) = 0 := by
  induction a with
  | zero => rfl
  | succ a ih => rw [List.replicate_succ, countPert_cons]; simp [pertinent, ih]

/-- `countPert` adds over append. -/
theorem countPert_append (l₁ l₂ : List NLabel) :
    countPert (l₁ ++ l₂) = countPert l₁ + countPert l₂ := by
  simp [countPert, List.countP_append]

/-- A run of empties holds no non-empty label. -/
theorem count_replicate_empty (t : NLabel) (ht : t ≠ .empty) (a : Nat) :
    (List.replicate a NLabel.empty).count t = 0 := by
  induction a with
  | zero => rfl
  | succ a ih =>
    rw [List.replicate_succ, List.count_cons, ih]
    simp [ht, Ne.symm ht]

/-- The pertinent count of the surrounding empties vanishes. -/
theorem countPert_decomp (a c : Nat) (m : List NLabel) :
    countPert (List.replicate a .empty ++ m ++ List.replicate c .empty) =
      countPert m := by
  rw [countPert_append, countPert_append, countPert_replicate_empty,
      countPert_replicate_empty]
  omega

/-- Non-empty-label counts ignore the surrounding empties. -/
theorem count_decomp (t : NLabel) (ht : t ≠ .empty) (a c : Nat) (m : List NLabel) :
    (List.replicate a NLabel.empty ++ m ++ List.replicate c NLabel.empty).count t =
      m.count t := by
  rw [List.count_append, List.count_append, count_replicate_empty t ht,
      count_replicate_empty t ht]
  omega

/-- Non-empty-label pair counts ignore the surrounding empties. -/
theorem pairCount_decomp (t : NLabel) (ht : t ≠ .empty) (a c : Nat) (m : List NLabel) :
    pairCount t (List.replicate a .empty ++ m ++ List.replicate c .empty) =
      pairCount t m := by
  rw [List.append_assoc, pairCount_replicate_prefix t ht,
      pairCount_replicate_suffix t ht]

/-- Every label of a `midOk` block is pertinent. -/
theorem midOk_all_pert (m : List NLabel) (h : midOk m) :
    ∀ z ∈ m, pertinent z = true := by
  rcases h with h | ⟨pl, k, pr, h⟩
  · rw [h]; simp
  · rw [h]; intro z hz
    simp only [List.mem_append] at hz
    rcases hz with (h1 | h2) | h3
    · cases pl <;> simp at h1 <;> simp [h1, pertinent]
    · rw [List.eq_of_mem_replicate h2]; rfl
    · cases pr <;> simp at h3 <;> simp [h3, pertinent]

/-- An all-pertinent list has as many pertinent labels as elements. -/
theorem countPert_eq_length (m : List NLabel) (h : ∀ z ∈ m, pertinent z = true) :
    countPert m = m.length := by
  induction m with
  | nil => rfl
  | cons x r ih =>
    rw [countPert_cons, h x (by simp), ih (fun z hz => h z (by simp [hz]))]
    simp; omega

end PQ

namespace PQ

/-- On a pattern match with at least two pertinent labels, the two count
equations of `ConsecutiveFullPartialChildren` hold (in additive form). -/
theorem matches_counts (L : List NLabel) (hm : matchesPattern L)
    (hT : 2 ≤ countPert L) :
    pairCount .part L = L.count .part ∧
    pairCount .full L + 2 = 2 * L.count .full + pairCount .part L := by
  obtain ⟨a, m, c, hdec, hmid⟩ := hm
  subst hdec
  have hallm := midOk_all_pert m hmid
  have hTm : 2 ≤ countPert m := by rw [← countPert_decomp a c m]; exact hT
  have hlen : 2 ≤ m.length := by rw [← countPert_eq_length m hallm]; exact hTm
  rw [pairCount_decomp .part (by decide) a c m,
      pairCount_decomp .full (by decide) a c m,
      count_decomp .part (by decide) a c m,
      count_decomp .full (by decide) a c m]
  have hendP := pairCount_allPert .part m hlen hallm
  have hendF := pairCount_allPert .full m hlen hallm
  rcases hmid with rfl | ⟨pl, k, pr, rfl⟩
  · simp [countPert] at hTm
  · have hbf : ((false : Bool) = true) = False := by simp
    have hbt : ((true : Bool) = true) = True := by simp
    cases pl <;> cases pr
    · -- full^k, k ≥ 2
      simp only [hbf, if_false, List.nil_append, List.append_nil, List.length_append,
        List.length_replicate, List.length_singleton] at hendP hendF hlen ⊢
      obtain ⟨j, rfl⟩ : ∃ j, k = j + 1 := ⟨k - 1, by omega⟩
      have hh : (List.replicate (j+1) NLabel.full).head? = some NLabel.full := by
        rw [List.replicate_succ]; rfl
      have hl : lastOr none (List.replicate (j+1) NLabel.full) = some NLabel.full := by
        rw [List.replicate_succ']; exact lastOr_concat _ _ _
      rw [hh, hl] at hendP hendF
      simp only [List.count_replicate] at hendP hendF ⊢
      simp at hendP hendF ⊢
      omega
    · -- full^k ++ [part], k ≥ 1
      simp only [hbf, hbt, if_false, if_true, List.nil_append, List.length_append,
        List.length_replicate, List.length_singleton] at hendP hendF hlen ⊢
      obtain ⟨j, rfl⟩ : ∃ j, k = j + 1 := by
        rcases Nat.eq_zero_or_pos k with h0 | h1
        · subst h0; simp at hlen
        · exact ⟨k - 1, by omega⟩
      have hh : (List.replicate (j+1) NLabel.full ++ [NLabel.part]).head? =
          some NLabel.full := by
        rw [List.replicate_succ]; rfl
      have hl : lastOr none (List.replicate (j+1) NLabel.full ++ [NLabel.part]) =
          some NLabel.part := lastOr_concat _ _ _
      rw [hh, hl] at hendP hendF
      simp only [List.count_append, List.count_replicate, List.count_singleton] at hendP hendF ⊢
      simp at hendP hendF ⊢
      omega
    · -- [part] ++ full^k, k ≥ 1
      simp only [hbf, hbt, if_false, if_true, List.append_nil, List.length_append,
        List.length_replicate, List.length_singleton] at hendP hendF hlen ⊢
      obtain ⟨j, rfl⟩ : ∃ j, k = j + 1 := by
        rcases Nat.eq_zero_or_pos k with h0 | h1
        · subst h0; simp at hlen
        · exact ⟨k - 1, by omega⟩
      have hh : (NLabel.part :: List.replicate (j+1) NLabel.full).head? =
          some NLabel.part := rfl
      have hl : lastOr none (NLabel.part :: List.replicate (j+1) NLabel.full) =
          some NLabel.full := by
        show lastOr (some NLabel.part) (List.replicate (j+1) NLabel.full) =
          some NLabel.full
        rw [List.replicate_succ']; exact lastOr_concat _ _ _
      have hcons : [NLabel.part] ++ List.replicate (j+1) NLabel.full =
          NLabel.part :: List.replicate (j+1) NLabel.full := rfl
      rw [hcons] at hendP hendF ⊢
      rw [hh, hl] at hendP hendF
      simp only [List.count_cons, List.count_replicate] at hendP hendF ⊢
      simp at hendP hendF ⊢
      omega
    · -- [part] ++ full^k ++ [part]
      simp only [hbt, if_true, List.length_append, List.length_replicate,
        List.length_singleton] at hendP hendF hlen ⊢
      have hcons : [NLabel.part] ++ List.replicate k NLabel.full ++ [NLabel.part] =
          NLabel.part :: (List.replicate k NLabel.full ++ [NLabel.part]) := by simp
      rw [hcons] at hendP hendF ⊢
      have hh : (NLabel.part :: (List.replicate k NLabel.full ++ [NLabel.part])).head? =
          some NLabel.part := rfl
      have hl : lastOr none
          (NLabel.part :: (List.replicate k NLabel.full ++ [NLabel.part])) =
          some NLabel.part := by
        show lastOr (some NLabel.part)
          (List.replicate k NLabel.full ++ [NLabel.part]) = some NLabel.part
        exact lastOr_concat _ _ _
      rw [hh, hl] at hendP hendF
      simp only [List.count_cons, List.count_append, List.count_replicate,
        List.count_singleton] at hendP hendF ⊢
      simp at hendP hendF ⊢
      omega

end PQ

namespace PQ

/-- The counting predicate of `ConsecutiveFullPartialChildren` holds
exactly on the lists matching `empty* (partial? full* partial?) empty*`. -/
theorem cfpc_iff_matches (L : List NLabel) :
    consecutiveFullPartialChildren L = true ↔ matchesPattern L := by
  simp only [consecutiveFullPartialChildren]
  by_cases htriv : L.count NLabel.full + L.count NLabel.part ≤ 1
  · rw [if_pos htriv]
    constructor
    · intro _
      apply countPert_le_one_matches
      rw [← count_full_add_part]; exact htriv
    · intro _; rfl
  · rw [if_neg htriv]
    have hT : 2 ≤ countPert L := by rw [← count_full_add_part]; omega
    rw [adjCount_eq_pairCount, adjCount_eq_pairCount,
        Bool.and_eq_true, decide_eq_true_eq, decide_eq_true_eq]
    constructor
    · rintro ⟨h1, h2⟩
      -- the two count equations force a single pertinent run
      have hfp := pairCount_full_add_part L none
      have hpr := pairPert_add_runs L none
      have hcfp := count_full_add_part L
      have hpc : pairCount NLabel.full L + pairCount NLabel.part L =
          2 * pairPertGo none L := hfp
      have hruns : runsGo none L = 1 := by omega
      obtain ⟨a, m, c, hdec, hmne, hallm⟩ := runs_one_decomp L hruns
      have hlen : 2 ≤ m.length := by
        have := countPert_decomp a c m
        rw [← hdec] at this
        rw [← countPert_eq_length m hallm, ← this]
        exact hT
      have hend := pairCount_allPert NLabel.part m hlen hallm
      have hpcm : pairCount NLabel.part L = pairCount NLabel.part m := by
        rw [hdec]; exact pairCount_decomp NLabel.part (by decide) a c m
      have hcm : L.count NLabel.part = m.count NLabel.part := by
        rw [hdec]; exact count_decomp NLabel.part (by decide) a c m
      have hmid : midOk m := by
        apply shape_of_ends m hallm hlen
        omega
      exact ⟨a, m, c, hdec, hmid⟩
    · intro hm
      obtain ⟨h1, h2⟩ := matches_counts L hm hT
      refine ⟨h1, ?_⟩
      omega

end PQ

namespace PQ

/-- All labels empty. -/
def allEmpty (t : List NLabel) : Prop := ∀ z ∈ t, z = NLabel.empty

/-- Residual language of the scan after a run has started but not
finished: `full* partial? empty*`. -/
def tailOk (t : List NLabel) : Prop :=
  ∃ (k : Nat) (pr : Bool) (c : Nat),
    t = List.replicate k NLabel.full ++ (if pr then [NLabel.part] else []) ++
        List.replicate c NLabel.empty

theorem allEmpty_replicate (t : List NLabel) (h : allEmpty t) :
    t = List.replicate t.length NLabel.empty := by
  induction t with
  | nil => rfl
  | cons x r ih =>
    have hx : x = NLabel.empty := h x (List.mem_cons_self x r)
    have hr : r = List.replicate r.length NLabel.empty :=
      ih (fun z hz => h z (List.mem_cons_of_mem x hz))
    rw [List.length_cons, List.replicate_succ, hx]
    exact congrArg (fun l => NLabel.empty :: l) hr

theorem allEmpty_of_replicate (n : Nat) (t : List NLabel)
    (h : t = List.replicate n NLabel.empty) : allEmpty t := by
  intro z hz
  rw [h] at hz
  exact List.eq_of_mem_replicate hz

theorem matchesPattern_of_allEmpty (t : List NLabel) (h : allEmpty t) :
    matchesPattern t :=
  ⟨0, [], t.length, by simpa using allEmpty_replicate t h, Or.inl rfl⟩

theorem tailOk_of_allEmpty (t : List NLabel) (h : allEmpty t) : tailOk t :=
  ⟨0, false, t.length, by simpa using allEmpty_replicate t h⟩

theorem tailOk_cons_full (t : List NLabel) :
    tailOk (NLabel.full :: t) ↔ tailOk t := by
  constructor
  · rintro ⟨k, pr, c, heq⟩
    cases k with
    | zero =>
      exfalso
      cases pr with
      | true =>
        simp only [List.replicate_zero, List.nil_append, if_true] at heq
        exact absurd (List.head_eq_of_cons_eq heq) (by decide)
      | false =>
        simp only [List.replicate_zero, List.nil_append, if_false] at heq
        cases c with
        | zero => exact List.cons_ne_nil _ _ heq
        | succ c' =>
          rw [List.replicate_succ] at heq
          exact absurd (List.head_eq_of_cons_eq heq) (by decide)
    | succ j =>
      rw [List.replicate_succ, List.cons_append, List.cons_append] at heq
      exact ⟨j, pr, c, List.tail_eq_of_cons_eq heq⟩
  · rintro ⟨k, pr, c, heq⟩
    exact ⟨k + 1, pr, c, by rw [heq, List.replicate_succ]; simp⟩

theorem tailOk_cons_part (t : List NLabel) :
    tailOk (NLabel.part :: t) ↔ allEmpty t := by
  constructor
  · rintro ⟨k, pr, c, heq⟩
    cases k with
    | zero =>
      cases pr with
      | true =>
        simp only [List.replicate_zero, List.nil_append, if_true,
          List.singleton_append] at heq
        exact allEmpty_of_replicate c t (List.tail_eq_of_cons_eq heq)
      | false =>
        exfalso
        simp only [List.replicate_zero, List.nil_append, if_false] at heq
        cases c with
        | zero => exact List.cons_ne_nil _ _ heq
        | succ c' =>
          rw [List.replicate_succ] at heq
          exact absurd (List.head_eq_of_cons_eq heq) (by decide)
    | succ j =>
      exfalso
      rw [List.replicate_succ, List.cons_append, List.cons_append] at heq
      exact absurd (List.head_eq_of_cons_eq heq) (by decide)
  · intro h
    exact ⟨0, true, t.length, by
      simpa using congrArg (fun l => NLabel.part :: l) (allEmpty_replicate t h)⟩

theorem tailOk_cons_empty (t : List NLabel) :
    tailOk (NLabel.empty :: t) ↔ allEmpty t := by
  constructor
  · rintro ⟨k, pr, c, heq⟩
    cases k with
    | zero =>
      cases pr with
      | true =>
        exfalso
        simp only [List.replicate_zero, List.nil_append, if_true] at heq
        exact absurd (List.head_eq_of_cons_eq heq) (by decide)
      | false =>
        simp only [List.replicate_zero, List.nil_append, if_false] at heq
        cases c with
        | zero => exact absurd heq (List.cons_ne_nil _ _)
        | succ c' =>
          rw [List.replicate_succ] at heq
          exact allEmpty_of_replicate c' t (List.tail_eq_of_cons_eq heq)
    | succ j =>
      exfalso
      rw [List.replicate_succ, List.cons_append, List.cons_append] at heq
      exact absurd (List.head_eq_of_cons_eq heq) (by decide)
  · intro h
    exact tailOk_of_allEmpty _ (by
      intro z hz
      rcases List.mem_cons.1 hz with h0 | h0
      · exact h0
      · exact h z h0)

end PQ

namespace PQ

theorem matchesPattern_cons_empty (t : List NLabel) :
    matchesPattern (NLabel.empty :: t) ↔ matchesPattern t := by
  constructor
  · rintro ⟨a, m, c, heq, hmid⟩
    cases a with
    | succ j =>
      rw [List.replicate_succ, List.cons_append, List.cons_append] at heq
      exact ⟨j, m, c, List.tail_eq_of_cons_eq heq, hmid⟩
    | zero =>
      simp only [List.replicate_zero, List.nil_append] at heq
      cases m with
      | nil =>
        simp only [List.nil_append] at heq
        cases c with
        | zero => exact absurd heq (List.cons_ne_nil _ _)
        | succ c' =>
          rw [List.replicate_succ] at heq
          exact matchesPattern_of_allEmpty t
            (allEmpty_of_replicate c' t (List.tail_eq_of_cons_eq heq))
      | cons y ys =>
        exfalso
        have hy : NLabel.empty = y := List.head_eq_of_cons_eq heq
        have := midOk_all_pert _ hmid y (List.mem_cons_self y ys)
        rw [← hy] at this
        exact absurd this (by decide)
  · rintro ⟨a, m, c, heq, hmid⟩
    exact ⟨a + 1, m, c, by rw [heq, List.replicate_succ]; simp, hmid⟩

theorem matchesPattern_cons_full (t : List NLabel) :
    matchesPattern (NLabel.full :: t) ↔ tailOk t := by
  constructor
  · rintro ⟨a, m, c, heq, hmid⟩
    cases a with
    | succ j =>
      exfalso
      rw [List.replicate_succ, List.cons_append, List.cons_append] at heq
      exact absurd (List.head_eq_of_cons_eq heq) (by decide)
    | zero =>
      simp only [List.replicate_zero, List.nil_append] at heq
      rcases hmid with rfl | ⟨pl, k, pr, rfl⟩
      · exfalso
        simp only [List.nil_append] at heq
        cases c with
        | zero => exact absurd heq (List.cons_ne_nil _ _)
        | succ c' =>
          rw [List.replicate_succ] at heq
          exact absurd (List.head_eq_of_cons_eq heq) (by decide)
      · cases pl with
        | true =>
          exfalso
          exact absurd (List.head_eq_of_cons_eq heq) (by decide)
        | false =>
          simp only [Bool.false_eq_true, if_false, List.nil_append] at heq
          cases k with
          | zero =>
            exfalso
            simp only [List.replicate_zero, List.nil_append] at heq
            cases pr with
            | true =>
              simp only [if_true, List.singleton_append, List.cons_append] at heq
              exact absurd (List.head_eq_of_cons_eq heq) (by decide)
            | false =>
              simp only [Bool.false_eq_true, if_false, List.nil_append] at heq
              cases c with
              | zero => exact absurd heq (List.cons_ne_nil _ _)
              | succ c' =>
                rw [List.replicate_succ] at heq
                exact absurd (List.head_eq_of_cons_eq heq) (by decide)
          | succ j =>
            rw [List.replicate_succ] at heq
            refine ⟨j, pr, c, ?_⟩
            have := List.tail_eq_of_cons_eq heq
            rw [this]; simp
  · rintro ⟨k, pr, c, heq⟩
    refine ⟨0, NLabel.full :: (List.replicate k NLabel.full ++
      (if pr then [NLabel.part] else [])), c, ?_, ?_⟩
    · rw [heq]; simp
    · exact Or.inr ⟨false, k + 1, pr, by rw [List.replicate_succ]; simp⟩

theorem matchesPattern_cons_part (t : List NLabel) :
    matchesPattern (NLabel.part :: t) ↔ tailOk t := by
  constructor
  · rintro ⟨a, m, c, heq, hmid⟩
    cases a with
    | succ j =>
      exfalso
      rw [List.replicate_succ, List.cons_append, List.cons_append] at heq
      exact absurd (List.head_eq_of_cons_eq heq) (by decide)
    | zero =>
      simp only [List.replicate_zero, List.nil_append] at heq
      rcases hmid with rfl | ⟨pl, k, pr, rfl⟩
      · exfalso
        simp only [List.nil_append] at heq
        cases c with
        | zero => exact absurd heq (List.cons_ne_nil _ _)
        | succ c' =>
          rw [List.replicate_succ] at heq
          exact absurd (List.head_eq_of_cons_eq heq) (by decide)
      · cases pl with
        | true =>
          refine ⟨k, pr, c, ?_⟩
          have := List.tail_eq_of_cons_eq heq
          rw [this]; simp
        | false =>
          simp only [Bool.false_eq_true, if_false, List.nil_append] at heq
          cases k with
          | zero =>
            simp only [List.replicate_zero, List.nil_append] at heq
            cases pr with
            | true =>
              simp only [if_true, List.singleton_append] at heq
              exact tailOk_of_allEmpty t
                (allEmpty_of_replicate c t (List.tail_eq_of_cons_eq heq))
            | false =>
              exfalso
              simp only [Bool.false_eq_true, if_false, List.nil_append] at heq
              cases c with
              | zero => exact absurd heq (List.cons_ne_nil _ _)
              | succ c' =>
                rw [List.replicate_succ] at heq
                exact absurd (List.head_eq_of_cons_eq heq) (by decide)
          | succ j =>
            exfalso
            rw [List.replicate_succ] at heq
            exact absurd (List.head_eq_of_cons_eq heq) (by decide)
  · rintro ⟨k, pr, c, heq⟩
    refine ⟨0, NLabel.part :: (List.replicate k NLabel.full ++
      (if pr then [NLabel.part] else [])), c, ?_, ?_⟩
    · rw [heq]; simp
    · exact Or.inr ⟨true, k, pr, by simp⟩

end PQ

namespace PQ

/-- Language of each reachable state of the `TemplateQ3` scan: with the
run finished only empties may remain; with a run started the rest is
`full* partial? empty*`; from the start state the whole pattern. -/
theorem scanGo_states : ∀ t : List NLabel,
    (templateQ3ScanGo true true t = true ↔ allEmpty t) ∧
    (templateQ3ScanGo true false t = true ↔ tailOk t) ∧
    (templateQ3ScanGo false false t = true ↔ matchesPattern t) := by
  intro t
  induction t with
  | nil =>
    refine ⟨?_, ?_, ?_⟩
    · exact ⟨fun _ z hz => absurd hz (List.not_mem_nil z), fun _ => rfl⟩
    · exact ⟨fun _ => ⟨0, false, 0, rfl⟩, fun _ => rfl⟩
    · exact ⟨fun _ => ⟨0, [], 0, rfl, Or.inl rfl⟩, fun _ => rfl⟩
  | cons x s ih =>
    obtain ⟨ih1, ih2, ih3⟩ := ih
    cases x with
    | empty =>
      refine ⟨?_, ?_, ?_⟩
      · show templateQ3ScanGo true true s = true ↔ _
        rw [ih1]
        constructor
        · intro h z hz
          rcases List.mem_cons.1 hz with h0 | h0
          · exact h0
          · exact h z h0
        · intro h z hz; exact h z (List.mem_cons_of_mem _ hz)
      · show templateQ3ScanGo true true s = true ↔ _
        rw [ih1, tailOk_cons_empty]
      · show templateQ3ScanGo false false s = true ↔ _
        rw [ih3, matchesPattern_cons_empty]
    | full =>
      refine ⟨?_, ?_, ?_⟩
      · constructor
        · intro h; exact Bool.noConfusion h
        · intro h
          exact absurd (h NLabel.full (List.mem_cons_self _ _)) (by decide)
      · show templateQ3ScanGo true false s = true ↔ _
        rw [ih2, tailOk_cons_full]
      · show templateQ3ScanGo true false s = true ↔ _
        rw [ih2, matchesPattern_cons_full]
    | part =>
      refine ⟨?_, ?_, ?_⟩
      · constructor
        · intro h; exact Bool.noConfusion h
        · intro h
          exact absurd (h NLabel.part (List.mem_cons_self _ _)) (by decide)
      · show templateQ3ScanGo true true s = true ↔ _
        rw [ih1, tailOk_cons_part]
      · show templateQ3ScanGo true false s = true ↔ _
        rw [ih2, matchesPattern_cons_part]

/-- The `TemplateQ3` linear scan accepts exactly the lists matching
`empty* (partial? full* partial?) empty*`. -/
theorem scan_iff_matches (L : List NLabel) :
    templateQ3Scan L = true ↔ matchesPattern L :=
  (scanGo_states L).2.2

end PQ

namespace PQ

/-- C8: for every Q-node child-label list read in sibling order, the
counting predicate `ConsecutiveFullPartialChildren` returns true exactly
when the labels match the pattern `empty* (partial? full* partial?)
empty*`, and it agrees with the linear consecutivity scan of
`TemplateQ3` on every list. -/
theorem cfpc_equiv_scan (L : List NLabel) :
    (consecutiveFullPartialChildren L = true ↔ matchesPattern L) ∧
    consecutiveFullPartialChildren L = templateQ3Scan L := by
  refine ⟨cfpc_iff_matches L, ?_⟩
  have h1 := cfpc_iff_matches L
  have h2 := scan_iff_matches L
  cases hc : consecutiveFullPartialChildren L <;>
    cases hs : templateQ3Scan L <;> simp_all

end PQ

namespace PQ

/-- C4: on a tree that is not poisoned, reducing by a set of fewer than
two elements returns true, appends the set to the reductions log, and
leaves every other component of the state unchanged; in particular the
frontier and the printed form are unchanged. -/
theorem reduce_small_noop (fuel : Nat) (S : List Int) (st : St)
    (hS : S.length < 2) (hI : st.invalid_ = false) :
    ∃ st', Reduce fuel S st = .ok (true, st') ∧
      st'.core = st.core ∧ st'.invalid_ = st.invalid_ ∧
      GetReductions st' = GetReductions st ++ [S] ∧
      Frontier fuel st' = Frontier fuel st ∧
      PrintT fuel st' = PrintT fuel st := by
  refine ⟨{ st with reductions_ := st.reductions_ ++ [S] }, ?_, rfl, rfl, rfl, rfl, rfl⟩
  rw [Reduce, if_pos hS]

/-- Witness for C4 at fuel 20, S = [5], the fresh tree over {1, 2}. -/
theorem reduce_small_noop_witness :
    ([(5 : Int)].length < 2) ∧ (pqtreeNew [1, 2]).invalid_ = false ∧
    (∃ st', Reduce 20 [(5 : Int)] (pqtreeNew [1, 2]) = .ok (true, st') ∧
      st'.core = (pqtreeNew [1, 2]).core ∧
      st'.invalid_ = (pqtreeNew [1, 2]).invalid_ ∧
      GetReductions st' = GetReductions (pqtreeNew [1, 2]) ++ [[(5 : Int)]] ∧
      Frontier 20 st' = Frontier 20 (pqtreeNew [1, 2]) ∧
      PrintT 20 st' = PrintT 20 (pqtreeNew [1, 2])) :=
  ⟨by decide, rfl, reduce_small_noop 20 [(5 : Int)] (pqtreeNew [1, 2]) (by decide) rfl⟩

end PQ

namespace PQ

/-- Reduction of an `Except` bind on a success value. -/
theorem ebind_ok {ε α β : Type} (a : α) (f : α → Except ε β) :
    ((Except.ok a : Except ε α) >>= f) = f a := rfl

/-- Reduction of an `Except` bind on an error value. -/
theorem ebind_error {ε α β : Type} (e : ε) (f : α → Except ε β) :
    ((Except.error e : Except ε α) >>= f) = Except.error e := rfl

/-- C3 (amended): a failed non-safe `Reduce` leaves the tree poisoned:
every later `Reduce` by a set of at least two elements returns false
immediately and leaves the state unchanged.  A later `Reduce` by a set
of fewer than two elements still returns true, because the size check
precedes the poison check. -/
theorem reduce_false_sticky (fuel fuel' : Nat) (S0 S : List Int) (st st' : St)
    (h : Reduce fuel S0 st = .ok (false, st')) :
    st'.invalid_ = true ∧
    (2 ≤ S.length → Reduce fuel' S st' = .ok (false, st')) ∧
    (S.length < 2 → Reduce fuel' S st' =
      .ok (true, { st' with reductions_ := st'.reductions_ ++ [S] })) := by
  have hinv : st'.invalid_ = true := by
    rw [Reduce] at h
    split at h
    · simp at h
    · split at h
      next hi =>
        simp at h
        rw [← h]; exact hi
      next hi =>
        cases hb : bubble fuel S0 st.core with
        | error e => rw [hb] at h; simp at h
        | ok p =>
          rw [hb] at h
          obtain ⟨b, ct⟩ := p
          cases b with
          | false => simp at h; rw [← h]
          | true =>
            simp only [] at h
            cases hr : reduceStep fuel S0 ct with
            | error e => rw [hr] at h; simp at h
            | ok q =>
              rw [hr] at h
              obtain ⟨b2, ct2⟩ := q
              cases b2 with
              | false => simp at h; rw [← h]
              | true =>
                exfalso
                simp only [] at h
                rcases hp2 : ct2.pseudonode_ with _ | p
                · rw [hp2] at h
                  simp only [] at h
                  cases hres : resetN fuel ct2.hp ct2.root_ with
                  | error e => rw [hres] at h; simp at h
                  | ok hpr => rw [hres] at h; simp at h
                · rw [hp2] at h
                  simp only [] at h
                  cases hf : forgetChildren ct2.hp p with
                  | error e => rw [hf] at h; simp [ebind_error] at h
                  | ok hpx =>
                    rw [hf] at h
                    simp only [ebind_ok] at h
                    cases hres : resetN fuel (hpx.del p) ct2.root_ with
                    | error e => rw [hres] at h; simp at h
                    | ok hpr => rw [hres] at h; simp at h
  refine ⟨hinv, ?_, ?_⟩
  · intro hS
    rw [Reduce, if_neg (by omega : ¬ S.length < 2), if_pos hinv]
  · intro hS
    rw [Reduce, if_pos hS]

end PQ

namespace PQ

/-- Decidable equality of `Except` results, for evaluating concrete
runs. -/
instance {ε α : Type} [DecidableEq ε] [DecidableEq α] : DecidableEq (Except ε α) :=
  fun x y =>
    match x, y with
    | .error a, .error b =>
      if h : a = b then isTrue (by rw [h]) else
        isFalse (fun he => h (Except.error.inj he))
    | .ok a, .ok b =>
      if h : a = b then isTrue (by rw [h]) else
        isFalse (fun he => h (Except.ok.inj he))
    | .error _, .ok _ => isFalse (fun he => Except.noConfusion he)
    | .ok _, .error _ => isFalse (fun he => Except.noConfusion he)

/-- A poisoned tree over `{1, 2}`: the `invalid_` flag is set, as after
any failed non-safe reduction. -/
def c3_bad : St := { pqtreeNew [1, 2] with invalid_ := true }

/-- Counterexample to C3 as stated: `c3_bad` is a tree on which a
non-safe `Reduce` call returns false (first conjunct), yet a subsequent
`Reduce` by the empty set or by a singleton returns true, because the
size check precedes the poison check. -/
theorem reduce_sticky_cex :
    Reduce 100 [(1 : Int), 2] c3_bad = .ok (false, c3_bad) ∧
    Reduce 100 ([] : List Int) c3_bad =
      .ok (true, { c3_bad with reductions_ := c3_bad.reductions_ ++ [([] : List Int)] }) ∧
    Reduce 100 [(2 : Int)] c3_bad =
      .ok (true, { c3_bad with reductions_ := c3_bad.reductions_ ++ [[(2 : Int)]] }) :=
  ⟨rfl, rfl, rfl⟩

/-- Witness for C3 (amended): the failing reduction by `{1, 2}` on
`c3_bad` poisons (keeps poisoned) the tree, a later reduction by the
two-element set `{2, 3}` fails and a later reduction by a singleton
succeeds. -/
theorem reduce_false_sticky_witness :
    c3_bad.invalid_ = true ∧
    (2 ≤ [(2 : Int), 3].length →
      Reduce 50 [(2 : Int), 3] c3_bad = .ok (false, c3_bad)) ∧
    ([(2 : Int), 3].length < 2 →
      Reduce 50 [(2 : Int), 3] c3_bad =
        .ok (true, { c3_bad with
                     reductions_ := c3_bad.reductions_ ++ [[(2 : Int), 3]] })) :=
  reduce_false_sticky 100 50 [(1 : Int), 2] [(2 : Int), 3] c3_bad c3_bad rfl

end PQ

namespace PQ

/-- C5: on a reduction set of size at least two containing a value that
is not a leaf of the tree, `Reduce` does not return false: `Bubble`
hits `assert(temp)` on the failed `leaf_address_` lookup (the embedded
`Err.assertFail`), even though `ReduceStep`'s own guard for the same
situation returns false gracefully. -/
theorem reduce_unknown_element_asserts :
    Reduce 100 [(0 : Int), 5] (pqtreeNew [0, 1]) = .error .assertFail := rfl

end PQ

namespace PQ

/-- Try templates in order, stopping at the first that matches; no match
leaves the state unchanged and reports failure. -/
def firstMatch (ts : List (Nat → Nat → Ct → Except Err (Bool × Ct)))
    (fuel x : Nat) (ct : Ct) : Except Err (Bool × Ct) :=
  match ts with
  | [] => .ok (false, ct)
  | t :: rest => do
      let (m, ct) ← t fuel x ct
      if m then .ok (true, ct) else firstMatch rest fuel x ct

/-- The template order for a pertinent node that is not the pertinent
root. -/
def nonRootTemplateChain : List (Nat → Nat → Ct → Except Err (Bool × Ct)) :=
  [templateL1, templateP1 false, templateP3, templateP5, templateQ1, templateQ2]

/-- The template order for the pertinent root. -/
def rootTemplateChain : List (Nat → Nat → Ct → Except Err (Bool × Ct)) :=
  [templateL1, templateP1 true, templateP2, templateP4, templateP6,
   templateQ1, templateQ2, templateQ3]

/-- C7: `ReduceStep` tries the templates on a non-root pertinent node in
exactly the order L1, P1(non-root), P3, P5, Q1, Q2 and on the pertinent
root in exactly the order L1, P1(root), P2, P4, P6, Q1, Q2, Q3, stopping
at the first match; and when no template of the applicable list matches,
the loop returns false (after `CleanPseudo`). -/
theorem template_dispatch_order :
    (∀ fuel x ct, dispatchNonRoot fuel x ct = firstMatch nonRootTemplateChain fuel x ct) ∧
    (∀ fuel x ct, dispatchRoot fuel x ct = firstMatch rootTemplateChain fuel x ct) ∧
    (∀ (fuel ssize x : Nat) (q : List Nat) (ct : Ct) (nd : Node) (q1 : List Nat)
      (ct1 ct2 : Ct),
      getE ct.hp x = .ok nd →
      nd.pertinent_leaf_count < (ssize : Int) →
      nonRootBookkeep x q ct = .ok (q1, ct1) →
      dispatchNonRoot fuel x ct1 = .ok (false, ct2) →
      reduceStepLoop (fuel + 1) ssize (x :: q) ct =
        (do let c ← cleanPseudo ct2; .ok (false, c))) ∧
    (∀ (fuel ssize x : Nat) (q : List Nat) (ct : Ct) (nd : Node) (ct2 : Ct),
      getE ct.hp x = .ok nd →
      ¬ nd.pertinent_leaf_count < (ssize : Int) →
      dispatchRoot fuel x ct = .ok (false, ct2) →
      reduceStepLoop (fuel + 1) ssize (x :: q) ct =
        (do let c ← cleanPseudo ct2; .ok (false, c))) := by
  refine ⟨fun _ _ _ => rfl, fun _ _ _ => rfl, ?_, ?_⟩
  · intro fuel ssize x q ct nd q1 ct1 ct2 hget hlt hbook hdisp
    rw [reduceStepLoop, hget, ebind_ok]
    simp only []
    rw [if_pos hlt, hbook, ebind_ok]
    simp only []
    rw [hdisp, ebind_ok]
    simp
  · intro fuel ssize x q ct nd ct2 hget hlt hdisp
    rw [reduceStepLoop, hget, ebind_ok]
    simp only []
    rw [if_neg hlt, hdisp, ebind_ok]
    simp

end PQ

namespace PQ

/-- A P-node with three partial children: no template matches it. -/
def c7_node : Node :=
  { newPQNode with type_ := .pnode,
                   circular_link_ := [1, 2, 3],
                   partial_children_ := [1, 2, 3],
                   pertinent_leaf_count := 1,
                   parent_ := some 9 }

/-- A two-node state holding `c7_node` (id 0) and its parent (id 9). -/
def c7_ct : Ct :=
  { hp := { nodes := [(0, c7_node), (9, newPQNode)], next := 10 },
    root_ := 9, leaf_address_ := [] }

/-- The parent node of `c7_node` after `nonRootBookkeep`. -/
def c7_parent_after : Node :=
  { newPQNode with pertinent_leaf_count := 1, pertinent_child_count := -1 }

/-- The state after `nonRootBookkeep` on node 0 of `c7_ct`. -/
def c7_ct1 : Ct := { c7_ct with hp := c7_ct.hp.set 9 c7_parent_after }

/-- Witness for C7: on the concrete no-template-matches node, both
dispatch chains reject and `reduceStepLoop` returns false, via the
claim's theorem applied at node 0 of `c7_ct`. -/
theorem template_dispatch_order_witness :
    (getE c7_ct.hp 0 = .ok c7_node ∧
      c7_node.pertinent_leaf_count < ((2 : Nat) : Int) ∧
      nonRootBookkeep 0 [] c7_ct = .ok ([], c7_ct1) ∧
      dispatchNonRoot 50 0 c7_ct1 = .ok (false, c7_ct1) ∧
      reduceStepLoop (50 + 1) 2 [0] c7_ct =
        (do let c ← cleanPseudo c7_ct1; .ok (false, c))) ∧
    (¬ c7_node.pertinent_leaf_count < ((1 : Nat) : Int) ∧
      dispatchRoot 50 0 c7_ct = .ok (false, c7_ct) ∧
      reduceStepLoop (50 + 1) 1 [0] c7_ct =
        (do let c ← cleanPseudo c7_ct; .ok (false, c))) :=
  ⟨⟨rfl, by decide, rfl, rfl,
    template_dispatch_order.2.2.1 50 2 0 [] c7_ct c7_node [] c7_ct1 c7_ct1
      rfl (by decide) rfl rfl⟩,
   ⟨by decide, rfl,
    template_dispatch_order.2.2.2 50 1 0 [] c7_ct c7_node c7_ct
      rfl (by decide) rfl⟩⟩

end PQ

namespace PQ

/-! ## Heap lemmas for the `SafeReduce` snapshot proof (claim C6) -/

/-- Inversion of a successful `Except` bind. -/
theorem bind_ok_inv {ε α β : Type} {m : Except ε α} {f : α → Except ε β} {b : β}
    (h : (m >>= f) = .ok b) : ∃ a, m = .ok a ∧ f a = .ok b := by
  cases m with
  | error e => rw [ebind_error] at h; exact absurd h (by simp)
  | ok a => rw [ebind_ok] at h; exact ⟨a, rfl, h⟩

/-- The allocator invariant: every bound id is below the bump pointer. -/
def WFp (hp : Hp) : Prop := ∀ p ∈ hp.nodes, p.1 < hp.next

theorem wf_set (hp : Hp) (i : Nat) (nd : Node) (h : WFp hp) : WFp (hp.set i nd) := by
  intro p hp'
  have : ∀ l, (∀ q ∈ l, q.1 < hp.next) → p ∈ Hp.set.go i nd l → p.1 < hp.next := by
    intro l
    induction l with
    | nil => intro _ hm; simp [Hp.set.go] at hm
    | cons q rest ih =>
      intro hl hm
      rw [Hp.set.go] at hm
      by_cases hk : q.1 = i
      · rw [if_pos hk] at hm
        rcases List.mem_cons.1 hm with h0 | h0
        · rw [h0]; exact hl q (List.mem_cons_self _ _)
        · exact hl p (List.mem_cons_of_mem _ h0)
      · rw [if_neg hk] at hm
        rcases List.mem_cons.1 hm with h0 | h0
        · rw [h0]; exact hl q (List.mem_cons_self _ _)
        · exact ih (fun r hr => hl r (List.mem_cons_of_mem _ hr)) h0
  exact this hp.nodes h hp'

theorem wf_alloc (hp : Hp) (nd : Node) (h : WFp hp) : WFp (hp.alloc nd).2 := by
  intro p hp'
  rw [Hp.alloc] at hp'
  simp only [List.mem_append, List.mem_singleton] at hp'
  rcases hp' with h0 | h0
  · exact Nat.lt_succ_of_lt (h p h0)
  · rw [h0]; exact Nat.lt_succ_self _

theorem wf_del (hp : Hp) (i : Nat) (h : WFp hp) : WFp (hp.del i) := by
  intro p hp'
  have : ∀ l, (∀ q ∈ l, q.1 < hp.next) → p ∈ Hp.del.go i l → p.1 < hp.next := by
    intro l
    induction l with
    | nil => intro _ hm; simp [Hp.del.go] at hm
    | cons q rest ih =>
      intro hl hm
      rw [Hp.del.go] at hm
      by_cases hk : q.1 = i
      · rw [if_pos hk] at hm
        exact hl p (List.mem_cons_of_mem _ hm)
      · rw [if_neg hk] at hm
        rcases List.mem_cons.1 hm with h0 | h0
        · rw [h0]; exact hl q (List.mem_cons_self _ _)
        · exact ih (fun r hr => hl r (List.mem_cons_of_mem _ hr)) h0
  exact this hp.nodes h hp'

end PQ

namespace PQ

theorem next_set (hp : Hp) (i : Nat) (nd : Node) : (hp.set i nd).next = hp.next := rfl

theorem next_alloc (hp : Hp) (nd : Node) : (hp.alloc nd).2.next = hp.next + 1 := rfl

theorem alloc_fst (hp : Hp) (nd : Node) : (hp.alloc nd).1 = hp.next := rfl

theorem get_go_eq (i : Nat) (nd : Node) : ∀ l : List (Nat × Node),
    Hp.get.go i (Hp.set.go i nd l) =
      match Hp.get.go i l with
      | some _ => some nd
      | none => none := by
  intro l
  induction l with
  | nil => rfl
  | cons q rest ih =>
    rw [Hp.set.go]
    by_cases hk : q.1 = i
    · rw [if_pos hk, Hp.get.go, if_pos hk, Hp.get.go, if_pos hk]
    · rw [if_neg hk, Hp.get.go, if_neg hk, Hp.get.go, if_neg hk, ih]

theorem get_set_self (hp : Hp) (i : Nat) (nd : Node) :
    (hp.set i nd).get i =
      match hp.get i with
      | some _ => some nd
      | none => none := by
  rw [Hp.get, Hp.set]
  exact get_go_eq i nd hp.nodes

theorem get_go_ne (i j : Nat) (nd : Node) (hne : j ≠ i) : ∀ l : List (Nat × Node),
    Hp.get.go j (Hp.set.go i nd l) = Hp.get.go j l := by
  intro l
  induction l with
  | nil => rfl
  | cons q rest ih =>
    rw [Hp.set.go]
    by_cases hk : q.1 = i
    · rw [if_pos hk, Hp.get.go, Hp.get.go]
      have : ¬ q.1 = j := by rw [hk]; exact fun he => hne he.symm
      rw [if_neg this, if_neg this]
    · rw [if_neg hk, Hp.get.go, Hp.get.go, ih]

theorem get_set_ne (hp : Hp) (i j : Nat) (nd : Node) (hne : j ≠ i) :
    (hp.set i nd).get j = hp.get j :=
  get_go_ne i j nd hne hp.nodes

theorem get_go_append (j : Nat) : ∀ l1 l2 : List (Nat × Node),
    Hp.get.go j (l1 ++ l2) =
      match Hp.get.go j l1 with
      | some nd => some nd
      | none => Hp.get.go j l2 := by
  intro l1 l2
  induction l1 with
  | nil => rfl
  | cons q rest ih =>
    rw [List.cons_append, Hp.get.go, Hp.get.go]
    by_cases hk : q.1 = j
    · rw [if_pos hk, if_pos hk]
    · rw [if_neg hk, if_neg hk, ih]

theorem get_go_none_of_wf (n j : Nat) (hj : n ≤ j) : ∀ l : List (Nat × Node),
    (∀ p ∈ l, p.1 < n) → Hp.get.go j l = none := by
  intro l
  induction l with
  | nil => intro _; rfl
  | cons q rest ih =>
    intro hl
    rw [Hp.get.go]
    have : ¬ q.1 = j := by
      intro he
      have := hl q (List.mem_cons_self _ _)
      omega
    rw [if_neg this]
    exact ih (fun r hr => hl r (List.mem_cons_of_mem _ hr))

theorem get_alloc_self (hp : Hp) (nd : Node) (h : WFp hp) :
    (hp.alloc nd).2.get hp.next = some nd := by
  rw [Hp.get, Hp.alloc]
  rw [get_go_append]
  rw [get_go_none_of_wf hp.next hp.next (Nat.le_refl _) hp.nodes h]
  rw [Hp.get.go, if_pos rfl]

theorem get_alloc_ne (hp : Hp) (nd : Node) (j : Nat) (hne : j ≠ hp.next) :
    (hp.alloc nd).2.get j = hp.get j := by
  rw [Hp.get, Hp.alloc, get_go_append, Hp.get]
  cases hg : Hp.get.go j hp.nodes with
  | some x => rfl
  | none =>
    rw [Hp.get.go]
    have : ¬ hp.next = j := fun he => hne he.symm
    rw [if_neg this, Hp.get.go]

theorem get_none_of_ge (hp : Hp) (j : Nat) (h : WFp hp) (hj : hp.next ≤ j) :
    hp.get j = none :=
  get_go_none_of_wf hp.next j hj hp.nodes h

end PQ

namespace PQ

/-- Walk-relevant fields of a node: everything `FindFrontier` reads on the
node itself.  The copy machinery later adjusts only `parent_` and
`immediate_siblings_` of a finished copy, which keeps its core. -/
def SameCore (a b : Node) : Prop :=
  a.type_ = b.type_ ∧ a.label_ = b.label_ ∧ a.leaf_value = b.leaf_value ∧
  a.circular_link_ = b.circular_link_ ∧
  a.endmost_children_0 = b.endmost_children_0

theorem sameCore_refl (a : Node) : SameCore a a := ⟨rfl, rfl, rfl, rfl, rfl⟩

theorem getE_some (hp : Hp) (i : Nat) (nd : Node) (h : hp.get i = some nd) :
    getE hp i = .ok nd := by rw [getE, h]

theorem qnc_single (hp : Hp) (c a : Nat) (nd : Node) (last : Option Nat)
    (hg : hp.get c = some nd) (hs : nd.immediate_siblings_ = [a]) :
    qNextChild hp c last = .ok (if some a = last then none else some a) := by
  rw [qNextChild, show (getE hp c) = .ok nd from getE_some hp c nd hg, ebind_ok]
  simp only [hs]
  split <;> rfl

theorem qnc_pair_prev (hp : Hp) (c a b p : Nat) (nd : Node)
    (hg : hp.get c = some nd) (hs : nd.immediate_siblings_ = [a, b])
    (hab : a ≠ b) (hp2 : p = a ∨ p = b) :
    qNextChild hp c (some p) = .ok (some (if p = a then b else a)) := by
  rw [qNextChild, show (getE hp c) = .ok nd from getE_some hp c nd hg, ebind_ok]
  simp only [hs]
  rcases hp2 with rfl | rfl
  · rw [if_pos rfl]
    simp
  · have hne : ¬ (some a = some p) := by
      intro he
      exact hab (Option.some.inj he)
    rw [if_neg hne]
    have hne2 : ¬ ((some p = (none : Option Nat)) ∧ True) := by
      intro he; exact Option.noConfusion he.1
    rw [if_neg hne2]
    have : ¬ p = a := fun he => hab he.symm
    rw [if_neg this]

theorem insSet_nil (x : Nat) : insSet x [] = [x] := rfl

theorem insSet_pair (x p : Nat) (hne : x ≠ p) :
    (insSet x [p] = [x, p] ∧ x < p) ∨ (insSet x [p] = [p, x] ∧ p < x) := by
  rw [insSet]
  by_cases hlt : x < p
  · left
    exact ⟨by rw [if_pos hlt], hlt⟩
  · right
    rw [if_neg hlt, if_neg hne]
    exact ⟨by rw [insSet], by omega⟩

/-- Stepping past `c` whose final siblings are `insSet n [p]` lands on `n`. -/
theorem qnc_step (hp : Hp) (c n p : Nat) (nd : Node)
    (hg : hp.get c = some nd) (hs : nd.immediate_siblings_ = insSet n [p])
    (hne : n ≠ p) :
    qNextChild hp c (some p) = .ok (some n) := by
  rcases insSet_pair n p hne with ⟨he, hlt⟩ | ⟨he, hlt⟩
  · have := qnc_pair_prev hp c n p p nd hg (by rw [hs, he]) hne (Or.inr rfl)
    rw [this]
    have : ¬ p = n := fun h2 => hne h2.symm
    rw [if_neg this]
  · have := qnc_pair_prev hp c p n p nd hg (by rw [hs, he]) (fun h2 => hne h2.symm)
      (Or.inl rfl)
    rw [this, if_pos rfl]

/-- The first step from the chain head, whose only sibling is `n`. -/
theorem qnc_head (hp : Hp) (c n : Nat) (nd : Node)
    (hg : hp.get c = some nd) (hs : nd.immediate_siblings_ = [n]) :
    qNextChild hp c none = .ok (some n) := by
  rw [qnc_single hp c n nd none hg hs]
  simp

/-- The stop at the chain tail, whose only sibling is the predecessor. -/
theorem qnc_stop (hp : Hp) (c p : Nat) (nd : Node)
    (hg : hp.get c = some nd) (hs : nd.immediate_siblings_ = [p]) :
    qNextChild hp c (some p) = .ok none := by
  rw [qnc_single hp c p nd (some p) hg hs]
  simp

theorem ffn_leaf (g : Nat) (hp : Hp) (i : Nat) (nd : Node)
    (hg : hp.get i = some nd) (ht : nd.type_ = .leaf) :
    findFrontierN (g + 1) hp i = .ok [nd.leaf_value] := by
  rw [findFrontierN, show (getE hp i) = .ok nd from getE_some hp i nd hg, ebind_ok, ht]

theorem ffn_pnode (g : Nat) (hp : Hp) (i : Nat) (nd : Node)
    (hg : hp.get i = some nd) (ht : nd.type_ = .pnode) :
    findFrontierN (g + 1) hp i = findFrontierList g hp nd.circular_link_ := by
  rw [findFrontierN, show (getE hp i) = .ok nd from getE_some hp i nd hg, ebind_ok, ht]

theorem ffn_qnode (g : Nat) (hp : Hp) (i : Nat) (nd : Node)
    (hg : hp.get i = some nd) (ht : nd.type_ = .qnode) :
    findFrontierN (g + 1) hp i = findFrontierChain g hp nd.endmost_children_0 none := by
  rw [findFrontierN, show (getE hp i) = .ok nd from getE_some hp i nd hg, ebind_ok, ht]

end PQ

namespace PQ

theorem sameCore_trans {a b c : Node} (h1 : SameCore a b) (h2 : SameCore b c) :
    SameCore a c :=
  ⟨h1.1.trans h2.1, h1.2.1.trans h2.2.1, h1.2.2.1.trans h2.2.2.1,
   h1.2.2.2.1.trans h2.2.2.2.1, h1.2.2.2.2.trans h2.2.2.2.2⟩

theorem getE_ok_inv {hp : Hp} {i : Nat} {nd : Node} (h : getE hp i = .ok nd) :
    hp.get i = some nd := by
  rw [getE] at h
  cases hg : hp.get i with
  | some x => rw [hg] at h; exact congrArg some (Except.ok.inj h).symm ▸ rfl
  | none => rw [hg] at h; exact absurd h (by simp)

/-- With no predecessor, `QNextChild` never reports the end of the chain. -/
theorem qnc_none_not_none (hp : Hp) (c : Nat) (r : Option Nat)
    (h : qNextChild hp c none = .ok r) : r ≠ none := by
  rw [qNextChild] at h
  obtain ⟨nd, hnd, h⟩ := bind_ok_inv h
  cases hs : nd.immediate_siblings_ with
  | nil => rw [hs] at h; exact absurd h (by simp)
  | cons a tl =>
    cases tl with
    | nil =>
      rw [hs] at h
      simp only [] at h
      have h1 : ¬ (some a = (none : Option Nat)) := by simp
      rw [if_neg h1] at h
      intro hr; rw [hr] at h; simp at h
    | cons b rest =>
      rw [hs] at h
      simp only [] at h
      have h1 : ¬ (some a = (none : Option Nat)) := by simp
      rw [if_neg h1] at h
      intro hr
      rw [hr] at h
      split at h
      · obtain ⟨na, _, h⟩ := bind_ok_inv h
        split at h <;> simp at h
      · simp at h

/-- The induction statement for `copyNodeX`: the copy is allocated at the
bump pointer, touches nothing below it, and its frontier in any heap that
agrees with the result on the new range (the root's `parent_` and
`immediate_siblings_` may differ) equals the source frontier at every
fuel. -/
def NodeSim (f : Nat) : Prop :=
  ∀ (src : Hp) (i : Nat) (tgt : Hp) (nid : Nat) (tgt' : Hp),
    WFp tgt → copyNodeX f src i tgt = .ok (nid, tgt') →
    nid = tgt.next ∧ tgt.next < tgt'.next ∧ WFp tgt' ∧
    (∀ j, j < tgt.next → tgt'.get j = tgt.get j) ∧
    (∃ ndc, tgt'.get nid = some ndc ∧ ndc.immediate_siblings_ = []) ∧
    (∀ h : Hp,
      (∀ j, nid < j → j < tgt'.next → h.get j = tgt'.get j) →
      (∀ a b, h.get nid = some a → tgt'.get nid = some b → SameCore a b) →
      (∃ a, h.get nid = some a) →
      ∀ g, findFrontierN g h nid = findFrontierN g src i)

/-- The induction statement for `copyKidsX`. -/
def KidsSim (f : Nat) : Prop :=
  ∀ (src : Hp) (cs : List Nat) (tgt : Hp) (pid : Nat) (kids : List Nat) (tgt' : Hp),
    WFp tgt → copyKidsX f src cs tgt pid = .ok (kids, tgt') →
    tgt.next ≤ tgt'.next ∧ WFp tgt' ∧
    (∀ j, j < tgt.next → tgt'.get j = tgt.get j) ∧
    (∀ h : Hp,
      (∀ j, tgt.next ≤ j → j < tgt'.next → h.get j = tgt'.get j) →
      ∀ g, findFrontierList g h kids = findFrontierList g src cs)

/-- The induction statement for `copyChainX`: walking the rebuilt sibling
chain from the last finished copy visits the copies of exactly the nodes
the source walk visits. -/
def ChainSim (f : Nat) : Prop :=
  ∀ (src : Hp) (curCopy : Nat) (lastCopy : Option Nat) (tgt : Hp)
    (parentNew lastNew : Nat) (currentNew : Option Nat) (res : Option Nat) (tgt' : Hp),
    WFp tgt → lastNew < tgt.next →
    copyChainX f src curCopy lastCopy tgt parentNew lastNew currentNew = .ok (res, tgt') →
    tgt.next ≤ tgt'.next ∧ WFp tgt' ∧
    (∀ j, j < tgt.next → j ≠ lastNew → tgt'.get j = tgt.get j) ∧
    (∀ nd0, tgt.get lastNew = some nd0 →
      (∃ nd1, tgt'.get lastNew = some nd1 ∧ SameCore nd1 nd0) ∧
      (∀ prevOpt : Option Nat,
        ((nd0.immediate_siblings_ = [] ∧ prevOpt = none ∧ lastCopy = none) ∨
         (∃ p, nd0.immediate_siblings_ = [p] ∧ prevOpt = some p ∧
           p ≠ lastNew ∧ p < tgt.next)) →
        ∀ h : Hp,
          (∀ j, tgt.next ≤ j → j < tgt'.next → h.get j = tgt'.get j) →
          h.get lastNew = tgt'.get lastNew →
          (∀ g, findFrontierN g h lastNew = findFrontierN g src curCopy) →
          ∀ g, findFrontierChain g h (some lastNew) prevOpt =
               findFrontierChain g src (some curCopy) lastCopy))

end PQ

namespace PQ

theorem kidsSim_succ (f : Nat) (hN : NodeSim f) (hK : KidsSim f) : KidsSim (f + 1) := by
  intro src cs tgt pid kids tgt' hwf h
  rw [copyKidsX.eq_def] at h
  cases cs with
  | nil =>
    try simp only [] at h
    have h1 : ([] : List Nat) = kids ∧ tgt = tgt' := by
      have h2 := Except.ok.inj h
      exact ⟨congrArg Prod.fst h2, congrArg Prod.snd h2⟩
    obtain rfl := h1.1
    obtain rfl := h1.2
    refine ⟨Nat.le_refl _, hwf, fun j _ => rfl, ?_⟩
    intro h' _ g
    cases g with
    | zero => rfl
    | succ g => rfl
  | cons c cs' =>
    obtain ⟨p1, hcopy, h⟩ := bind_ok_inv h
    obtain ⟨cid, tgt1⟩ := p1
    try simp only [] at h
    obtain ⟨cn, hcn, h⟩ := bind_ok_inv h
    try simp only [] at h
    obtain ⟨p3, hrest, h⟩ := bind_ok_inv h
    obtain ⟨rest, tgt3⟩ := p3
    try simp only [] at h
    have hinj := Except.ok.inj h
    have hkids : kids = cid :: rest := (congrArg Prod.fst hinj).symm
    have htgt' : tgt' = tgt3 := (congrArg Prod.snd hinj).symm
    subst hkids
    subst htgt'
    obtain ⟨hcid, hlt1, hwf1, hfr1, ⟨ndc, hndc, hndcs⟩, hwalk1⟩ :=
      hN src c tgt cid tgt1 hwf hcopy
    have hgcn : tgt1.get cid = some cn := getE_ok_inv hcn
    have hwf2 : WFp (tgt1.set cid { cn with parent_ := some pid }) :=
      wf_set _ _ _ hwf1
    obtain ⟨hle3, hwf3, hfr3, hwalk3⟩ := hK src cs' _ pid rest _ hwf2 hrest
    have hn2 : (tgt1.set cid { cn with parent_ := some pid }).next = tgt1.next :=
      next_set _ _ _
    rw [hn2] at hle3 hfr3
    refine ⟨by omega, hwf3, ?_, ?_⟩
    · intro j hj
      rw [hfr3 j (by omega), get_set_ne _ _ _ _ (by omega), hfr1 j hj]
    · intro h' hag g
      have hg2 : tgt1.get cid =
          some cn := hgcn
      have hset : (tgt1.set cid { cn with parent_ := some pid }).get cid =
          some { cn with parent_ := some pid } := by
        rw [get_set_self, hgcn]
      have hsub : ∀ g', findFrontierN g' h' cid = findFrontierN g' src c := by
        apply hwalk1 h'
        · intro j hj1 hj2
          rw [hag j (by omega) (by omega), hfr3 j (by omega),
              get_set_ne _ _ _ _ (by omega)]
        · intro a b ha hb
          rw [hag cid (by omega) (by omega), hfr3 cid (by omega), hset] at ha
          rw [hb] at hgcn
          obtain rfl := Option.some.inj ha
          obtain rfl := Option.some.inj hgcn
          exact ⟨rfl, rfl, rfl, rfl, rfl⟩
        · refine ⟨{ cn with parent_ := some pid }, ?_⟩
          rw [hag cid (by omega) (by omega), hfr3 cid (by omega), hset]
      have hrest' : ∀ g', findFrontierList g' h' rest = findFrontierList g' src cs' := by
        apply hwalk3 h'
        intro j hj1 hj2
        exact hag j (by omega) (by omega)
      cases g with
      | zero => rfl
      | succ g =>
        rw [findFrontierList, findFrontierList, hsub g, hrest' g]

end PQ


namespace PQ

theorem ebind_congr {ε α β : Type} (m : Except ε α) (f g : α → Except ε β)
    (h : ∀ a, f a = g a) : (m >>= f) = (m >>= g) := by
  cases m with
  | error e => rw [ebind_error, ebind_error]
  | ok a => rw [ebind_ok, ebind_ok, h a]

theorem chainSim_succ (f : Nat) (hN : NodeSim f) (hC : ChainSim f) : ChainSim (f + 1) := by
  intro src curCopy lastCopy tgt parentNew lastNew currentNew res tgt' hwf hlnlt h
  rw [copyChainX.eq_def] at h
  try simp only [] at h
  obtain ⟨nextCopy, hnext, h⟩ := bind_ok_inv h
  cases nextCopy with
  | none =>
    try simp only [] at h
    have hinj := Except.ok.inj h
    have htgt : tgt' = tgt := (congrArg Prod.snd hinj).symm
    subst htgt
    refine ⟨Nat.le_refl _, hwf, fun j _ _ => rfl, ?_⟩
    intro nd0 hnd0
    refine ⟨⟨nd0, hnd0, sameCore_refl nd0⟩, ?_⟩
    rintro prevOpt (⟨hsibs, rfl, rfl⟩ | ⟨p, hsibs, rfl, hpne, hplt⟩) h' hag hlneq hsub g
    · exact absurd rfl (qnc_none_not_none src curCopy none hnext)
    · cases g with
      | zero => rfl
      | succ g =>
        have hh' : h'.get lastNew = some nd0 := by rw [hlneq]; exact hnd0
        rw [findFrontierChain, findFrontierChain, hsub g, hnext,
            qnc_stop h' lastNew p nd0 hh' hsibs]
        apply ebind_congr
        intro xs
        simp only [ebind_ok]
        have hys : findFrontierChain g h' (none : Option Nat) (some lastNew) =
            findFrontierChain g src none (some curCopy) := by
          cases g <;> rfl
        rw [hys]
  | some nxt =>
    try simp only [] at h
    obtain ⟨p1, hcopy, h⟩ := bind_ok_inv h
    obtain ⟨cNew, tgt1⟩ := p1
    try simp only [] at h
    obtain ⟨cn, hcn, h⟩ := bind_ok_inv h
    try simp only [] at h
    obtain ⟨cn2, hcn2, h⟩ := bind_ok_inv h
    try simp only [] at h
    obtain ⟨ln, hlng, h⟩ := bind_ok_inv h
    try simp only [] at h
    obtain ⟨hcNeweq, hlt1, hwf1, hfr1, ⟨ndc0, hndc0, hndc0s⟩, hwalk1⟩ :=
      hN src nxt tgt cNew tgt1 hwf hcopy
    have hg1 : tgt1.get cNew = some cn := getE_ok_inv hcn
    have hcnsibs : cn.immediate_siblings_ = [] := by
      rw [hndc0] at hg1
      obtain rfl := Option.some.inj hg1
      exact hndc0s
    have hg1' : tgt1.get cNew = some cn := getE_ok_inv hcn
    have hg2 : (tgt1.set cNew { cn with parent_ := some parentNew }).get cNew =
        some { cn with parent_ := some parentNew } := by
      rw [get_set_self, hg1']
    have hcn2v : cn2 = { cn with parent_ := some parentNew } := by
      have h2 := getE_ok_inv hcn2
      rw [hg2] at h2
      exact Option.some.inj h2.symm
    have hlnne : lastNew ≠ cNew := by omega
    have hcne : cNew ≠ lastNew := by omega
    have hg3ln : (Hp.set (Hp.set tgt1 cNew { cn with parent_ := some parentNew }) cNew
        { cn2 with immediate_siblings_ := insSet lastNew cn2.immediate_siblings_ }).get
          lastNew = tgt.get lastNew := by
      rw [get_set_ne _ _ _ _ hlnne, get_set_ne _ _ _ _ hlnne, hfr1 lastNew hlnlt]
    have hlnv : tgt.get lastNew = some ln := by
      have h2 := getE_ok_inv hlng
      rw [hg3ln] at h2
      exact h2
    have hwf2 : WFp (tgt1.set cNew { cn with parent_ := some parentNew }) :=
      wf_set _ _ _ hwf1
    have hwf3 : WFp (Hp.set (Hp.set tgt1 cNew { cn with parent_ := some parentNew })
        cNew { cn2 with immediate_siblings_ := insSet lastNew cn2.immediate_siblings_ }) :=
      wf_set _ _ _ hwf2
    have hwf4 : WFp (Hp.set (Hp.set (Hp.set tgt1 cNew
        { cn with parent_ := some parentNew }) cNew
        { cn2 with immediate_siblings_ := insSet lastNew cn2.immediate_siblings_ })
        lastNew { ln with immediate_siblings_ := insSet cNew ln.immediate_siblings_ }) :=
      wf_set _ _ _ hwf3
    have hcnlt4 : cNew < (Hp.set (Hp.set (Hp.set tgt1 cNew
        { cn with parent_ := some parentNew }) cNew
        { cn2 with immediate_siblings_ := insSet lastNew cn2.immediate_siblings_ })
        lastNew { ln with immediate_siblings_ := insSet cNew ln.immediate_siblings_ }).next := by
      show cNew < tgt1.next
      omega
    obtain ⟨hle', hwf', hfr', hlast'⟩ :=
      hC src nxt (some curCopy) _ parentNew cNew (some cNew) res tgt' hwf4 hcnlt4 h
    have hn4 : (Hp.set (Hp.set (Hp.set tgt1 cNew
        { cn with parent_ := some parentNew }) cNew
        { cn2 with immediate_siblings_ := insSet lastNew cn2.immediate_siblings_ })
        lastNew { ln with immediate_siblings_ := insSet cNew ln.immediate_siblings_ }).next
        = tgt1.next := rfl
    rw [hn4] at hle' hfr'
    refine ⟨by omega, hwf', ?_, ?_⟩
    · intro j hj hjne
      rw [hfr' j (by omega) (by omega), get_set_ne _ _ _ _ hjne,
          get_set_ne _ _ _ _ (by omega), get_set_ne _ _ _ _ (by omega), hfr1 j hj]
    · intro nd0 hnd0
      have hlneqv : ln = nd0 := by
        rw [hnd0] at hlnv
        exact (Option.some.inj hlnv).symm
      subst hlneqv
      have hg4ln : (Hp.set (Hp.set (Hp.set tgt1 cNew
          { cn with parent_ := some parentNew }) cNew
          { cn2 with immediate_siblings_ := insSet lastNew cn2.immediate_siblings_ })
          lastNew { ln with immediate_siblings_ := insSet cNew ln.immediate_siblings_ }).get
            lastNew =
          some { ln with immediate_siblings_ := insSet cNew ln.immediate_siblings_ } := by
        rw [get_set_self, hg3ln, hnd0]
      have hfinln : tgt'.get lastNew =
          some { ln with immediate_siblings_ := insSet cNew ln.immediate_siblings_ } := by
        rw [hfr' lastNew (by omega) hlnne, hg4ln]
      refine ⟨⟨_, hfinln, ⟨rfl, rfl, rfl, rfl, rfl⟩⟩, ?_⟩
      rintro prevOpt hshape h' hag hlneq hsub g
      have hg4c : (Hp.set (Hp.set (Hp.set tgt1 cNew
          { cn with parent_ := some parentNew }) cNew
          { cn2 with immediate_siblings_ := insSet lastNew cn2.immediate_siblings_ })
          lastNew { ln with immediate_siblings_ := insSet cNew ln.immediate_siblings_ }).get
            cNew =
          some { cn2 with immediate_siblings_ := insSet lastNew cn2.immediate_siblings_ } := by
        rw [get_set_ne _ _ _ _ hcne, get_set_self, hg2]
      obtain ⟨⟨ndf, hndf, hndfcore⟩, hwchain⟩ :=
        hlast' { cn2 with immediate_siblings_ := insSet lastNew cn2.immediate_siblings_ } hg4c
      have hsubc : ∀ g', findFrontierN g' h' cNew = findFrontierN g' src nxt := by
        apply hwalk1 h'
        · intro j hj1 hj2
          rw [hag j (by omega) (by omega), hfr' j (by omega) (by omega),
              get_set_ne _ _ _ _ (by omega), get_set_ne _ _ _ _ (by omega),
              get_set_ne _ _ _ _ (by omega)]
        · intro a b ha hb
          rw [hag cNew (by omega) (by omega), hndf] at ha
          obtain rfl := Option.some.inj ha
          rw [hg1'] at hb
          obtain rfl := Option.some.inj hb
          refine sameCore_trans hndfcore ?_
          rw [hcn2v]
          exact ⟨rfl, rfl, rfl, rfl, rfl⟩
        · exact ⟨ndf, by rw [hag cNew (by omega) (by omega), hndf]⟩
      have hshape2 : ({ cn2 with
          immediate_siblings_ := insSet lastNew cn2.immediate_siblings_ } :
            Node).immediate_siblings_ = [lastNew] := by
        rw [hcn2v]
        show insSet lastNew cn.immediate_siblings_ = [lastNew]
        rw [hcnsibs]
        rfl
      have hwc : ∀ g', findFrontierChain g' h' (some cNew) (some lastNew) =
          findFrontierChain g' src (some nxt) (some curCopy) :=
        hwchain (some lastNew)
          (Or.inr ⟨lastNew, hshape2, rfl, hlnne, by omega⟩)
          h'
          (fun j hj1 hj2 => hag j (by omega) (by omega))
          (hag cNew (by omega) (by omega))
          hsubc
      cases g with
      | zero => rfl
      | succ g =>
        have hh' : h'.get lastNew =
            some { ln with immediate_siblings_ := insSet cNew ln.immediate_siblings_ } := by
          rw [hlneq]; exact hfinln
        have htgtnext : qNextChild h' lastNew prevOpt = .ok (some cNew) := by
          rcases hshape with ⟨hsibs, rfl, rfl⟩ | ⟨p, hsibs, rfl, hpne, hplt⟩
          · apply qnc_head h' lastNew cNew _ hh'
            show insSet cNew ln.immediate_siblings_ = [cNew]
            rw [hsibs]
            rfl
          · apply qnc_step h' lastNew cNew p _ hh'
            · show insSet cNew ln.immediate_siblings_ = insSet cNew [p]
              rw [hsibs]
            · omega
        rw [findFrontierChain, findFrontierChain, hsub g, hnext, htgtnext]
        apply ebind_congr
        intro xs
        simp only [ebind_ok]
        rw [hwc g]

end PQ


namespace PQ

theorem get_lit_ne (hp : Hp) (nd : Node) (j : Nat) (hne : j ≠ hp.next) :
    ({ nodes := hp.nodes ++ [(hp.next, nd)], next := hp.next + 1 } : Hp).get j =
      hp.get j :=
  get_alloc_ne hp nd j hne

theorem get_lit_self (hp : Hp) (nd : Node) (h : WFp hp) :
    ({ nodes := hp.nodes ++ [(hp.next, nd)], next := hp.next + 1 } : Hp).get hp.next =
      some nd :=
  get_alloc_self hp nd h

theorem nodeSim_succ (f : Nat) (hN : NodeSim f) (hK : KidsSim f) (hC : ChainSim f) :
    NodeSim (f + 1) := by
  intro src i tgt nid tgt' hwf h
  rw [copyNodeX.eq_def] at h
  try simp only [] at h
  obtain ⟨nd, hnd, h⟩ := bind_ok_inv h
  have hsrc : src.get i = some nd := getE_ok_inv hnd
  simp only [Hp.alloc] at h
  obtain ⟨pk, hkids, h⟩ := bind_ok_inv h
  obtain ⟨kids, tgtk⟩ := pk
  try simp only [] at h
  obtain ⟨selfN, hselfE, h⟩ := bind_ok_inv h
  try simp only [] at h
  have hwf0 : WFp ({ nodes := tgt.nodes ++ [(tgt.next, copyScalars nd)], next := tgt.next + 1 } : Hp) := wf_alloc tgt (copyScalars nd) hwf
  obtain ⟨hlek0, hwfk, hfrk0, hwalkk⟩ :=
    hK src nd.circular_link_ _ tgt.next kids tgtk hwf0 hkids
  have hlek : tgt.next + 1 ≤ tgtk.next := hlek0
  have hfrk : ∀ j, j < tgt.next + 1 →
      tgtk.get j = ({ nodes := tgt.nodes ++ [(tgt.next, copyScalars nd)], next := tgt.next + 1 } : Hp).get j := hfrk0
  have hwalkk' : ∀ h2 : Hp,
      (∀ j, tgt.next + 1 ≤ j → j < tgtk.next → h2.get j = tgtk.get j) →
      ∀ g, findFrontierList g h2 kids = findFrontierList g src nd.circular_link_ :=
    hwalkk
  have hselfg : tgtk.get tgt.next = some (copyScalars nd) := by
    rw [hfrk tgt.next (by omega)]
    exact get_lit_self tgt (copyScalars nd) hwf
  have hselfv : selfN = copyScalars nd := by
    have h2 := getE_ok_inv hselfE
    rw [hselfg] at h2
    exact Option.some.inj h2.symm
  subst hselfv
  have hgc : (tgtk.set tgt.next { copyScalars nd with circular_link_ := kids }).get
      tgt.next = some { copyScalars nd with circular_link_ := kids } := by
    rw [get_set_self, hselfg]
  have hwfc : WFp (tgtk.set tgt.next { copyScalars nd with circular_link_ := kids }) :=
    wf_set _ _ _ hwfk
  by_cases hq : nd.type_ = .qnode
  · rw [if_pos hq] at h
    cases hem : nd.endmost_children_0 with
    | none => rw [hem] at h; exact absurd h (by simp)
    | some e0 =>
      rw [hem] at h
      try simp only [] at h
      obtain ⟨pa, hcopya, h⟩ := bind_ok_inv h
      obtain ⟨e0c, tgta⟩ := pa
      try simp only [] at h
      obtain ⟨e0n, he0nE, h⟩ := bind_ok_inv h
      try simp only [] at h
      obtain ⟨selfN2, hselfE2, h⟩ := bind_ok_inv h
      try simp only [] at h
      obtain ⟨pd, hchain, h⟩ := bind_ok_inv h
      obtain ⟨lastRes, tgtd⟩ := pd
      try simp only [] at h
      obtain ⟨selfN3, hselfE3, h⟩ := bind_ok_inv h
      try simp only [] at h
      have hinj := Except.ok.inj h
      have hnid : nid = tgt.next := (congrArg Prod.fst hinj).symm
      have htgt' : tgt' =
          tgtd.set tgt.next { selfN3 with endmost_children_1 := lastRes } :=
        (congrArg Prod.snd hinj).symm
      subst hnid
      subst htgt'
      obtain ⟨he0c0, hlta0, hwfa, hfra0, ⟨ndc0, hndc0, hndc0s⟩, hwalka0⟩ :=
        hN src e0 _ e0c tgta hwfc hcopya
      have he0c : e0c = tgtk.next := he0c0
      have hlta : tgtk.next < tgta.next := hlta0
      have hfra : ∀ j, j < tgtk.next → tgta.get j =
          (tgtk.set tgt.next { copyScalars nd with circular_link_ := kids }).get j :=
        hfra0
      have hwalka : ∀ h2 : Hp,
          (∀ j, e0c < j → j < tgta.next → h2.get j = tgta.get j) →
          (∀ a b, h2.get e0c = some a → tgta.get e0c = some b → SameCore a b) →
          (∃ a, h2.get e0c = some a) →
          ∀ g, findFrontierN g h2 e0c = findFrontierN g src e0 := hwalka0
      have he0nv : e0n = ndc0 := by
        have h2 := getE_ok_inv he0nE
        rw [hndc0] at h2
        exact Option.some.inj h2.symm
      subst he0nv
      have hne0 : tgt.next ≠ e0c := by omega
      have he0ne : e0c ≠ tgt.next := by omega
      have hgb : (tgta.set e0c { e0n with parent_ := some tgt.next }).get e0c =
          some { e0n with parent_ := some tgt.next } := by
        rw [get_set_self, hndc0]
      have hselfv2 : selfN2 = { copyScalars nd with circular_link_ := kids } := by
        have h2 := getE_ok_inv hselfE2
        rw [get_set_ne _ _ _ _ hne0, hfra tgt.next (by omega), hgc] at h2
        exact Option.some.inj h2.symm
      subst hselfv2
      have hwfb : WFp (tgta.set e0c { e0n with parent_ := some tgt.next }) :=
        wf_set _ _ _ hwfa
      have hwfc2 : WFp ((tgta.set e0c { e0n with parent_ := some tgt.next }).set tgt.next
          { { copyScalars nd with circular_link_ := kids } with
            endmost_children_0 := some e0c }) := wf_set _ _ _ hwfb
      have hlnlt : e0c < ((tgta.set e0c { e0n with parent_ := some tgt.next }).set
          tgt.next { { copyScalars nd with circular_link_ := kids } with
            endmost_children_0 := some e0c }).next := by
        show e0c < tgta.next
        omega
      obtain ⟨hled0, hwfd, hfrd0, hlastd0⟩ :=
        hC src e0 none _ tgt.next e0c none lastRes tgtd hwfc2 hlnlt hchain
      have hled : tgta.next ≤ tgtd.next := hled0
      have hfrd : ∀ j, j < tgta.next → j ≠ e0c →
          tgtd.get j = ((tgta.set e0c { e0n with parent_ := some tgt.next }).set tgt.next
            { { copyScalars nd with circular_link_ := kids } with
              endmost_children_0 := some e0c }).get j := hfrd0
      have hgc2e0 : ((tgta.set e0c { e0n with parent_ := some tgt.next }).set tgt.next
          { { copyScalars nd with circular_link_ := kids } with
            endmost_children_0 := some e0c }).get e0c =
          some { e0n with parent_ := some tgt.next } := by
        rw [get_set_ne _ _ _ _ he0ne, hgb]
      obtain ⟨⟨nde, hnde, hndecore⟩, hwchain⟩ :=
        hlastd0 { e0n with parent_ := some tgt.next } hgc2e0
      have hselfv3 : selfN3 = { { copyScalars nd with circular_link_ := kids } with
          endmost_children_0 := some e0c } := by
        have h2 := getE_ok_inv hselfE3
        rw [hfrd tgt.next (by omega) hne0, get_set_self,
            get_set_ne _ _ _ _ hne0, hfra tgt.next (by omega), hgc] at h2
        exact Option.some.inj h2.symm
      subst hselfv3
      refine ⟨rfl, ?_, wf_set _ _ _ hwfd, ?_, ?_, ?_⟩
      · show tgt.next < tgtd.next
        omega
      · intro j hj
        rw [get_set_ne _ _ _ _ (by omega), hfrd j (by omega) (by omega),
            get_set_ne _ _ _ _ (by omega), get_set_ne _ _ _ _ (by omega),
            hfra j (by omega), get_set_ne _ _ _ _ (by omega), hfrk j (by omega),
            get_lit_ne tgt (copyScalars nd) j (by omega)]
      · refine ⟨{ { { copyScalars nd with circular_link_ := kids } with
            endmost_children_0 := some e0c } with endmost_children_1 := lastRes },
          ?_, rfl⟩
        rw [get_set_self, hfrd tgt.next (by omega) hne0, get_set_self,
            get_set_ne _ _ _ _ hne0, hfra tgt.next (by omega), hgc]
      · intro h' hag hroot hex g
        have hag2 : ∀ j, tgt.next < j → j < tgtd.next → h'.get j =
            (tgtd.set tgt.next { { { copyScalars nd with circular_link_ := kids } with
              endmost_children_0 := some e0c } with
              endmost_children_1 := lastRes }).get j := hag
        have hgfin : (tgtd.set tgt.next
            { { { copyScalars nd with circular_link_ := kids } with
                endmost_children_0 := some e0c } with
              endmost_children_1 := lastRes }).get tgt.next =
            some { { { copyScalars nd with circular_link_ := kids } with
                endmost_children_0 := some e0c } with
              endmost_children_1 := lastRes } := by
          rw [get_set_self, hfrd tgt.next (by omega) hne0, get_set_self,
              get_set_ne _ _ _ _ hne0, hfra tgt.next (by omega), hgc]
        obtain ⟨a, ha⟩ := hex
        have hcore := hroot a _ ha hgfin
        cases g with
        | zero => rfl
        | succ g =>
          have hat : a.type_ = .qnode := by
            rw [hcore.1]
            exact hq
          have haem : a.endmost_children_0 = some e0c := hcore.2.2.2.2
          rw [ffn_qnode g h' tgt.next a ha hat, haem,
              ffn_qnode g src i nd hsrc hq, hem]
          have hagn : ∀ j, tgt.next < j → j < tgtd.next → h'.get j = tgtd.get j := by
            intro j hj1 hj2
            rw [hag2 j hj1 hj2, get_set_ne _ _ _ _ (by omega)]
          have hsube : ∀ g', findFrontierN g' h' e0c = findFrontierN g' src e0 := by
            apply hwalka h'
            · intro j hj1 hj2
              rw [hagn j (by omega) (by omega), hfrd j (by omega) (by omega),
                  get_set_ne _ _ _ _ (by omega), get_set_ne _ _ _ _ (by omega)]
            · intro a2 b2 ha2 hb2
              rw [hagn e0c (by omega) (by omega), hnde] at ha2
              obtain rfl := Option.some.inj ha2
              rw [hndc0] at hb2
              obtain rfl := Option.some.inj hb2
              exact sameCore_trans hndecore ⟨rfl, rfl, rfl, rfl, rfl⟩
            · refine ⟨nde, ?_⟩
              rw [hagn e0c (by omega) (by omega), hnde]
          exact hwchain none (Or.inl ⟨hndc0s, rfl, rfl⟩) h'
            (fun j hj1 hj2 => hagn j (by omega) (by omega))
            (hagn e0c (by omega) (by omega))
            hsube g
  · rw [if_neg hq] at h
    have hinj := Except.ok.inj h
    have hnid : nid = tgt.next := (congrArg Prod.fst hinj).symm
    have htgt' : tgt' =
        tgtk.set tgt.next { copyScalars nd with circular_link_ := kids } :=
      (congrArg Prod.snd hinj).symm
    subst hnid
    subst htgt'
    refine ⟨rfl, ?_, hwfc, ?_,
      ⟨{ copyScalars nd with circular_link_ := kids }, hgc, rfl⟩, ?_⟩
    · show tgt.next < tgtk.next
      omega
    · intro j hj
      rw [get_set_ne _ _ _ _ (by omega), hfrk j (by omega),
          get_lit_ne tgt (copyScalars nd) j (by omega)]
    · intro h' hag hroot hex g
      have hag2 : ∀ j, tgt.next < j → j < tgtk.next → h'.get j =
          (tgtk.set tgt.next { copyScalars nd with circular_link_ := kids }).get j := hag
      obtain ⟨a, ha⟩ := hex
      have hcore := hroot a _ ha hgc
      cases g with
      | zero => rfl
      | succ g =>
        cases htt : nd.type_ with
        | qnode => exact absurd htt hq
        | leaf =>
          have hat : a.type_ = .leaf := by rw [hcore.1]; exact htt
          rw [ffn_leaf g h' tgt.next a ha hat, ffn_leaf g src i nd hsrc htt,
              hcore.2.2.1]
          rfl
        | pnode =>
          have hat : a.type_ = .pnode := by rw [hcore.1]; exact htt
          rw [ffn_pnode g h' tgt.next a ha hat, ffn_pnode g src i nd hsrc htt]
          have hac : a.circular_link_ = kids := hcore.2.2.2.1
          rw [hac]
          apply hwalkk' h'
          intro j hj1 hj2
          rw [hag2 j (by omega) hj2, get_set_ne _ _ _ _ (by omega)]

end PQ

namespace PQ

/-- The deep copy preserves the frontier: the three statements hold at
every fuel. -/
theorem copy_sim : ∀ f : Nat, NodeSim f ∧ KidsSim f ∧ ChainSim f := by
  intro f
  induction f with
  | zero =>
    refine ⟨?_, ?_, ?_⟩
    · intro src i tgt nid tgt' _ h
      rw [copyNodeX.eq_def] at h
      exact absurd h (by simp)
    · intro src cs tgt pid kids tgt' _ h
      rw [copyKidsX.eq_def] at h
      exact absurd h (by simp)
    · intro src curCopy lastCopy tgt parentNew lastNew currentNew res tgt' _ _ h
      rw [copyChainX.eq_def] at h
      exact absurd h (by simp)
  | succ f ih =>
    obtain ⟨ihN, ihK, ihC⟩ := ih
    exact ⟨nodeSim_succ f ihN ihK ihC, kidsSim_succ f ihN ihK, chainSim_succ f ihN ihC⟩

end PQ

namespace PQ

/-! ## Allocator-invariant preservation along the failing `Reduce` path -/

theorem wf_upd (hp : Hp) (i : Nat) (f : Node → Node) (hp' : Hp)
    (hwf : WFp hp) (h : upd hp i f = .ok hp') : WFp hp' := by
  rw [upd] at h
  obtain ⟨nd, _, h⟩ := bind_ok_inv h
  exact Except.ok.inj h ▸ wf_set _ _ _ hwf

theorem foldlM_pres {α β : Type} (P : β → Prop) (f : β → α → Except Err β)
    (hf : ∀ b a b2, P b → f b a = .ok b2 → P b2) :
    ∀ (l : List α) (b b' : β), P b → List.foldlM f b l = .ok b' → P b' := by
  intro l
  induction l with
  | nil =>
    intro b b' hb h
    rw [List.foldlM] at h
    exact Except.ok.inj h ▸ hb
  | cons a l ih =>
    intro b b' hb h
    rw [List.foldlM] at h
    obtain ⟨b2, hstep, h⟩ := bind_ok_inv h
    exact ih b2 b' (hf b a b2 hb hstep) h

theorem wf_labelAsFull (hp : Hp) (i : Nat) (hp' : Hp)
    (hwf : WFp hp) (h : labelAsFull hp i = .ok hp') : WFp hp' := by
  rw [labelAsFull] at h
  obtain ⟨nd, _, h⟩ := bind_ok_inv h
  try simp only [] at h
  split at h
  · exact Except.ok.inj h ▸ wf_set _ _ _ hwf
  · obtain ⟨pn, _, h⟩ := bind_ok_inv h
    exact Except.ok.inj h ▸ wf_set _ _ _ (wf_set _ _ _ hwf)

theorem wf_swapQSibs (i toInsert : Nat) :
    ∀ (ss : List Nat) (hp hp' : Hp), WFp hp →
      swapQ.swapQSibs i toInsert ss hp = .ok hp' → WFp hp' := by
  intro ss
  induction ss with
  | nil =>
    intro hp hp' hwf h
    rw [swapQ.swapQSibs] at h
    exact Except.ok.inj h ▸ hwf
  | cons s ss ih =>
    intro hp hp' hwf h
    rw [swapQ.swapQSibs] at h
    obtain ⟨tn, _, h⟩ := bind_ok_inv h
    try simp only [] at h
    obtain ⟨sn, _, h⟩ := bind_ok_inv h
    try simp only [] at h
    exact ih _ _ (wf_set _ _ _ (wf_set _ _ _ hwf)) h

theorem wf_swapQ (hp : Hp) (i toInsert : Nat) (hp' : Hp)
    (hwf : WFp hp) (h : swapQ hp i toInsert = .ok hp') : WFp hp' := by
  rw [swapQ] at h
  obtain ⟨nd, _, h⟩ := bind_ok_inv h
  try simp only [] at h
  obtain ⟨tn, _, h⟩ := bind_ok_inv h
  try simp only [] at h
  split at h
  · obtain ⟨y, hy, h⟩ := bind_ok_inv h
    exact absurd hy (by simp)
  · obtain ⟨pn, _, h⟩ := bind_ok_inv h
    try simp only [] at h
    split at h
    · obtain ⟨hpA, hA, h⟩ := bind_ok_inv h
      try simp only [] at h
      have hwfA : WFp hpA := Except.ok.inj hA ▸ wf_set _ _ _ (wf_set _ _ _ hwf)
      obtain ⟨tn2, _, h⟩ := bind_ok_inv h
      try simp only [] at h
      obtain ⟨hps, hhps, h⟩ := bind_ok_inv h
      try simp only [] at h
      obtain ⟨ndf, _, h⟩ := bind_ok_inv h
      exact Except.ok.inj h ▸ wf_set _ _ _ (wf_swapQSibs i toInsert _ _ hps
        (wf_set _ _ _ hwfA) hhps)
    · split at h
      · obtain ⟨hpA, hA, h⟩ := bind_ok_inv h
        try simp only [] at h
        have hwfA : WFp hpA := Except.ok.inj hA ▸ wf_set _ _ _ (wf_set _ _ _ hwf)
        obtain ⟨tn2, _, h⟩ := bind_ok_inv h
        try simp only [] at h
        obtain ⟨hps, hhps, h⟩ := bind_ok_inv h
        try simp only [] at h
        obtain ⟨ndf, _, h⟩ := bind_ok_inv h
        exact Except.ok.inj h ▸ wf_set _ _ _ (wf_swapQSibs i toInsert _ _ hps
          (wf_set _ _ _ hwfA) hhps)
      · obtain ⟨hpA, hA, h⟩ := bind_ok_inv h
        try simp only [] at h
        have hwfA : WFp hpA := Except.ok.inj hA ▸ wf_set _ _ _ hwf
        obtain ⟨tn2, _, h⟩ := bind_ok_inv h
        try simp only [] at h
        obtain ⟨hps, hhps, h⟩ := bind_ok_inv h
        try simp only [] at h
        obtain ⟨ndf, _, h⟩ := bind_ok_inv h
        exact Except.ok.inj h ▸ wf_set _ _ _ (wf_swapQSibs i toInsert _ _ hps
          (wf_set _ _ _ hwfA) hhps)

theorem wf_replaceEndmostChild (hp : Hp) (i oldC newC : Nat) (hp' : Hp)
    (hwf : WFp hp) (h : replaceEndmostChild hp i oldC newC = .ok hp') : WFp hp' := by
  rw [replaceEndmostChild] at h
  obtain ⟨nd, _, h⟩ := bind_ok_inv h
  try simp only [] at h
  split at h
  · exact Except.ok.inj h ▸ wf_set _ _ _ hwf
  · split at h
    · exact Except.ok.inj h ▸ wf_set _ _ _ hwf
    · exact Except.ok.inj h ▸ hwf

theorem wf_replaceImmediateSibling (hp : Hp) (i oldC newC : Nat) (hp' : Hp)
    (hwf : WFp hp) (h : replaceImmediateSibling hp i oldC newC = .ok hp') : WFp hp' := by
  rw [replaceImmediateSibling] at h
  obtain ⟨nd, _, h⟩ := bind_ok_inv h
  try simp only [] at h
  obtain ⟨nn, _, h⟩ := bind_ok_inv h
  exact Except.ok.inj h ▸ wf_set _ _ _ (wf_set _ _ _ hwf)

theorem wf_replaceCircularLink (hp : Hp) (i oldC newC : Nat) (hp' : Hp)
    (hwf : WFp hp) (h : replaceCircularLink hp i oldC newC = .ok hp') : WFp hp' := by
  rw [replaceCircularLink] at h
  obtain ⟨nd, _, h⟩ := bind_ok_inv h
  exact Except.ok.inj h ▸ wf_set _ _ _ hwf

theorem wf_forgetChildren (hp : Hp) (i : Nat) (hp' : Hp)
    (hwf : WFp hp) (h : forgetChildren hp i = .ok hp') : WFp hp' := by
  rw [forgetChildren] at h
  obtain ⟨nd, _, h⟩ := bind_ok_inv h
  exact Except.ok.inj h ▸ wf_set _ _ _ hwf

theorem wf_mfcGo (i newNode : Nat) :
    ∀ (cs : List Nat) (hp hp' : Hp), WFp hp →
      moveFullChildren.mfcGo i newNode cs hp = .ok hp' → WFp hp' := by
  intro cs
  induction cs with
  | nil =>
    intro hp hp' hwf h
    rw [moveFullChildren.mfcGo] at h
    exact Except.ok.inj h ▸ hwf
  | cons c cs ih =>
    intro hp hp' hwf h
    rw [moveFullChildren.mfcGo] at h
    obtain ⟨fromN, _, h⟩ := bind_ok_inv h
    try simp only [] at h
    obtain ⟨toN, _, h⟩ := bind_ok_inv h
    try simp only [] at h
    obtain ⟨cn, _, h⟩ := bind_ok_inv h
    exact ih _ _ (wf_set _ _ _ (wf_set _ _ _ (wf_set _ _ _ hwf))) h

theorem wf_moveFullChildren (hp : Hp) (i newNode : Nat) (hp' : Hp)
    (hwf : WFp hp) (h : moveFullChildren hp i newNode = .ok hp') : WFp hp' := by
  rw [moveFullChildren] at h
  obtain ⟨nd, _, h⟩ := bind_ok_inv h
  exact wf_mfcGo i newNode _ _ _ hwf h

theorem wf_replacePartialChild (hp : Hp) (i oldC newC : Nat) (hp' : Hp)
    (hwf : WFp hp) (h : replacePartialChild hp i oldC newC = .ok hp') : WFp hp' := by
  rw [replacePartialChild] at h
  obtain ⟨nn, _, h⟩ := bind_ok_inv h
  try simp only [] at h
  obtain ⟨nd, _, h⟩ := bind_ok_inv h
  try simp only [] at h
  split at h
  · exact Except.ok.inj h ▸ wf_set _ _ _ (wf_set _ _ _ hwf)
  · exact wf_swapQ _ _ _ _ (wf_set _ _ _ (wf_set _ _ _ hwf)) h

end PQ

namespace PQ

theorem wf_restoreSide (hp : Hp) (e nb : Option Nat) (hp' : Hp)
    (hwf : WFp hp) (h : cleanPseudo.restoreSide hp e nb = .ok hp') : WFp hp' := by
  cases e with
  | none => simp [cleanPseudo.restoreSide] at h
  | some e2 =>
    cases nb with
    | none => simp [cleanPseudo.restoreSide] at h
    | some nb2 =>
      rw [cleanPseudo.restoreSide] at h
      try simp only [] at h
      obtain ⟨hp1, hh1, h⟩ := bind_ok_inv h
      exact wf_upd _ _ _ _ (wf_upd _ _ _ _ hwf hh1) h

theorem wf_cleanPseudo (ct ct' : Ct)
    (hwf : WFp ct.hp) (h : cleanPseudo ct = .ok ct') : WFp ct'.hp := by
  rw [cleanPseudo] at h
  split at h
  · exact Except.ok.inj h ▸ hwf
  · obtain ⟨pn, _, h⟩ := bind_ok_inv h
    try simp only [] at h
    obtain ⟨hp1, hh1, h⟩ := bind_ok_inv h
    obtain ⟨hp2, hh2, h⟩ := bind_ok_inv h
    obtain ⟨hp3, hh3, h⟩ := bind_ok_inv h
    have hwf3 : WFp hp3 :=
      wf_forgetChildren _ _ _ (wf_restoreSide _ _ _ _
        (wf_restoreSide _ _ _ _ hwf hh1) hh2) hh3
    exact Except.ok.inj h ▸ wf_del _ _ hwf3

theorem wf_q3MergeOne (x : Nat) (ct : Ct) (toMerge : Nat) (ct' : Ct)
    (hwf : WFp ct.hp) (h : q3MergeOne x ct toMerge = .ok ct') : WFp ct'.hp := by
  rw [q3MergeOne] at h
  obtain ⟨tm, _, h⟩ := bind_ok_inv h
  try simp only [] at h
  obtain ⟨ec, _, h⟩ := bind_ok_inv h
  obtain ⟨fc, _, h⟩ := bind_ok_inv h
  obtain ⟨pf, hpf, h⟩ := bind_ok_inv h
  obtain ⟨hpcs, hcs⟩ := pf
  try simp only [] at h
  have hwf1 : WFp hpcs := by
    have := foldlM_pres (fun (acc : Hp × Option Nat) => WFp acc.1) _ ?_
      tm.immediate_siblings_ (ct.hp, none) (hpcs, hcs) hwf hpf
    · exact this
    · intro b a b2 hb hstep
      obtain ⟨hpb, csb⟩ := b
      try simp only [] at hstep
      obtain ⟨sn, _, hstep⟩ := bind_ok_inv hstep
      try simp only [] at hstep
      split at hstep
      · split at hstep
        · exact absurd hstep (by simp)
        · obtain ⟨hpr, hhpr, hstep⟩ := bind_ok_inv hstep
          have := wf_replaceImmediateSibling _ _ _ _ _ hb hhpr
          exact Except.ok.inj hstep ▸ this
      · split at hstep
        · exact absurd hstep (by simp)
        · obtain ⟨hpr, hhpr, hstep⟩ := bind_ok_inv hstep
          have := wf_replaceImmediateSibling _ _ _ _ _ hb hhpr
          exact Except.ok.inj hstep ▸ this
  obtain ⟨host, _, h⟩ := bind_ok_inv h
  try simp only [] at h
  split at h
  · split at h
    · obtain ⟨y, hy, h⟩ := bind_ok_inv h
      exact absurd hy (by simp)
    · obtain ⟨hpu, hhu, h⟩ := bind_ok_inv h
      obtain ⟨hpr, hhr, h⟩ := bind_ok_inv h
      obtain ⟨hpf, hhf, h⟩ := bind_ok_inv h
      have hwff : WFp hpf :=
        wf_forgetChildren _ _ _
          (wf_replaceEndmostChild _ _ _ _ _ (wf_upd _ _ _ _ hwf1 hhu) hhr) hhf
      exact Except.ok.inj h ▸ wf_del _ _ hwff
  · obtain ⟨hpp, hpe, h⟩ := bind_ok_inv h
    have hwfp : WFp hpp := Except.ok.inj hpe ▸ hwf1
    obtain ⟨hpf, hhf, h⟩ := bind_ok_inv h
    have hwff : WFp hpf := wf_forgetChildren _ _ _ hwfp hhf
    exact Except.ok.inj h ▸ wf_del _ _ hwff

end PQ

namespace PQ

theorem wf_unblockSiblings : ∀ (fuel : Nat) (hp : Hp) (x : Nat)
    (parent last : Option Nat) (r : Int) (hp' : Hp), WFp hp →
    unblockSiblings fuel hp x parent last = .ok (r, hp') → WFp hp' := by
  intro fuel
  induction fuel with
  | zero =>
    intro hp x parent last r hp' hwf h
    rw [unblockSiblings] at h
    exact absurd h (by simp)
  | succ fuel ih =>
    intro hp x parent last r hp' hwf h
    rw [unblockSiblings] at h
    obtain ⟨nd, _, h⟩ := bind_ok_inv h
    try simp only [] at h
    split at h
    · have := foldlM_pres (fun (acc : Int × Hp) => WFp acc.2) _ ?_
        nd.immediate_siblings_ (1, hp.set x { nd with mark_ := .unblocked, parent_ := parent })
        (r, hp') (wf_set _ _ _ hwf) h
      · exact this
      · intro b a b2 hb hstep
        split at hstep
        · exact Except.ok.inj hstep ▸ hb
        · obtain ⟨p2, hp2, hstep⟩ := bind_ok_inv hstep
          obtain ⟨cnt2, hpn⟩ := p2
          try simp only [] at hstep
          have := ih b.2 a parent (some x) cnt2 hpn hb hp2
          exact Except.ok.inj hstep ▸ this
    · have hinj := Except.ok.inj h
      have : hp = hp' := congrArg Prod.snd hinj
      exact this ▸ hwf

theorem wf_bubblePseudo (pid : Nat) (blockedList : List Nat) (hp hp' : Hp)
    (hwf : WFp hp) (h : bubblePseudo pid blockedList hp = .ok hp') : WFp hp' := by
  rw [bubblePseudo] at h
  obtain ⟨pf, hpf, h⟩ := bind_ok_inv h
  obtain ⟨hpx, sidex⟩ := pf
  try simp only [] at h
  have hwfx : WFp hpx := by
    have := foldlM_pres (fun (acc : Hp × Nat) => WFp acc.1) _ ?_
      blockedList (hp, 0) (hpx, sidex) hwf hpf
    · exact this
    · intro b a b2 hb hstep
      obtain ⟨hpb, sideb⟩ := b
      try simp only [] at hstep
      obtain ⟨nd, _, hstep⟩ := bind_ok_inv hstep
      try simp only [] at hstep
      split at hstep
      · obtain ⟨hp1, hh1, hstep⟩ := bind_ok_inv hstep
        have hwf1 : WFp hp1 := wf_upd _ _ _ _ hb hh1
        obtain ⟨p2, hp2, hstep⟩ := bind_ok_inv hstep
        obtain ⟨hp2h, cnt2⟩ := p2
        try simp only [] at hstep
        have hwf2 : WFp hp2h := by
          have := foldlM_pres (fun (acc2 : Hp × Nat) => WFp acc2.1) _ ?_
            (nd.immediate_siblings_.take 2) (hp1, 0) (hp2h, cnt2) hwf1 hp2
          · exact this
          · intro c a2 c2 hc hstep2
            obtain ⟨hpc, cntc⟩ := c
            try simp only [] at hstep2
            obtain ⟨sn, _, hstep2⟩ := bind_ok_inv hstep2
            try simp only [] at hstep2
            split at hstep2
            · exact Except.ok.inj hstep2 ▸ hc
            · obtain ⟨hp3, hh3, hstep2⟩ := bind_ok_inv hstep2
              obtain ⟨hp4, hh4, hstep2⟩ := bind_ok_inv hstep2
              have hwf4 : WFp hp4 := wf_upd _ _ _ _ (wf_upd _ _ _ _ hc hh3) hh4
              split at hstep2
              · obtain ⟨hp5, hh5, hstep2⟩ := bind_ok_inv hstep2
                exact Except.ok.inj hstep2 ▸ wf_upd _ _ _ _ hwf4 hh5
              · split at hstep2
                · obtain ⟨hp5, hh5, hstep2⟩ := bind_ok_inv hstep2
                  exact Except.ok.inj hstep2 ▸ wf_upd _ _ _ _ hwf4 hh5
                · obtain ⟨y, hy, hstep2⟩ := bind_ok_inv hstep2
                  exact absurd hy (by simp)
        obtain ⟨hp6, hh6, hstep⟩ := bind_ok_inv hstep
        have hwf6 : WFp hp6 := wf_upd _ _ _ _ hwf2 hh6
        split at hstep
        · split at hstep
          · obtain ⟨hp7, hh7, hstep⟩ := bind_ok_inv hstep
            exact Except.ok.inj hstep ▸ wf_upd _ _ _ _ hwf6 hh7
          · split at hstep
            · obtain ⟨hp7, hh7, hstep⟩ := bind_ok_inv hstep
              exact Except.ok.inj hstep ▸ wf_upd _ _ _ _ hwf6 hh7
            · obtain ⟨y, hy, hstep⟩ := bind_ok_inv hstep
              exact absurd hy (by simp)
        · exact Except.ok.inj hstep ▸ hwf6
      · exact Except.ok.inj hstep ▸ hb
  exact Except.ok.inj h ▸ hwfx

end PQ

namespace PQ

theorem wf_blUnblock (hp : Hp) (x : Nat) (nd : Node) (us : List Nat)
    (hp' : Hp) (hwf : WFp hp) (h : blUnblock hp x nd us = .ok hp') :
    WFp hp' := by
  unfold blUnblock at h
  split at h
  · obtain ⟨un, _, h⟩ := bind_ok_inv h
    exact wf_upd _ _ _ _ hwf h
  · split at h
    · exact wf_upd _ _ _ _ hwf h
    · exact Except.ok.inj h ▸ hwf

theorem wf_blListSize (fuel : Nat) (hp : Hp) (x : Nat) (bs : List Nat)
    (ls : Int) (hp' : Hp) (hwf : WFp hp)
    (h : blListSize fuel hp x bs = .ok (ls, hp')) : WFp hp' := by
  unfold blListSize at h
  split at h
  · obtain ⟨hp1, hh1, h⟩ := bind_ok_inv h
    have hwf1 : WFp hp1 := wf_upd _ _ _ _ hwf hh1
    obtain ⟨nd2, _, h⟩ := bind_ok_inv h
    try simp only [] at h
    obtain ⟨pus, hpus, h⟩ := bind_ok_inv h
    obtain ⟨ls2, hp2⟩ := pus
    try simp only [] at h
    have hwf2 : WFp hp2 :=
      wf_unblockSiblings fuel hp1 x nd2.parent_ none ls2 hp2 hwf1 hpus
    split at h
    · obtain ⟨y, hy, h⟩ := bind_ok_inv h
      exact absurd hy (by simp)
    · obtain ⟨hp3, hh3, h⟩ := bind_ok_inv h
      have hwf3 : WFp hp3 := wf_upd _ _ _ _ hwf2 hh3
      have he : hp3 = hp' := congrArg Prod.snd (Except.ok.inj h)
      exact he ▸ hwf3
  · have he : hp = hp' := congrArg Prod.snd (Except.ok.inj h)
    exact he ▸ hwf

theorem wf_blParent (q : List Nat) (hp : Hp) (ct : Ct) (ndP : Node)
    (q' : List Nat) (hp' : Hp) (ct' : Ct) (hwf : WFp hp)
    (h : blParent q hp ct ndP = .ok (q', hp', ct')) : WFp hp' := by
  unfold blParent at h
  split at h
  · have he : hp = hp' := congrArg (fun p => p.2.1) (Except.ok.inj h)
    exact he ▸ hwf
  · obtain ⟨hp1, hh1, h⟩ := bind_ok_inv h
    have hwf1 : WFp hp1 := wf_upd _ _ _ _ hwf hh1
    obtain ⟨pn, _, h⟩ := bind_ok_inv h
    try simp only [] at h
    split at h
    · have he : hp1.set _ _ = hp' := congrArg (fun p => p.2.1) (Except.ok.inj h)
      exact he ▸ wf_set _ _ _ hwf1
    · have he : hp1 = hp' := congrArg (fun p => p.2.1) (Except.ok.inj h)
      exact he ▸ hwf1

theorem wf_bubbleLoop : ∀ (fuel : Nat) (q blockedList : List Nat) (ct : Ct)
    (b : Bool) (bl : List Nat) (ct' : Ct), WFp ct.hp →
    bubbleLoop fuel q blockedList ct = .ok (b, bl, ct') → WFp ct'.hp := by
  intro fuel
  induction fuel with
  | zero =>
    intro q blockedList ct b bl ct' hwf h
    rw [bubbleLoop.eq_def] at h
    exact absurd h (by simp)
  | succ fuel ih =>
    intro q blockedList ct b bl ct' hwf h
    rw [bubbleLoop.eq_def] at h
    try simp only [] at h
    split at h
    · have he : ct = ct' := congrArg (fun p => p.2.2) (Except.ok.inj h)
      exact he ▸ hwf
    · split at h
      · have he : ct = ct' := congrArg (fun p => p.2.2) (Except.ok.inj h)
        exact he ▸ hwf
      · obtain ⟨hp1, hh1, h⟩ := bind_ok_inv h
        have hwf1 : WFp hp1 := wf_upd _ _ _ _ hwf hh1
        obtain ⟨nd, _, h⟩ := bind_ok_inv h
        try simp only [] at h
        obtain ⟨pbu, _, h⟩ := bind_ok_inv h
        obtain ⟨bs, us⟩ := pbu
        try simp only [] at h
        obtain ⟨hp2, hh2, h⟩ := bind_ok_inv h
        have hwf2 : WFp hp2 := wf_blUnblock hp1 _ nd us hp2 hwf1 hh2
        obtain ⟨ndL, _, h⟩ := bind_ok_inv h
        try simp only [] at h
        split at h
        · obtain ⟨pls, hpls, h⟩ := bind_ok_inv h
          obtain ⟨listSize, hp3⟩ := pls
          try simp only [] at h
          have hwf3 : WFp hp3 :=
            wf_blListSize fuel hp2 _ bs listSize hp3 hwf2 hpls
          obtain ⟨ndP, _, h⟩ := bind_ok_inv h
          try simp only [] at h
          obtain ⟨pqc, hpqc, h⟩ := bind_ok_inv h
          obtain ⟨q2, hp7, ct2⟩ := pqc
          try simp only [] at h
          have hwf7 : WFp hp7 := wf_blParent _ hp3 _ ndP q2 hp7 ct2 hwf3 hpqc
          exact ih _ _ _ _ _ _ hwf7 h
        · exact ih _ _ _ _ _ _ hwf2 h

theorem wf_bubble (fuel : Nat) (S : List Int) (ct : Ct) (b : Bool) (ct' : Ct)
    (hwf : WFp ct.hp) (h : bubble fuel S ct = .ok (b, ct')) : WFp ct'.hp := by
  rw [bubble] at h
  obtain ⟨q, _, h⟩ := bind_ok_inv h
  try simp only [] at h
  obtain ⟨pbl, hbl, h⟩ := bind_ok_inv h
  obtain ⟨ok1, blockedList, ct1⟩ := pbl
  try simp only [] at h
  have hwf1 : WFp ct1.hp := wf_bubbleLoop fuel q []
    { ct with block_count_ := 0, blocked_nodes_ := 0, off_the_top_ := 0 }
    ok1 blockedList ct1 hwf hbl
  split at h
  · have hinj := Except.ok.inj h
    have : ct1 = ct' := congrArg Prod.snd hinj
    exact this ▸ hwf1
  · split at h
    · have hinj := Except.ok.inj h
      have : ct1 = ct' := congrArg Prod.snd hinj
      exact this ▸ hwf1
    · obtain ⟨cbc, _, h⟩ := bind_ok_inv h
      try simp only [] at h
      split at h
      · obtain ⟨hp2, hh2, h⟩ := bind_ok_inv h
        have hwf2 : WFp hp2 :=
          wf_bubblePseudo _ blockedList _ _ (wf_alloc _ _ hwf1) hh2
        obtain rfl := congrArg Prod.snd (Except.ok.inj h)
        exact hwf2
      · have hinj := Except.ok.inj h
        have : ct1 = ct' := congrArg Prod.snd hinj
        exact this ▸ hwf1

end PQ

namespace PQ

theorem wf_fullChildRep (hp : Hp) (x : Nat) (fcs : List Nat) (fc : Nat)
    (hp' : Hp) (hwf : WFp hp) (h : fullChildRep hp x fcs = .ok (fc, hp')) :
    WFp hp' := by
  unfold fullChildRep at h
  split at h
  · split at h
    · obtain ⟨hp1, hh1, h⟩ := bind_ok_inv h
      have he : hp1 = hp' := congrArg Prod.snd (Except.ok.inj h)
      exact he ▸ wf_upd _ _ _ _ hwf hh1
    · exact absurd h (by simp)
  · try simp only [] at h
    obtain ⟨hp1, hh1, h⟩ := bind_ok_inv h
    have he : hp1 = hp' := congrArg Prod.snd (Except.ok.inj h)
    exact he ▸ wf_moveFullChildren _ _ _ _ (wf_alloc _ _ hwf) hh1

theorem wf_p3EmptyRep (hp : Hp) (x : Nat) (ndL : Node) (ec : Nat) (hp' : Hp)
    (hwf : WFp hp) (h : p3EmptyRep hp x ndL = .ok (ec, hp')) : WFp hp' := by
  unfold p3EmptyRep at h
  split at h
  · split at h
    · have he : (hp.set x _).del x = hp' := congrArg Prod.snd (Except.ok.inj h)
      exact he ▸ wf_del _ _ (wf_set _ _ _ hwf)
    · exact absurd h (by simp)
  · have he : hp = hp' := congrArg Prod.snd (Except.ok.inj h)
    exact he ▸ hwf

theorem wf_q2Splice (hp : Hp) (x toMerge : Nat) (sib child : Option Nat)
    (hp' : Hp) (hwf : WFp hp) (h : q2Splice hp x toMerge sib child = .ok hp') :
    WFp hp' := by
  unfold q2Splice at h
  split at h
  · exact wf_replaceImmediateSibling _ _ _ _ _ hwf h
  · exact absurd h (by simp)
  · obtain ⟨hp1, hh1, h⟩ := bind_ok_inv h
    exact wf_upd _ _ _ _ (wf_replaceEndmostChild _ _ _ _ _ hwf hh1) h
  · exact absurd h (by simp)

theorem wf_templateL1 (fuel x : Nat) (ct : Ct) (m : Bool) (ct' : Ct)
    (hwf : WFp ct.hp) (h : templateL1 fuel x ct = .ok (m, ct')) :
    WFp ct'.hp := by
  rw [templateL1] at h
  obtain ⟨nd, _, h⟩ := bind_ok_inv h
  try simp only [] at h
  split at h
  · have he : ct = ct' := congrArg Prod.snd (Except.ok.inj h)
    exact he ▸ hwf
  · obtain ⟨hp1, hh1, h⟩ := bind_ok_inv h
    obtain rfl := congrArg Prod.snd (Except.ok.inj h)
    exact wf_labelAsFull _ _ _ hwf hh1

theorem wf_templateQ1 (fuel x : Nat) (ct : Ct) (m : Bool) (ct' : Ct)
    (hwf : WFp ct.hp) (h : templateQ1 fuel x ct = .ok (m, ct')) :
    WFp ct'.hp := by
  rw [templateQ1] at h
  obtain ⟨nd, _, h⟩ := bind_ok_inv h
  try simp only [] at h
  split at h
  · have he : ct = ct' := congrArg Prod.snd (Except.ok.inj h)
    exact he ▸ hwf
  · obtain ⟨it, _, h⟩ := bind_ok_inv h
    obtain ⟨allFull, _, h⟩ := bind_ok_inv h
    try simp only [] at h
    split at h
    · obtain ⟨hp1, hh1, h⟩ := bind_ok_inv h
      obtain rfl := congrArg Prod.snd (Except.ok.inj h)
      exact wf_labelAsFull _ _ _ hwf hh1
    · have he : ct = ct' := congrArg Prod.snd (Except.ok.inj h)
      exact he ▸ hwf

theorem wf_templateQ2 (fuel x : Nat) (ct : Ct) (m : Bool) (ct' : Ct)
    (hwf : WFp ct.hp) (h : templateQ2 fuel x ct = .ok (m, ct')) :
    WFp ct'.hp := by
  rw [templateQ2] at h
  obtain ⟨nd, _, h⟩ := bind_ok_inv h
  try simp only [] at h
  split at h
  · have he : ct = ct' := congrArg Prod.snd (Except.ok.inj h)
    exact he ▸ hwf
  · obtain ⟨matched, _, h⟩ := bind_ok_inv h
    try simp only [] at h
    split at h
    · have he : ct = ct' := congrArg Prod.snd (Except.ok.inj h)
      exact he ▸ hwf
    · split at h
      · obtain ⟨hp1, hh1, h⟩ := bind_ok_inv h
        have hwf1 : WFp hp1 := Except.ok.inj hh1 ▸ hwf
        obtain ⟨hp5, hh5, h⟩ := bind_ok_inv h
        have hwf5 : WFp hp5 := wf_upd _ _ _ _ hwf1 hh5
        obtain ⟨nd2, _, h⟩ := bind_ok_inv h
        try simp only [] at h
        split at h
        · obtain ⟨hp6, hh6, h⟩ := bind_ok_inv h
          have hwf6 : WFp hp6 := Except.ok.inj hh6 ▸ hwf5
          obtain rfl := congrArg Prod.snd (Except.ok.inj h)
          exact hwf6
        · obtain ⟨hp6, hh6, h⟩ := bind_ok_inv h
          have hwf6 : WFp hp6 := wf_upd _ _ _ _ hwf5 hh6
          obtain rfl := congrArg Prod.snd (Except.ok.inj h)
          exact hwf6
      · try simp only [] at h
        obtain ⟨fullChild, _, h⟩ := bind_ok_inv h
        obtain ⟨emptyChild, _, h⟩ := bind_ok_inv h
        obtain ⟨fullSib, _, h⟩ := bind_ok_inv h
        obtain ⟨emptySib, _, h⟩ := bind_ok_inv h
        obtain ⟨hp2, hh2, h⟩ := bind_ok_inv h
        have hwf2 : WFp hp2 := wf_q2Splice _ _ _ _ _ _ hwf hh2
        obtain ⟨hp3, hh3, h⟩ := bind_ok_inv h
        have hwf3 : WFp hp3 := wf_q2Splice _ _ _ _ _ _ hwf2 hh3
        obtain ⟨hp4, hh4, h⟩ := bind_ok_inv h
        have hwf4 : WFp hp4 := wf_forgetChildren _ _ _ hwf3 hh4
        obtain ⟨hp1, hh1, h⟩ := bind_ok_inv h
        have hwf1 : WFp hp1 := Except.ok.inj hh1 ▸ wf_del _ _ hwf4
        obtain ⟨hp5, hh5, h⟩ := bind_ok_inv h
        have hwf5 : WFp hp5 := wf_upd _ _ _ _ hwf1 hh5
        obtain ⟨nd2, _, h⟩ := bind_ok_inv h
        try simp only [] at h
        split at h
        · obtain ⟨hp6, hh6, h⟩ := bind_ok_inv h
          have hwf6 : WFp hp6 := Except.ok.inj hh6 ▸ hwf5
          obtain rfl := congrArg Prod.snd (Except.ok.inj h)
          exact hwf6
        · obtain ⟨hp6, hh6, h⟩ := bind_ok_inv h
          have hwf6 : WFp hp6 := wf_upd _ _ _ _ hwf5 hh6
          obtain rfl := congrArg Prod.snd (Except.ok.inj h)
          exact hwf6

theorem wf_templateQ3 (fuel x : Nat) (ct : Ct) (m : Bool) (ct' : Ct)
    (hwf : WFp ct.hp) (h : templateQ3 fuel x ct = .ok (m, ct')) :
    WFp ct'.hp := by
  rw [templateQ3] at h
  obtain ⟨nd, _, h⟩ := bind_ok_inv h
  try simp only [] at h
  split at h
  · have he : ct = ct' := congrArg Prod.snd (Except.ok.inj h)
    exact he ▸ hwf
  · split at h
    · have he : ct = ct' := congrArg Prod.snd (Except.ok.inj h)
      exact he ▸ hwf
    · obtain ⟨it, _, h⟩ := bind_ok_inv h
      obtain ⟨scanOk, _, h⟩ := bind_ok_inv h
      try simp only [] at h
      split at h
      · have he : ct = ct' := congrArg Prod.snd (Except.ok.inj h)
        exact he ▸ hwf
      · obtain ⟨ct1, hc1, h⟩ := bind_ok_inv h
        have hwf1 : WFp ct1.hp :=
          foldlM_pres (fun c => WFp c.hp) (q3MergeOne x)
            (fun b a b2 hb hf => wf_q3MergeOne x b a b2 hb hf)
            _ ct ct1 hwf hc1
        obtain rfl := congrArg Prod.snd (Except.ok.inj h)
        exact hwf1

theorem wf_templateP1 (isRoot : Bool) (fuel x : Nat) (ct : Ct) (m : Bool)
    (ct' : Ct) (hwf : WFp ct.hp)
    (h : templateP1 isRoot fuel x ct = .ok (m, ct')) : WFp ct'.hp := by
  rw [templateP1] at h
  obtain ⟨nd, _, h⟩ := bind_ok_inv h
  try simp only [] at h
  split at h
  · have he : ct = ct' := congrArg Prod.snd (Except.ok.inj h)
    exact he ▸ hwf
  · split at h
    · obtain rfl := congrArg Prod.snd (Except.ok.inj h)
      exact wf_set _ _ _ hwf
    · split at h
      · exact absurd h (by simp)
      · obtain ⟨hp1, hh1, h⟩ := bind_ok_inv h
        obtain rfl := congrArg Prod.snd (Except.ok.inj h)
        exact wf_upd _ _ _ _ (wf_set _ _ _ hwf) hh1

theorem wf_templateP2 (fuel x : Nat) (ct : Ct) (m : Bool) (ct' : Ct)
    (hwf : WFp ct.hp) (h : templateP2 fuel x ct = .ok (m, ct')) :
    WFp ct'.hp := by
  rw [templateP2] at h
  obtain ⟨nd, _, h⟩ := bind_ok_inv h
  try simp only [] at h
  split at h
  · have he : ct = ct' := congrArg Prod.snd (Except.ok.inj h)
    exact he ▸ hwf
  · split at h
    · obtain ⟨hp1, hh1, h⟩ := bind_ok_inv h
      have hwf1 : WFp hp1 := wf_moveFullChildren _ _ _ _ (wf_alloc _ _ hwf) hh1
      obtain ⟨hp2, hh2, h⟩ := bind_ok_inv h
      obtain ⟨hp3, hh3, h⟩ := bind_ok_inv h
      obtain rfl := congrArg Prod.snd (Except.ok.inj h)
      exact wf_upd _ _ _ _ (wf_upd _ _ _ _ hwf1 hh2) hh3
    · obtain ⟨hp2, hh2, h⟩ := bind_ok_inv h
      have hwf2 : WFp hp2 := Except.ok.inj hh2 ▸ hwf
      obtain ⟨hp3, hh3, h⟩ := bind_ok_inv h
      obtain rfl := congrArg Prod.snd (Except.ok.inj h)
      exact wf_upd _ _ _ _ hwf2 hh3

theorem wf_templateP3 (fuel x : Nat) (ct : Ct) (m : Bool) (ct' : Ct)
    (hwf : WFp ct.hp) (h : templateP3 fuel x ct = .ok (m, ct')) :
    WFp ct'.hp := by
  rw [templateP3] at h
  obtain ⟨nd, _, h⟩ := bind_ok_inv h
  try simp only [] at h
  split at h
  · have he : ct = ct' := congrArg Prod.snd (Except.ok.inj h)
    exact he ▸ hwf
  · obtain ⟨pfc, hfc, h⟩ := bind_ok_inv h
    obtain ⟨fullChild, hp1⟩ := pfc
    try simp only [] at h
    have hwf1 : WFp hp1 := wf_fullChildRep _ _ _ _ _ hwf hfc
    split at h
    · obtain ⟨y, hy, h⟩ := bind_ok_inv h
      exact absurd hy (by simp)
    · obtain ⟨hp3, hh3, h⟩ := bind_ok_inv h
      have hwf3 : WFp hp3 :=
        wf_replacePartialChild _ _ _ _ _ (wf_alloc _ _ hwf1) hh3
      obtain ⟨hp4, hh4, h⟩ := bind_ok_inv h
      have hwf4 : WFp hp4 := wf_upd _ _ _ _ hwf3 hh4
      obtain ⟨hp5, hh5, h⟩ := bind_ok_inv h
      have hwf5 : WFp hp5 := wf_upd _ _ _ _ hwf4 hh5
      obtain ⟨ndL, _, h⟩ := bind_ok_inv h
      try simp only [] at h
      obtain ⟨pec, hec, h⟩ := bind_ok_inv h
      obtain ⟨emptyChild, hp6⟩ := pec
      try simp only [] at h
      have hwf6 : WFp hp6 := wf_p3EmptyRep _ _ _ _ _ hwf5 hec
      obtain ⟨hp7, hh7, h⟩ := bind_ok_inv h
      have hwf7 : WFp hp7 := wf_upd _ _ _ _ hwf6 hh7
      obtain ⟨hp8, hh8, h⟩ := bind_ok_inv h
      have hwf8 : WFp hp8 := wf_upd _ _ _ _ hwf7 hh8
      obtain ⟨hp9, hh9, h⟩ := bind_ok_inv h
      have hwf9 : WFp hp9 := wf_upd _ _ _ _ hwf8 hh9
      obtain ⟨hp10, hh10, h⟩ := bind_ok_inv h
      have hwf10 : WFp hp10 := wf_upd _ _ _ _ hwf9 hh10
      obtain ⟨hp11, hh11, h⟩ := bind_ok_inv h
      have hwf11 : WFp hp11 := wf_upd _ _ _ _ hwf10 hh11
      obtain rfl := congrArg Prod.snd (Except.ok.inj h)
      exact hwf11

theorem wf_p4MoveFull (hp : Hp) (x partialQnode fullC : Nat) (fcs : List Nat)
    (hp' : Hp) (hwf : WFp hp)
    (h : p4MoveFull hp x partialQnode fullC fcs = .ok hp') : WFp hp' := by
  unfold p4MoveFull at h
  split at h
  · obtain ⟨pfc, hfc, h⟩ := bind_ok_inv h
    obtain ⟨fcr, hp1⟩ := pfc
    try simp only [] at h
    have hwf1 : WFp hp1 := wf_fullChildRep _ _ _ _ _ hwf hfc
    obtain ⟨hp2, hh2, h⟩ := bind_ok_inv h
    obtain ⟨hp3, hh3, h⟩ := bind_ok_inv h
    obtain ⟨hp4, hh4, h⟩ := bind_ok_inv h
    obtain ⟨hp5, hh5, h⟩ := bind_ok_inv h
    exact wf_upd _ _ _ _ (wf_upd _ _ _ _ (wf_upd _ _ _ _
      (wf_replaceEndmostChild _ _ _ _ _ (wf_upd _ _ _ _ hwf1 hh2) hh3)
      hh4) hh5) h
  · exact Except.ok.inj h ▸ hwf

theorem wf_templateP4 (fuel x : Nat) (ct : Ct) (m : Bool) (ct' : Ct)
    (hwf : WFp ct.hp) (h : templateP4 fuel x ct = .ok (m, ct')) :
    WFp ct'.hp := by
  rw [templateP4] at h
  obtain ⟨nd, _, h⟩ := bind_ok_inv h
  try simp only [] at h
  split at h
  · have he : ct = ct' := congrArg Prod.snd (Except.ok.inj h)
    exact he ▸ hwf
  · split at h
    · obtain ⟨partialQnode, _, h⟩ := bind_ok_inv h
      obtain ⟨pqn, _, h⟩ := bind_ok_inv h
      try simp only [] at h
      split at h
      · exact absurd h (by simp)
      · obtain ⟨emptyChild, _, h⟩ := bind_ok_inv h
        obtain ⟨fullChild, _, h⟩ := bind_ok_inv h
        obtain ⟨es0, _, h⟩ := bind_ok_inv h
        try simp only [] at h
        split at h
        · obtain ⟨hp1, hh1, h⟩ := bind_ok_inv h
          have hwf1 : WFp hp1 := wf_p4MoveFull _ _ _ _ _ _ hwf hh1
          obtain ⟨ndL, _, h⟩ := bind_ok_inv h
          try simp only [] at h
          split at h
          · obtain ⟨hp2, hh2, h⟩ := bind_ok_inv h
            have hwf2 : WFp hp2 := wf_upd _ _ _ _ hwf1 hh2
            split at h
            · split at h
              · obtain ⟨hp3, hh3, h⟩ := bind_ok_inv h
                obtain rfl := congrArg Prod.snd (Except.ok.inj h)
                exact wf_upd _ _ _ _ hwf2 hh3
              · obtain ⟨hp3, hh3, h⟩ := bind_ok_inv h
                have hwf3 : WFp hp3 :=
                  foldlM_pres WFp _
                    (fun b a b2 hb hf => wf_replaceImmediateSibling _ _ _ _ _ hb hf)
                    _ _ _ hwf2 hh3
                split at h
                · obtain ⟨hp4, hh4, h⟩ := bind_ok_inv h
                  obtain rfl := congrArg Prod.snd (Except.ok.inj h)
                  exact wf_replaceEndmostChild _ _ _ _ _ hwf3 hh4
                · obtain ⟨hp4, hh4, h⟩ := bind_ok_inv h
                  have hwf4 : WFp hp4 := Except.ok.inj hh4 ▸ hwf3
                  obtain rfl := congrArg Prod.snd (Except.ok.inj h)
                  exact hwf4
            · obtain rfl := congrArg Prod.snd (Except.ok.inj h)
              exact hwf2
          · obtain rfl := congrArg Prod.snd (Except.ok.inj h)
            exact hwf1
        · have he : ct = ct' := congrArg Prod.snd (Except.ok.inj h)
          exact he ▸ hwf
    · obtain ⟨y, hy, h⟩ := bind_ok_inv h
      exact absurd hy (by simp)

theorem wf_p5MoveFull (hp : Hp) (x partialQnode fullC : Nat) (fcs : List Nat)
    (hp' : Hp) (hwf : WFp hp)
    (h : p5MoveFull hp x partialQnode fullC fcs = .ok hp') : WFp hp' := by
  unfold p5MoveFull at h
  split at h
  · obtain ⟨pfc, hfc, h⟩ := bind_ok_inv h
    obtain ⟨fcr, hp1⟩ := pfc
    try simp only [] at h
    have hwf1 : WFp hp1 := wf_fullChildRep _ _ _ _ _ hwf hfc
    obtain ⟨hp2, hh2, h⟩ := bind_ok_inv h
    obtain ⟨hp3, hh3, h⟩ := bind_ok_inv h
    obtain ⟨hp4, hh4, h⟩ := bind_ok_inv h
    obtain ⟨hp5, hh5, h⟩ := bind_ok_inv h
    exact wf_replaceEndmostChild _ _ _ _ _ (wf_upd _ _ _ _ (wf_upd _ _ _ _
      (wf_upd _ _ _ _ (wf_upd _ _ _ _ hwf1 hh2) hh3) hh4) hh5) h
  · exact Except.ok.inj h ▸ hwf

theorem wf_p5MoveEmpty (hp : Hp) (x partialQnode emptyC : Nat)
    (emptySibling : Option Nat) (ndL : Node) (hp' : Hp) (hwf : WFp hp)
    (h : p5MoveEmpty hp x partialQnode emptyC emptySibling ndL = .ok hp') :
    WFp hp' := by
  unfold p5MoveEmpty at h
  split at h
  · split at h
    · split at h
      · obtain ⟨ecr, _, h⟩ := bind_ok_inv h
        try simp only [] at h
        obtain ⟨hp1, hh1, h⟩ := bind_ok_inv h
        have hwf1 : WFp hp1 := Except.ok.inj hh1 ▸ hwf
        obtain ⟨hp2, hh2, h⟩ := bind_ok_inv h
        obtain ⟨hp3, hh3, h⟩ := bind_ok_inv h
        obtain ⟨hp4, hh4, h⟩ := bind_ok_inv h
        exact wf_replaceEndmostChild _ _ _ _ _ (wf_upd _ _ _ _
          (wf_upd _ _ _ _ (wf_upd _ _ _ _ hwf1 hh2) hh3) hh4) h
      · obtain ⟨y, hy, h⟩ := bind_ok_inv h
        exact absurd hy (by simp)
    · obtain ⟨ecr, _, h⟩ := bind_ok_inv h
      try simp only [] at h
      obtain ⟨hp1, hh1, h⟩ := bind_ok_inv h
      have hwf1 : WFp hp1 := wf_upd _ _ _ _ hwf hh1
      obtain ⟨hp2, hh2, h⟩ := bind_ok_inv h
      obtain ⟨hp3, hh3, h⟩ := bind_ok_inv h
      obtain ⟨hp4, hh4, h⟩ := bind_ok_inv h
      exact wf_replaceEndmostChild _ _ _ _ _ (wf_upd _ _ _ _
        (wf_upd _ _ _ _ (wf_upd _ _ _ _ hwf1 hh2) hh3) hh4) h
  · exact Except.ok.inj h ▸ hwf

end PQ

namespace PQ

theorem wf_templateP5 (fuel x : Nat) (ct : Ct) (m : Bool) (ct' : Ct)
    (hwf : WFp ct.hp) (h : templateP5 fuel x ct = .ok (m, ct')) :
    WFp ct'.hp := by
  rw [templateP5] at h
  obtain ⟨nd, _, h⟩ := bind_ok_inv h
  try simp only [] at h
  split at h
  · have he : ct = ct' := congrArg Prod.snd (Except.ok.inj h)
    exact he ▸ hwf
  · split at h
    · obtain ⟨partialQnode, _, h⟩ := bind_ok_inv h
      obtain ⟨pqn, _, h⟩ := bind_ok_inv h
      try simp only [] at h
      split at h
      · exact absurd h (by simp)
      · obtain ⟨emptyChild, _, h⟩ := bind_ok_inv h
        obtain ⟨fullChild, _, h⟩ := bind_ok_inv h
        obtain ⟨emptySibling, _, h⟩ := bind_ok_inv h
        try simp only [] at h
        split at h
        · obtain ⟨hp1, hh1, h⟩ := bind_ok_inv h
          have hwf1 : WFp hp1 := wf_upd _ _ _ _ hwf hh1
          split at h
          · obtain ⟨y, hy, h⟩ := bind_ok_inv h
            exact absurd hy (by simp)
          · obtain ⟨hp2, hh2, h⟩ := bind_ok_inv h
            have hwf2 : WFp hp2 := wf_upd _ _ _ _ hwf1 hh2
            obtain ⟨hp3, hh3, h⟩ := bind_ok_inv h
            have hwf3 : WFp hp3 := wf_upd _ _ _ _ hwf2 hh3
            split at h
            · obtain ⟨y, hy, h⟩ := bind_ok_inv h
              exact absurd hy (by simp)
            · split at h
              · obtain ⟨hp4, hh4, h⟩ := bind_ok_inv h
                have hwf4 : WFp hp4 := wf_replaceCircularLink _ _ _ _ _ hwf3 hh4
                obtain ⟨hp5, hh5, h⟩ := bind_ok_inv h
                have hwf5 : WFp hp5 := wf_p5MoveFull _ _ _ _ _ _ hwf4 hh5
                obtain ⟨ndL, _, h⟩ := bind_ok_inv h
                try simp only [] at h
                obtain ⟨hp6, hh6, h⟩ := bind_ok_inv h
                have hwf6 : WFp hp6 := wf_p5MoveEmpty _ _ _ _ _ _ _ hwf5 hh6
                obtain ⟨ndL2, _, h⟩ := bind_ok_inv h
                try simp only [] at h
                split at h
                · obtain ⟨hp7, hh7, h⟩ := bind_ok_inv h
                  have hwf7 : WFp hp7 :=
                    Except.ok.inj hh7 ▸ wf_del _ _ (wf_set _ _ _ hwf6)
                  obtain rfl := congrArg Prod.snd (Except.ok.inj h)
                  exact hwf7
                · obtain ⟨hp7, hh7, h⟩ := bind_ok_inv h
                  have hwf7 : WFp hp7 := Except.ok.inj hh7 ▸ hwf6
                  obtain rfl := congrArg Prod.snd (Except.ok.inj h)
                  exact hwf7
              · obtain ⟨hp4a, hh4a, h⟩ := bind_ok_inv h
                have hwf4a : WFp hp4a :=
                  foldlM_pres WFp _
                    (fun b a b2 hb hf => wf_replaceImmediateSibling _ _ _ _ _ hb hf)
                    _ _ _ hwf3 hh4a
                obtain ⟨hp4, hh4, h⟩ := bind_ok_inv h
                have hwf4 : WFp hp4 := wf_replaceEndmostChild _ _ _ _ _ hwf4a hh4
                obtain ⟨hp5, hh5, h⟩ := bind_ok_inv h
                have hwf5 : WFp hp5 := wf_p5MoveFull _ _ _ _ _ _ hwf4 hh5
                obtain ⟨ndL, _, h⟩ := bind_ok_inv h
                try simp only [] at h
                obtain ⟨hp6, hh6, h⟩ := bind_ok_inv h
                have hwf6 : WFp hp6 := wf_p5MoveEmpty _ _ _ _ _ _ _ hwf5 hh6
                obtain ⟨ndL2, _, h⟩ := bind_ok_inv h
                try simp only [] at h
                split at h
                · obtain ⟨hp7, hh7, h⟩ := bind_ok_inv h
                  have hwf7 : WFp hp7 :=
                    Except.ok.inj hh7 ▸ wf_del _ _ (wf_set _ _ _ hwf6)
                  obtain rfl := congrArg Prod.snd (Except.ok.inj h)
                  exact hwf7
                · obtain ⟨hp7, hh7, h⟩ := bind_ok_inv h
                  have hwf7 : WFp hp7 := Except.ok.inj hh7 ▸ hwf6
                  obtain rfl := congrArg Prod.snd (Except.ok.inj h)
                  exact hwf7
        · have he : ct = ct' := congrArg Prod.snd (Except.ok.inj h)
          exact he ▸ hwf
    · obtain ⟨y, hy, h⟩ := bind_ok_inv h
      exact absurd hy (by simp)

theorem wf_p6MergeFull (hp : Hp) (x pq1 fullC1 fullC2 : Nat) (fcs : List Nat)
    (hp' : Hp) (hwf : WFp hp)
    (h : p6MergeFull hp x pq1 fullC1 fullC2 fcs = .ok hp') : WFp hp' := by
  unfold p6MergeFull at h
  split at h
  · obtain ⟨pfc, hfc, h⟩ := bind_ok_inv h
    obtain ⟨fcr, hp1⟩ := pfc
    try simp only [] at h
    have hwf1 : WFp hp1 := wf_fullChildRep _ _ _ _ _ hwf hfc
    obtain ⟨hp2, hh2, h⟩ := bind_ok_inv h
    obtain ⟨hp3, hh3, h⟩ := bind_ok_inv h
    obtain ⟨hp4, hh4, h⟩ := bind_ok_inv h
    obtain ⟨hp5, hh5, h⟩ := bind_ok_inv h
    obtain ⟨hp6, hh6, h⟩ := bind_ok_inv h
    exact wf_upd _ _ _ _ (wf_upd _ _ _ _ (wf_upd _ _ _ _ (wf_upd _ _ _ _
      (wf_upd _ _ _ _ (wf_upd _ _ _ _ hwf1 hh2) hh3) hh4) hh5) hh6) h
  · obtain ⟨hp1, hh1, h⟩ := bind_ok_inv h
    exact wf_upd _ _ _ _ (wf_upd _ _ _ _ hwf hh1) h

theorem wf_templateP6 (fuel x : Nat) (ct : Ct) (m : Bool) (ct' : Ct)
    (hwf : WFp ct.hp) (h : templateP6 fuel x ct = .ok (m, ct')) :
    WFp ct'.hp := by
  rw [templateP6] at h
  obtain ⟨nd, _, h⟩ := bind_ok_inv h
  try simp only [] at h
  split at h
  · have he : ct = ct' := congrArg Prod.snd (Except.ok.inj h)
    exact he ▸ hwf
  · split at h
    · obtain ⟨pqp, _, h⟩ := bind_ok_inv h
      obtain ⟨pq1, pq2⟩ := pqp
      try simp only [] at h
      obtain ⟨emptyChild1, _, h⟩ := bind_ok_inv h
      obtain ⟨fullChild1, _, h⟩ := bind_ok_inv h
      try simp only [] at h
      split at h
      · obtain ⟨emptyChild2, _, h⟩ := bind_ok_inv h
        obtain ⟨fullChild2, _, h⟩ := bind_ok_inv h
        try simp only [] at h
        split at h
        · obtain ⟨hp1, hh1, h⟩ := bind_ok_inv h
          have hwf1 : WFp hp1 := wf_p6MergeFull _ _ _ _ _ _ _ hwf hh1
          obtain ⟨hp2, hh2, h⟩ := bind_ok_inv h
          have hwf2 : WFp hp2 := wf_replaceEndmostChild _ _ _ _ _ hwf1 hh2
          obtain ⟨hp3, hh3, h⟩ := bind_ok_inv h
          have hwf3 : WFp hp3 := wf_upd _ _ _ _ hwf2 hh3
          obtain ⟨hp4, hh4, h⟩ := bind_ok_inv h
          have hwf4 : WFp hp4 := wf_upd _ _ _ _ hwf3 hh4
          obtain ⟨hp5, hh5, h⟩ := bind_ok_inv h
          have hwf5 : WFp (hp5.del pq2) :=
            wf_del _ _ (wf_forgetChildren _ _ _ hwf4 hh5)
          obtain ⟨ndL, _, h⟩ := bind_ok_inv h
          try simp only [] at h
          split at h
          · obtain ⟨hp6, hh6, h⟩ := bind_ok_inv h
            have hwf6 : WFp hp6 := wf_upd _ _ _ _ hwf5 hh6
            split at h
            · obtain ⟨hp7, hh7, h⟩ := bind_ok_inv h
              have hwf7 : WFp hp7 := wf_upd _ _ _ _ hwf6 hh7
              obtain ⟨pn, _, h⟩ := bind_ok_inv h
              try simp only [] at h
              split at h
              · obtain ⟨hp8, hh8, h⟩ := bind_ok_inv h
                obtain rfl := congrArg Prod.snd (Except.ok.inj h)
                exact wf_replaceCircularLink _ _ _ _ _ hwf7 hh8
              · obtain ⟨hp8, hh8, h⟩ := bind_ok_inv h
                have hwf8 : WFp hp8 :=
                  foldlM_pres WFp _
                    (fun b a b2 hb hf => wf_replaceImmediateSibling _ _ _ _ _ hb hf)
                    _ _ _ hwf7 hh8
                obtain ⟨hp9, hh9, h⟩ := bind_ok_inv h
                obtain rfl := congrArg Prod.snd (Except.ok.inj h)
                exact wf_replaceEndmostChild _ _ _ _ _ hwf8 hh9
            · obtain ⟨hp7, hh7, h⟩ := bind_ok_inv h
              have hwf7 : WFp hp7 := wf_upd _ _ _ _ hwf6 hh7
              obtain ⟨ndL2, _, h⟩ := bind_ok_inv h
              try simp only [] at h
              obtain rfl := congrArg Prod.snd (Except.ok.inj h)
              exact wf_del _ _ (wf_set _ _ _ hwf7)
          · obtain rfl := congrArg Prod.snd (Except.ok.inj h)
            exact hwf5
        · have he : ct = ct' := congrArg Prod.snd (Except.ok.inj h)
          exact he ▸ hwf
      · have he : ct = ct' := congrArg Prod.snd (Except.ok.inj h)
        exact he ▸ hwf
    · obtain ⟨y, hy, h⟩ := bind_ok_inv h
      exact absurd hy (by simp)

end PQ

namespace PQ

theorem wf_dispatchNonRoot (fuel x : Nat) (ct : Ct) (m : Bool) (ct' : Ct)
    (hwf : WFp ct.hp) (h : dispatchNonRoot fuel x ct = .ok (m, ct')) :
    WFp ct'.hp := by
  rw [dispatchNonRoot] at h
  obtain ⟨p1, h1, h⟩ := bind_ok_inv h
  obtain ⟨m1, ct1⟩ := p1
  try simp only [] at h
  have hw1 : WFp ct1.hp := wf_templateL1 fuel x ct m1 ct1 hwf h1
  split at h
  · obtain rfl := congrArg Prod.snd (Except.ok.inj h)
    exact hw1
  · obtain ⟨p2, h2, h⟩ := bind_ok_inv h
    obtain ⟨m2, ct2⟩ := p2
    try simp only [] at h
    have hw2 : WFp ct2.hp := wf_templateP1 false fuel x ct1 m2 ct2 hw1 h2
    split at h
    · obtain rfl := congrArg Prod.snd (Except.ok.inj h)
      exact hw2
    · obtain ⟨p3, h3, h⟩ := bind_ok_inv h
      obtain ⟨m3, ct3⟩ := p3
      try simp only [] at h
      have hw3 : WFp ct3.hp := wf_templateP3 fuel x ct2 m3 ct3 hw2 h3
      split at h
      · obtain rfl := congrArg Prod.snd (Except.ok.inj h)
        exact hw3
      · obtain ⟨p4, h4, h⟩ := bind_ok_inv h
        obtain ⟨m4, ct4⟩ := p4
        try simp only [] at h
        have hw4 : WFp ct4.hp := wf_templateP5 fuel x ct3 m4 ct4 hw3 h4
        split at h
        · obtain rfl := congrArg Prod.snd (Except.ok.inj h)
          exact hw4
        · obtain ⟨p5, h5, h⟩ := bind_ok_inv h
          obtain ⟨m5, ct5⟩ := p5
          try simp only [] at h
          have hw5 : WFp ct5.hp := wf_templateQ1 fuel x ct4 m5 ct5 hw4 h5
          split at h
          · obtain rfl := congrArg Prod.snd (Except.ok.inj h)
            exact hw5
          · obtain ⟨p6, h6, h⟩ := bind_ok_inv h
            obtain ⟨m6, ct6⟩ := p6
            try simp only [] at h
            have hw6 : WFp ct6.hp := wf_templateQ2 fuel x ct5 m6 ct6 hw5 h6
            split at h
            · obtain rfl := congrArg Prod.snd (Except.ok.inj h)
              exact hw6
            · obtain rfl := congrArg Prod.snd (Except.ok.inj h)
              exact hw6

theorem wf_dispatchRoot (fuel x : Nat) (ct : Ct) (m : Bool) (ct' : Ct)
    (hwf : WFp ct.hp) (h : dispatchRoot fuel x ct = .ok (m, ct')) :
    WFp ct'.hp := by
  rw [dispatchRoot] at h
  obtain ⟨p1, h1, h⟩ := bind_ok_inv h
  obtain ⟨m1, ct1⟩ := p1
  try simp only [] at h
  have hw1 : WFp ct1.hp := wf_templateL1 fuel x ct m1 ct1 hwf h1
  split at h
  · obtain rfl := congrArg Prod.snd (Except.ok.inj h)
    exact hw1
  · obtain ⟨p2, h2, h⟩ := bind_ok_inv h
    obtain ⟨m2, ct2⟩ := p2
    try simp only [] at h
    have hw2 : WFp ct2.hp := wf_templateP1 true fuel x ct1 m2 ct2 hw1 h2
    split at h
    · obtain rfl := congrArg Prod.snd (Except.ok.inj h)
      exact hw2
    · obtain ⟨p3, h3, h⟩ := bind_ok_inv h
      obtain ⟨m3, ct3⟩ := p3
      try simp only [] at h
      have hw3 : WFp ct3.hp := wf_templateP2 fuel x ct2 m3 ct3 hw2 h3
      split at h
      · obtain rfl := congrArg Prod.snd (Except.ok.inj h)
        exact hw3
      · obtain ⟨p4, h4, h⟩ := bind_ok_inv h
        obtain ⟨m4, ct4⟩ := p4
        try simp only [] at h
        have hw4 : WFp ct4.hp := wf_templateP4 fuel x ct3 m4 ct4 hw3 h4
        split at h
        · obtain rfl := congrArg Prod.snd (Except.ok.inj h)
          exact hw4
        · obtain ⟨p5, h5, h⟩ := bind_ok_inv h
          obtain ⟨m5, ct5⟩ := p5
          try simp only [] at h
          have hw5 : WFp ct5.hp := wf_templateP6 fuel x ct4 m5 ct5 hw4 h5
          split at h
          · obtain rfl := congrArg Prod.snd (Except.ok.inj h)
            exact hw5
          · obtain ⟨p6, h6, h⟩ := bind_ok_inv h
            obtain ⟨m6, ct6⟩ := p6
            try simp only [] at h
            have hw6 : WFp ct6.hp := wf_templateQ1 fuel x ct5 m6 ct6 hw5 h6
            split at h
            · obtain rfl := congrArg Prod.snd (Except.ok.inj h)
              exact hw6
            · obtain ⟨p7, h7, h⟩ := bind_ok_inv h
              obtain ⟨m7, ct7⟩ := p7
              try simp only [] at h
              have hw7 : WFp ct7.hp := wf_templateQ2 fuel x ct6 m7 ct7 hw6 h7
              split at h
              · obtain rfl := congrArg Prod.snd (Except.ok.inj h)
                exact hw7
              · obtain ⟨p8, h8, h⟩ := bind_ok_inv h
                obtain ⟨m8, ct8⟩ := p8
                try simp only [] at h
                have hw8 : WFp ct8.hp := wf_templateQ3 fuel x ct7 m8 ct8 hw7 h8
                split at h
                · obtain rfl := congrArg Prod.snd (Except.ok.inj h)
                  exact hw8
                · obtain rfl := congrArg Prod.snd (Except.ok.inj h)
                  exact hw8

theorem wf_nonRootBookkeep (x : Nat) (q : List Nat) (ct : Ct)
    (q' : List Nat) (ct' : Ct) (hwf : WFp ct.hp)
    (h : nonRootBookkeep x q ct = .ok (q', ct')) : WFp ct'.hp := by
  rw [nonRootBookkeep] at h
  obtain ⟨nd, _, h⟩ := bind_ok_inv h
  try simp only [] at h
  split at h
  · exact absurd h (by simp)
  · obtain ⟨pn, _, h⟩ := bind_ok_inv h
    try simp only [] at h
    obtain rfl := congrArg Prod.snd (Except.ok.inj h)
    exact wf_set _ _ _ hwf

theorem wf_reduceStepLoop : ∀ (fuel ssize : Nat) (q : List Nat) (ct : Ct)
    (b : Bool) (ct' : Ct), WFp ct.hp →
    reduceStepLoop fuel ssize q ct = .ok (b, ct') → WFp ct'.hp := by
  intro fuel
  induction fuel with
  | zero =>
    intro ssize q ct b ct' hwf h
    rw [reduceStepLoop.eq_def] at h
    exact absurd h (by simp)
  | succ fuel ih =>
    intro ssize q ct b ct' hwf h
    cases q with
    | nil =>
      rw [reduceStepLoop.eq_def] at h
      try simp only [] at h
      obtain ⟨ct1, hc1, h⟩ := bind_ok_inv h
      obtain rfl := congrArg Prod.snd (Except.ok.inj h)
      exact wf_cleanPseudo _ _ hwf hc1
    | cons x q =>
      rw [reduceStepLoop.eq_def] at h
      try simp only [] at h
      obtain ⟨nd, _, h⟩ := bind_ok_inv h
      try simp only [] at h
      split at h
      · obtain ⟨pq2, hq2, h⟩ := bind_ok_inv h
        obtain ⟨q2, ct2⟩ := pq2
        try simp only [] at h
        have hwf2 : WFp ct2.hp := wf_nonRootBookkeep _ _ _ _ _ hwf hq2
        obtain ⟨pm, hm, h⟩ := bind_ok_inv h
        obtain ⟨m1, ct3⟩ := pm
        try simp only [] at h
        have hwf3 : WFp ct3.hp := wf_dispatchNonRoot _ _ _ _ _ hwf2 hm
        split at h
        · exact ih _ _ _ _ _ hwf3 h
        · obtain ⟨ct4, hc4, h⟩ := bind_ok_inv h
          obtain rfl := congrArg Prod.snd (Except.ok.inj h)
          exact wf_cleanPseudo _ _ hwf3 hc4
      · obtain ⟨pm, hm, h⟩ := bind_ok_inv h
        obtain ⟨m1, ct3⟩ := pm
        try simp only [] at h
        have hwf3 : WFp ct3.hp := wf_dispatchRoot _ _ _ _ _ hwf hm
        split at h
        · exact ih _ _ _ _ _ hwf3 h
        · obtain ⟨ct4, hc4, h⟩ := bind_ok_inv h
          obtain rfl := congrArg Prod.snd (Except.ok.inj h)
          exact wf_cleanPseudo _ _ hwf3 hc4

theorem wf_reduceStep (fuel : Nat) (S : List Int) (ct : Ct) (b : Bool)
    (ct' : Ct) (hwf : WFp ct.hp) (h : reduceStep fuel S ct = .ok (b, ct')) :
    WFp ct'.hp := by
  rw [reduceStep] at h
  obtain ⟨init, hin, h⟩ := bind_ok_inv h
  try simp only [] at h
  have hP : ∀ q1 hp1, init = some (q1, hp1) → WFp hp1 := by
    refine foldlM_pres (fun acc => ∀ q1 hp1, acc = some (q1, hp1) → WFp hp1)
      _ ?_ S (some ([], ct.hp)) init ?_ hin
    · intro b1 a b2 hb hstep
      cases b1 with
      | none =>
        have hb2 : b2 = none := (Except.ok.inj hstep).symm
        intro q1 hp1 heq
        rw [hb2] at heq
        exact absurd heq (by simp)
      | some p =>
        obtain ⟨q0, hp0⟩ := p
        try simp only [] at hstep
        split at hstep
        · have hb2 : b2 = none := (Except.ok.inj hstep).symm
          intro q1 hp1 heq
          rw [hb2] at heq
          exact absurd heq (by simp)
        · obtain ⟨hpu, hhu, hstep⟩ := bind_ok_inv hstep
          have hwfu : WFp hpu := wf_upd _ _ _ _ (hb q0 hp0 rfl) hhu
          have hb2 := (Except.ok.inj hstep).symm
          intro q1 hp1 heq
          rw [hb2] at heq
          have := Option.some.inj heq
          have h2 : hpu = hp1 := congrArg Prod.snd this
          exact h2 ▸ hwfu
    · intro q1 hp1 heq
      have := Option.some.inj heq
      have h2 : ct.hp = hp1 := congrArg Prod.snd this
      exact h2 ▸ hwf
  split at h
  · obtain rfl := congrArg Prod.snd (Except.ok.inj h)
    exact hwf
  · rename_i q1 hp1
    exact wf_reduceStepLoop fuel S.length q1 { ct with hp := hp1 } b ct'
      (hP q1 hp1 rfl) h

theorem reduce_false_inv (fuel : Nat) (S : List Int) (st st' : St)
    (hwf : WFp st.core.hp) (h : Reduce fuel S st = .ok (false, st')) :
    WFp st'.core.hp ∧ st'.reductions_ = st.reductions_ := by
  rw [Reduce] at h
  split at h
  · exact absurd (congrArg Prod.fst (Except.ok.inj h)) (by simp)
  · split at h
    · obtain rfl := congrArg Prod.snd (Except.ok.inj h)
      exact ⟨hwf, rfl⟩
    · split at h
      · exact absurd h (by simp)
      · rename_i ct hbub
        obtain rfl := congrArg Prod.snd (Except.ok.inj h)
        exact ⟨wf_bubble fuel S st.core false ct hwf hbub, rfl⟩
      · rename_i ct hbub
        have hwfct : WFp ct.hp := wf_bubble fuel S st.core true ct hwf hbub
        split at h
        · exact absurd h (by simp)
        · rename_i ct2 hrs
          obtain rfl := congrArg Prod.snd (Except.ok.inj h)
          exact ⟨wf_reduceStep fuel S ct false ct2 hwfct hrs, rfl⟩
        · rename_i ct2 hrs
          try simp only [] at h
          split at h
          · exact absurd h (by simp)
          · split at h
            · exact absurd h (by simp)
            · exact absurd (congrArg Prod.fst (Except.ok.inj h)) (by simp)

end PQ

namespace PQ

theorem wf_empty : WFp ({ } : Hp) :=
  fun p hp => absurd hp (List.not_mem_nil p)

theorem copy_frontier (f : Nat) (src : Hp) (i : Nat) (tgt : Hp) (nid : Nat)
    (tgt' : Hp) (hwf : WFp tgt)
    (h : copyNodeX f src i tgt = .ok (nid, tgt')) :
    ∀ g, findFrontierN g tgt' nid = findFrontierN g src i := by
  obtain ⟨hnid, hlt, hwf', hframe, hex, hwalk⟩ :=
    (copy_sim f).1 src i tgt nid tgt' hwf h
  obtain ⟨ndc, hndc, _⟩ := hex
  refine hwalk tgt' (fun j _ _ => rfl) ?_ ⟨ndc, hndc⟩
  intro a b ha hb
  have hab : a = b := Option.some.inj (ha.symm.trans hb)
  subst hab
  exact sameCore_refl a

end PQ

namespace PQ

/-- The state fed to `SafeReduce` in the C6 witness: a fresh one-leaf tree
whose sticky bit is already set, so the inner `Reduce` fails fast. -/
def c6_state : St := { pqtreeNew [1] with invalid_ := true }

/-- The state `SafeReduce` returns on that failing run. -/
def c6_out : St :=
  match SafeReduce 20 [2, 3] c6_state with
  | .ok (_, s) => s
  | _ => c6_state

/-- C6: `SafeReduce` is atomic on failure — when it returns `false` the
returned tree reports the same reductions log and the same frontier (at
every walk fuel) as the tree before the call; when it returns `true` its
effect is exactly that of the successful plain `Reduce`. -/
theorem safeReduce_atomic (fuel : Nat) (S : List Int) (st : St) (b : Bool)
    (st'' : St) (hwf : WFp st.core.hp)
    (h : SafeReduce fuel S st = .ok (b, st'')) :
    (b = true → Reduce fuel S st = .ok (true, st'')) ∧
    (b = false → GetReductions st'' = GetReductions st ∧
      ∀ g, Frontier g st'' = Frontier g st) := by
  rw [SafeReduce] at h
  obtain ⟨pc, hcopy, h⟩ := bind_ok_inv h
  obtain ⟨cRoot, cHp⟩ := pc
  try simp only [] at h
  obtain ⟨cPairs, hLv, h⟩ := bind_ok_inv h
  try simp only [] at h
  split at h
  · exact absurd h (by simp)
  · rename_i st' hred
    have hinj := Except.ok.inj h
    constructor
    · intro hb
      obtain rfl := congrArg Prod.snd hinj
      exact hred
    · intro hb
      have hfst : true = b := congrArg Prod.fst hinj
      rw [hb] at hfst
      exact absurd hfst (by simp)
  · rename_i st' hred
    obtain ⟨pr, hcopy2, h⟩ := bind_ok_inv h
    obtain ⟨rRoot, hp2⟩ := pr
    try simp only [] at h
    obtain ⟨pairs, _, h⟩ := bind_ok_inv h
    try simp only [] at h
    have hinj := Except.ok.inj h
    have hfst : false = b := congrArg Prod.fst hinj
    obtain rfl := congrArg Prod.snd hinj
    constructor
    · intro htrue
      rw [htrue] at hfst
      exact absurd hfst (by simp)
    · intro _
      obtain ⟨hwf', hredlog⟩ := reduce_false_inv fuel S st st' hwf hred
      constructor
      · exact hredlog
      · intro g
        show findFrontierN g hp2 rRoot = Frontier g st
        have h2 := copy_frontier fuel cHp cRoot st'.core.hp rRoot hp2 hwf' hcopy2
        have h1 := copy_frontier fuel st.core.hp st.core.root_ { } cRoot cHp
          wf_empty hcopy
        rw [h2 g, h1 g]
        rfl

end PQ

namespace PQ

/-- Witness for C6: a concrete failing `SafeReduce` run (on a poisoned
one-leaf tree) whose returned tree reports the pre-call reductions log and
frontier. -/
theorem safeReduce_atomic_witness :
    GetReductions c6_out = GetReductions c6_state ∧
    Frontier 10 c6_out = Frontier 10 c6_state :=
  ⟨((safeReduce_atomic 20 [2, 3] c6_state false c6_out
      (by unfold WFp; decide) rfl).2 rfl).1,
   ((safeReduce_atomic 20 [2, 3] c6_state false c6_out
      (by unfold WFp; decide) rfl).2 rfl).2 10⟩

end PQ
